import Mathlib

/-! PrimeCalculator: a shallow embedding of `src/main.cpp`.

`unsigned int` values are natural numbers reduced modulo `2 ^ 32` after every
arithmetic operation that can leave the range.  Every loop whose exit depends
on such values takes a loop budget (`fuel`); a run that exhausts it reports
`Fault.outOfFuel`, so a result `.ok r` means that the loop was left through its
guard.

The flag array `std::vector<bool>` is a `List Bool` of the allocated size.  A
read `sieve[i]` outside the array has no value and reports `Fault.outOfBounds`.
For a write `sieve[i] = false` outside the array, which is undefined behaviour
in the source, there are two readings.  `initSieve` and the methods built on it
leave every flag as it is (`List.set`); this differs from the source only for
the bounds 0 and `2^32 - 1`, the two bounds at which the initialisation writes
outside the array.  `initSieveChecked` and the methods built on it report the
write as `Fault.outOfBounds`.  For `1 ≤ N < 2^32 - 1` the two agree
(`initSieveChecked_eq`).

The threads of `multithreadedSieveOfEratosthenes` are modelled twice.
`runWorkers` runs the passes of the workers one after the other, each to its end
before the next starts.  `runSchedule` interleaves the threads step by step under
an arbitrary schedule, a step being the local computation up to the next access
to memory; the array is packed into words of `WORD` flags, and the write
`sieve[i] = false` is a load of the word of `i` followed by a store of that word
with one bit cleared, so that a store can undo the write another thread made to
the same word in between.  Every result of `runWorkers` is the result of some
schedule (`markSched_of_runWorkers`).
-/

/-- The number of values of the C++ type `unsigned int` (32 bits). -/
def UINT : Nat := 4294967296

/-- The ways in which a modelled run can fail to produce a value. -/
inductive Fault where
  | outOfFuel
  | outOfBounds
  deriving DecidableEq, Repr

deriving instance DecidableEq for Except

/-- The data members of the class `PrimeCalculator` that the three methods
read or write (`elapsedTime` and the unused mutex are left out). -/
structure PrimeCalculator where
  limit : Nat
  primes : List Nat
  primeCount : Nat
  numThreads : Nat
  deriving DecidableEq, Repr

namespace PrimeCalculator

/-- The loop `for (unsigned int i = 5; i * i <= n; i += 6)` of `isPrime`,
entered at `i`.  The value `i` is odd in every reachable state, so the
divisors `i` and `i + 2` are never zero. -/
def isPrimeLoop (n : Nat) : Nat → Nat → Except Fault Bool
  | 0, _ => .error .outOfFuel
  | fuel + 1, i =>
    if (i * i) % UINT ≤ n then
      if n % i = 0 ∨ n % ((i + 2) % UINT) = 0 then .ok false
      else isPrimeLoop n fuel ((i + 6) % UINT)
    else .ok true

/-- The static method `isPrime`. -/
def isPrime (fuel n : Nat) : Except Fault Bool :=
  if n ≤ 1 then .ok false
  else if n ≤ 3 then .ok true
  else if n % 2 = 0 ∨ n % 3 = 0 then .ok false
  else isPrimeLoop n fuel 5

/-- The statement `primes.push_back(v); ++primeCount;` on the pair
`(primes, primeCount)`. -/
def pushPrime (acc : List Nat × Nat) (v : Nat) : List Nat × Nat :=
  (acc.1 ++ [v], (acc.2 + 1) % UINT)

/-- The loop `for (unsigned int n = 5; n <= limit; n += 6)` of
`classicPrimalityTest`, entered at `n`; `F` is the budget handed to each call
of `isPrime`. -/
def classicLoop (F limit : Nat) : Nat → Nat → List Nat × Nat → Except Fault (List Nat × Nat)
  | 0, _, _ => .error .outOfFuel
  | fuel + 1, n, acc =>
    if n ≤ limit then do
      let b1 ← isPrime F n
      let acc1 := if b1 then pushPrime acc n else acc
      let n2 := (n + 2) % UINT
      let b2 ← if n2 ≤ limit then isPrime F n2 else pure false
      let acc2 := if b2 then pushPrime acc1 n2 else acc1
      classicLoop F limit fuel ((n + 6) % UINT) acc2
    else .ok acc

/-- The method `classicPrimalityTest`. -/
def classicPrimalityTest (F : Nat) (c : PrimeCalculator) : Except Fault PrimeCalculator := do
  let acc0 : List Nat × Nat := ([], 0)
  let acc1 := if c.limit ≥ 2 then pushPrime acc0 2 else acc0
  let acc2 := if c.limit ≥ 3 then pushPrime acc1 3 else acc1
  let acc ← classicLoop F c.limit F 5 acc2
  pure { c with primes := acc.1, primeCount := acc.2 }

/-- The two statements `std::vector<bool> sieve(limit + 1, true);` and
`sieve[0] = sieve[1] = false;`.  The array has `(limit + 1) mod 2^32` flags.
For `1 ≤ limit < 2^32 - 1` both writes are inside the array.  For the bounds 0
and `2^32 - 1` a write falls outside it, which is undefined behaviour in the
source; here such a write changes no flag, and `initSieveChecked` reports it. -/
def initSieve (limit : Nat) : List Bool :=
  ((List.replicate ((limit + 1) % UINT) true).set 1 false).set 0 false

/-- The read `sieve[i]`; outside the array it has no defined value. -/
def readFlag (sieve : List Bool) (i : Nat) : Except Fault Bool :=
  match sieve[i]? with
  | some b => .ok b
  | none => .error .outOfBounds

/-- The loop `for (unsigned int i = p * p; i <= limit; i += p) sieve[i] = false;`
of `sieveOfEratosthenes`, entered at `i`. -/
def seqInner (limit p : Nat) : Nat → Nat → List Bool → Except Fault (List Bool)
  | 0, _, _ => .error .outOfFuel
  | fuel + 1, i, sieve =>
    if i ≤ limit then seqInner limit p fuel ((i + p) % UINT) (sieve.set i false)
    else .ok sieve

/-- The loop `for (unsigned int p = 2; p * p <= limit; ++p)` of
`sieveOfEratosthenes`, entered at `p`. -/
def seqOuter (F limit : Nat) : Nat → Nat → List Bool → Except Fault (List Bool)
  | 0, _, _ => .error .outOfFuel
  | fuel + 1, p, sieve =>
    if (p * p) % UINT ≤ limit then do
      let b ← readFlag sieve p
      let sieve1 ← if b then seqInner limit p F ((p * p) % UINT) sieve else pure sieve
      seqOuter F limit fuel ((p + 1) % UINT) sieve1
    else .ok sieve

/-- The loop `for (unsigned int p = 2; p <= limit; ++p)` that both sieves use
to fill `primes` and `primeCount`, entered at `p`. -/
def extractLoop (limit : Nat) (sieve : List Bool) :
    Nat → Nat → List Nat × Nat → Except Fault (List Nat × Nat)
  | 0, _, _ => .error .outOfFuel
  | fuel + 1, p, acc =>
    if p ≤ limit then do
      let b ← readFlag sieve p
      extractLoop limit sieve fuel ((p + 1) % UINT) (if b then pushPrime acc p else acc)
    else .ok acc

/-- The marking phase of `sieveOfEratosthenes`: the final flag array. -/
def seqSieve (F limit : Nat) : Except Fault (List Bool) :=
  seqOuter F limit F 2 (initSieve limit)

/-- The method `sieveOfEratosthenes`. -/
def sieveOfEratosthenes (F : Nat) (c : PrimeCalculator) : Except Fault PrimeCalculator := do
  let sieve ← seqSieve F c.limit
  let acc ← extractLoop c.limit sieve F 2 ([], 0)
  pure { c with primes := acc.1, primeCount := acc.2 }

/-- The value of `chunkSize`: `(limit + numThreads - 1) / numThreads`. -/
def chunkSize (limit numThreads : Nat) : Nat :=
  ((limit + numThreads - 1) % UINT) / numThreads

/-- The value of `startRange` for thread `t`. -/
def startRange (limit numThreads t : Nat) : Nat :=
  (t * chunkSize limit numThreads) % UINT

/-- The value of `endRange` for thread `t`. -/
def endRange (limit numThreads t : Nat) : Nat :=
  min ((startRange limit numThreads t + chunkSize limit numThreads) % UINT) ((limit + 1) % UINT)

/-- The first index of a worker's inner loop:
`std::max(p * p, (startRange + p - 1) / p * p)`. -/
def firstIndex (start p : Nat) : Nat :=
  max ((p * p) % UINT) ((((start + p - 1) % UINT) / p * p) % UINT)

/-- The inner loop `for (i = ...; i < endRange; i += p) sieve[i] = false;` of a
worker, entered at `i`. -/
def workerInner (stop p : Nat) : Nat → Nat → List Bool → Except Fault (List Bool)
  | 0, _, _ => .error .outOfFuel
  | fuel + 1, i, sieve =>
    if i < stop then workerInner stop p fuel ((i + p) % UINT) (sieve.set i false)
    else .ok sieve

/-- The outer loop `for (unsigned int p = 2; p * p <= limit; ++p)` of a worker
with range `[start, stop)`, entered at `p`. -/
def workerOuter (F limit start stop : Nat) : Nat → Nat → List Bool → Except Fault (List Bool)
  | 0, _, _ => .error .outOfFuel
  | fuel + 1, p, sieve =>
    if (p * p) % UINT ≤ limit then do
      let b ← readFlag sieve p
      let sieve1 ← if b then workerInner stop p F (firstIndex start p) sieve else pure sieve
      workerOuter F limit start stop fuel ((p + 1) % UINT) sieve1
    else .ok sieve

/-- The body of the thread with range `[start, stop)`, run on its own from the
array state `sieve`. -/
def worker (F limit start stop : Nat) (sieve : List Bool) : Except Fault (List Bool) :=
  workerOuter F limit start stop F 2 sieve

/-- The passes of the workers named in `ts`, each run to completion before the
next one starts.  For `ts = [0, ..., numThreads - 1]` this is the one schedule
in which thread `t` returns before thread `t + 1` takes its first step; the
threads of the source may interleave in other ways, for which see
`runSchedule`. -/
def runWorkers (F limit numThreads : Nat) : List Nat → List Bool → Except Fault (List Bool)
  | [], sieve => .ok sieve
  | t :: ts, sieve => do
    let sieve1 ← worker F limit (startRange limit numThreads t) (endRange limit numThreads t) sieve
    runWorkers F limit numThreads ts sieve1

/-- The marking phase of `multithreadedSieveOfEratosthenes` when no two passes
overlap in time: the flag array after the workers `0, 1, ..., numThreads - 1`
have run one after the other.  The array after the join under an arbitrary
schedule is `parSieveSched`. -/
def parSieve (F limit numThreads : Nat) : Except Fault (List Bool) :=
  runWorkers F limit numThreads (List.range numThreads) (initSieve limit)

/-- The method `multithreadedSieveOfEratosthenes` when no two passes overlap in
time (see `parSieve`). -/
def multithreadedSieveOfEratosthenes (F : Nat) (c : PrimeCalculator) :
    Except Fault PrimeCalculator := do
  let sieve ← parSieve F c.limit c.numThreads
  let acc ← extractLoop c.limit sieve F 2 ([], 0)
  pure { c with primes := acc.1, primeCount := acc.2 }

/-- One access to the flag array: the read `sieve[i]` or the write
`sieve[i] = false`. -/
inductive Access where
  | read (i : Nat)
  | write (i : Nat)
  deriving DecidableEq, Repr

/-- The accesses made by `sieve[0] = sieve[1] = false;`, the right-hand
assignment first. -/
def initAccesses : List Access := [.write 1, .write 0]

/-- The effect of one access on the array under the conventions of `initSieve`
and `workerInner`: a write stores `false`, a read changes nothing. -/
def applyAccess (sieve : List Bool) : Access → List Bool
  | .read _ => sieve
  | .write i => sieve.set i false

/-- The inner loop of a worker as in `workerInner`, carrying next to the array
the list of the accesses made so far: each `sieve[i] = false` appends `write i`. -/
def workerInnerLog (stop p : Nat) :
    Nat → Nat → List Bool × List Access → Except Fault (List Bool × List Access)
  | 0, _, _ => .error .outOfFuel
  | fuel + 1, i, st =>
    if i < stop then
      workerInnerLog stop p fuel ((i + p) % UINT) (st.1.set i false, st.2 ++ [.write i])
    else .ok st

/-- The outer loop of a worker as in `workerOuter`, carrying the list of the
accesses made so far: each test `if (sieve[p])` appends `read p`. -/
def workerOuterLog (F limit start stop : Nat) :
    Nat → Nat → List Bool × List Access → Except Fault (List Bool × List Access)
  | 0, _, _ => .error .outOfFuel
  | fuel + 1, p, st =>
    if (p * p) % UINT ≤ limit then do
      let b ← readFlag st.1 p
      let st0 : List Bool × List Access := (st.1, st.2 ++ [.read p])
      let st1 ← if b then workerInnerLog stop p F (firstIndex start p) st0 else pure st0
      workerOuterLog F limit start stop fuel ((p + 1) % UINT) st1
    else .ok st

/-- The body of the thread with range `[start, stop)` as in `worker`, returning
the final array together with the accesses it made, in order. -/
def workerLog (F limit start stop : Nat) (sieve : List Bool) :
    Except Fault (List Bool × List Access) :=
  workerOuterLog F limit start stop F 2 (sieve, [])

/-- The write `sieve[i] = false` on a bounds-checked array: outside the array it
is a fault, as the read `readFlag` is. -/
def checkedWrite (sieve : List Bool) (i : Nat) : Except Fault (List Bool) :=
  if i < sieve.length then .ok (sieve.set i false) else .error .outOfBounds

/-- The two statements `std::vector<bool> sieve(limit + 1, true);` and
`sieve[0] = sieve[1] = false;` with both writes bounds-checked, the right-hand
assignment `sieve[1] = false` first. -/
def initSieveChecked (limit : Nat) : Except Fault (List Bool) := do
  let s1 ← checkedWrite (List.replicate ((limit + 1) % UINT) true) 1
  checkedWrite s1 0

/-- The marking phase of `sieveOfEratosthenes` with the bounds-checked
initialisation. -/
def seqSieveChecked (F limit : Nat) : Except Fault (List Bool) := do
  let s0 ← initSieveChecked limit
  seqOuter F limit F 2 s0

/-- The method `sieveOfEratosthenes` with the bounds-checked initialisation. -/
def sieveOfEratosthenesChecked (F : Nat) (c : PrimeCalculator) :
    Except Fault PrimeCalculator := do
  let sieve ← seqSieveChecked F c.limit
  let acc ← extractLoop c.limit sieve F 2 ([], 0)
  pure { c with primes := acc.1, primeCount := acc.2 }

/-- The number of flags that `std::vector<bool>` packs into one word of memory
(`unsigned long`, 64 bits).  The concrete runs below use arrays of at most 32
flags, which lie in one word also when a word holds 32 flags. -/
def WORD : Nat := 64

/-- The word of memory that holds flag `i`, as the list of its flags: those at
the indices `WORD * (i / WORD), ..., WORD * (i / WORD) + WORD - 1` that exist. -/
def loadWord (sieve : List Bool) (i : Nat) : List Bool :=
  (sieve.drop (WORD * (i / WORD))).take WORD

/-- The array after the word that holds flag `i` has been overwritten by `w`. -/
def storeWord (sieve : List Bool) (i : Nat) (w : List Bool) : List Bool :=
  sieve.take (WORD * (i / WORD)) ++ w ++ sieve.drop (WORD * (i / WORD) + WORD)

/-- The place of a thread in the body of the worker lambda, with the values of
its local variables.  `outer p`: before the test `p * p <= limit` and the read
`sieve[p]`.  `inner p i`: before the test `i < endRange` and the load of the word
of `sieve[i]`.  `store p i w`: the word `w` of `sieve[i]` has been loaded, and
the store of `w` with the bit of `i` cleared is still to come (`sieve[i] = false`
on `std::vector<bool>` is `*word &= ~mask`, a load followed by a store).
`done`: the lambda has returned. -/
inductive ThreadState where
  | outer (p : Nat)
  | inner (p i : Nat)
  | store (p i : Nat) (w : List Bool)
  | done
  deriving DecidableEq, Repr

/-- One step of a thread with range `[start, stop)` on the shared array: the
local computation up to and including its next access to memory. -/
def stepThread (limit start stop : Nat) (sieve : List Bool) :
    ThreadState → Except Fault (List Bool × ThreadState)
  | .outer p =>
    if (p * p) % UINT ≤ limit then do
      let b ← readFlag sieve p
      pure (sieve, if b then .inner p (firstIndex start p) else .outer ((p + 1) % UINT))
    else pure (sieve, .done)
  | .inner p i =>
    if i < stop then
      if i < sieve.length then pure (sieve, .store p i (loadWord sieve i))
      else .error .outOfBounds
    else pure (sieve, .outer ((p + 1) % UINT))
  | .store p i w =>
    pure (storeWord sieve i (w.set (i % WORD) false), .inner p ((i + p) % UINT))
  | .done => pure (sieve, .done)

/-- The threads run under the schedule `sched`: each entry names the thread that
takes the next step.  The state is the shared array and the states of the
threads `0, ..., numThreads - 1`.  An entry that names no thread, or a thread
that has returned, changes nothing. -/
def runSchedule (limit numThreads : Nat) :
    List Nat → List Bool × List ThreadState → Except Fault (List Bool × List ThreadState)
  | [], st => .ok st
  | t :: ts, st =>
    match st.2[t]? with
    | none => runSchedule limit numThreads ts st
    | some th => do
      let r ← stepThread limit (startRange limit numThreads t) (endRange limit numThreads t)
        st.1 th
      runSchedule limit numThreads ts (r.1, st.2.set t r.2)

/-- The fork-join of `multithreadedSieveOfEratosthenes` on the array `sieve`
under the schedule `sched`: all threads start at `p = 2`, and the join returns
the array when every thread has returned.  A schedule that ends before that is
reported as `Fault.outOfFuel`. -/
def markSched (limit numThreads : Nat) (sched : List Nat) (sieve : List Bool) :
    Except Fault (List Bool) := do
  let st ← runSchedule limit numThreads sched (sieve, List.replicate numThreads (.outer 2))
  if st.2.all (fun th => decide (th = .done)) then pure st.1 else .error .outOfFuel

/-- The marking phase of `multithreadedSieveOfEratosthenes` under the schedule
`sched`, with the bounds-checked initialisation. -/
def parSieveSched (limit numThreads : Nat) (sched : List Nat) : Except Fault (List Bool) := do
  let s0 ← initSieveChecked limit
  markSched limit numThreads sched s0

/-- The method `multithreadedSieveOfEratosthenes` under the schedule `sched`. -/
def multithreadedSieveOfEratosthenesSched (F : Nat) (sched : List Nat) (c : PrimeCalculator) :
    Except Fault PrimeCalculator := do
  let sieve ← parSieveSched c.limit c.numThreads sched
  let acc ← extractLoop c.limit sieve F 2 ([], 0)
  pure { c with primes := acc.1, primeCount := acc.2 }

/-- The flags of `w`, which stand for the indices `base, base + 1, ...`, are
false at the indices 0 and 1 and true at every prime index. -/
def FlagsOk (base : Nat) (w : List Bool) : Prop :=
  ∀ (j : Nat) (b : Bool), w[j]? = some b →
    (base + j < 2 → b = false) ∧ (Nat.Prime (base + j) → b = true)

/-- The list part of the pair `acc` is strictly increasing and each of its
elements lies in `[2, limit]` and below `n`. -/
def AccOk (limit n : Nat) (acc : List Nat × Nat) : Prop :=
  List.Pairwise (fun a b => a < b) acc.1 ∧ ∀ x, x ∈ acc.1 → 2 ≤ x ∧ x < n ∧ x ≤ limit

/-- A check by halving that no number of the interval `[lo, lo + 2^d)` divides
`n`.  It is used to certify that one large number is prime. -/
def noDivisorIn (n : Nat) : Nat → Nat → Bool
  | 0, lo => n % lo != 0
  | d + 1, lo => noDivisorIn n d lo && noDivisorIn n d (lo + 2 ^ d)

/-! ## Trial division -/

theorem isPrimeLoop_spec (n : Nat) (hn3 : 3 < n) (hn : n < 4294311961) :
    ∀ (fuel i : Nat), i % 6 = 5 → i ≤ 65531 → 65531 < 6 * fuel + i →
      (∀ d, 2 ≤ d → d < i → ¬ d ∣ n) →
      ∃ b, isPrimeLoop n fuel i = .ok b ∧ (b = true ↔ Nat.Prime n) := by
  intro fuel
  induction fuel with
  | zero => intro i _ h1 h2 _; omega
  | succ fuel ih =>
    intro i hmod hle hfuel hdiv
    have hsq : i * i < UINT := by
      have : i * i ≤ 65531 * 65531 := Nat.mul_le_mul hle hle
      simp only [UINT]; omega
    unfold isPrimeLoop
    rw [Nat.mod_eq_of_lt hsq]
    by_cases hg : i * i ≤ n
    · have hi : i < 65531 := by
        by_contra hc
        have h1 : 65531 ≤ i := by omega
        have : 65531 * 65531 ≤ i * i := Nat.mul_le_mul h1 h1
        omega
      have hi2 : (i + 2) % UINT = i + 2 := Nat.mod_eq_of_lt (by simp only [UINT]; omega)
      have hi6 : (i + 6) % UINT = i + 6 := Nat.mod_eq_of_lt (by simp only [UINT]; omega)
      have hi5 : 5 ≤ i := by omega
      have hlt : i + 2 < n := by nlinarith
      rw [if_pos hg, hi2, hi6]
      by_cases ht : n % i = 0 ∨ n % (i + 2) = 0
      · rw [if_pos ht]
        refine ⟨false, rfl, ?_⟩
        constructor
        · intro h; cases h
        · intro hp
          exfalso
          rcases ht with ht | ht
          · have := (Nat.dvd_prime hp).1 (Nat.dvd_of_mod_eq_zero ht)
            omega
          · have := (Nat.dvd_prime hp).1 (Nat.dvd_of_mod_eq_zero ht)
            omega
      · rw [if_neg ht]
        apply ih (i + 6) (by omega) (by omega) (by omega)
        intro d hd2 hdlt hdn
        have h2 : ¬ 2 ∣ n := hdiv 2 (le_refl 2) (by omega)
        have h3 : ¬ 3 ∣ n := hdiv 3 (by omega) (by omega)
        by_cases hdi : d < i
        · exact hdiv d hd2 hdi hdn
        · have hcases : d = i ∨ d = i + 2 ∨ d % 2 = 0 ∨ d % 3 = 0 := by omega
          rcases hcases with h | h | h | h
          · subst h; exact ht (Or.inl (Nat.mod_eq_zero_of_dvd hdn))
          · subst h; exact ht (Or.inr (Nat.mod_eq_zero_of_dvd hdn))
          · exact h2 (Nat.dvd_trans (Nat.dvd_of_mod_eq_zero h) hdn)
          · exact h3 (Nat.dvd_trans (Nat.dvd_of_mod_eq_zero h) hdn)
    · rw [if_neg hg]
      refine ⟨true, rfl, ?_⟩
      simp only [true_iff]
      rw [Nat.prime_def_le_sqrt]
      refine ⟨by omega, ?_⟩
      intro m hm2 hms
      apply hdiv m hm2
      have hmm : m * m ≤ n := Nat.le_sqrt.mp hms
      by_contra hc
      have h1 : i ≤ m := by omega
      have : i * i ≤ m * m := Nat.mul_le_mul h1 h1
      omega

theorem isPrime_spec (fuel n : Nat) (hn : n < 4294311961) (hf : 10922 ≤ fuel) :
    ∃ b, isPrime fuel n = .ok b ∧ (b = true ↔ Nat.Prime n) := by
  unfold isPrime
  by_cases h1 : n ≤ 1
  · rw [if_pos h1]
    refine ⟨false, rfl, ?_⟩
    constructor
    · intro h; cases h
    · intro hp; have := hp.two_le; omega
  · rw [if_neg h1]
    by_cases h3 : n ≤ 3
    · rw [if_pos h3]
      refine ⟨true, rfl, ?_⟩
      have : n = 2 ∨ n = 3 := by omega
      rcases this with h | h <;> subst h <;> simp <;> norm_num
    · rw [if_neg h3]
      by_cases hd : n % 2 = 0 ∨ n % 3 = 0
      · rw [if_pos hd]
        refine ⟨false, rfl, ?_⟩
        constructor
        · intro h; cases h
        · intro hp
          exfalso
          rcases hd with hd | hd
          · have := (Nat.dvd_prime hp).1 (Nat.dvd_of_mod_eq_zero hd)
            omega
          · have := (Nat.dvd_prime hp).1 (Nat.dvd_of_mod_eq_zero hd)
            omega
      · rw [if_neg hd]
        apply isPrimeLoop_spec n (by omega) hn fuel 5 (by norm_num) (by norm_num) (by omega)
        intro d hd2 hd5 hdn
        have hcases : d = 2 ∨ d = 3 ∨ d = 4 := by omega
        rcases hcases with h | h | h <;> subst h
        · exact hd (Or.inl (Nat.mod_eq_zero_of_dvd hdn))
        · exact hd (Or.inr (Nat.mod_eq_zero_of_dvd hdn))
        · exact hd (Or.inl (Nat.mod_eq_zero_of_dvd (Nat.dvd_trans (by norm_num) hdn)))

/-! ## The marking loops -/

theorem readFlag_of_lt (s : List Bool) (k : Nat) (h : k < s.length) :
    ∃ b, readFlag s k = .ok b ∧ s[k]? = some b := by
  refine ⟨s[k], ?_, List.getElem?_eq_getElem h⟩
  unfold readFlag
  rw [List.getElem?_eq_getElem h]

theorem workerInner_spec (stop p : Nat) (hp : 0 < p) (hw : stop + p ≤ UINT) :
    ∀ (fuel i : Nat) (s : List Bool), p ∣ i → 0 < fuel → stop + p ≤ i + p * fuel →
      ∃ s1, workerInner stop p fuel i s = .ok s1 ∧ s1.length = s.length ∧
        ∀ k, s1[k]? = if i ≤ k ∧ k < stop ∧ p ∣ k then (s[k]?).map (fun _ => false)
          else s[k]? := by
  intro fuel
  induction fuel with
  | zero => intro i s _ h; omega
  | succ fuel ih =>
    intro i s hdvd _ hfuel
    unfold workerInner
    by_cases hi : i < stop
    · rw [if_pos hi, Nat.mod_eq_of_lt (by omega)]
      have hfuel1 : 0 < fuel := by
        rcases Nat.eq_zero_or_pos fuel with h | h
        · subst h; omega
        · exact h
      have hfuel2 : stop + p ≤ i + p + p * fuel := by
        have : p * (fuel + 1) = p * fuel + p := Nat.mul_succ p fuel
        omega
      obtain ⟨s1, hrun, hlen, hget⟩ :=
        ih (i + p) (s.set i false) (Dvd.dvd.add hdvd (dvd_refl p)) hfuel1 hfuel2
      refine ⟨s1, hrun, by rw [hlen, List.length_set], ?_⟩
      intro k
      rw [hget k, List.getElem?_set]
      by_cases hk : i = k
      · subst hk
        have h1 : ¬ (i + p ≤ i ∧ i < stop ∧ p ∣ i) := by omega
        have h2 : i ≤ i ∧ i < stop ∧ p ∣ i := ⟨le_refl i, hi, hdvd⟩
        rw [if_neg h1, if_pos h2, if_pos rfl]
        by_cases hl : i < s.length
        · rw [if_pos hl, List.getElem?_eq_getElem hl]; rfl
        · rw [if_neg hl, List.getElem?_eq_none (by omega)]; rfl
      · rw [if_neg hk]
        have hiff : (i + p ≤ k ∧ k < stop ∧ p ∣ k) ↔ (i ≤ k ∧ k < stop ∧ p ∣ k) := by
          constructor
          · rintro ⟨h1, h2, h3⟩; exact ⟨by omega, h2, h3⟩
          · rintro ⟨h1, h2, h3⟩
            refine ⟨?_, h2, h3⟩
            have hd : p ∣ k - i := Nat.dvd_sub' h3 hdvd
            have := Nat.le_of_dvd (by omega) hd
            omega
        by_cases hc : i ≤ k ∧ k < stop ∧ p ∣ k
        · rw [if_pos hc, if_pos (hiff.2 hc)]
        · rw [if_neg hc, if_neg (fun h => hc (hiff.1 h))]
    · rw [if_neg hi]
      refine ⟨s, rfl, rfl, ?_⟩
      intro k
      have : ¬ (i ≤ k ∧ k < stop ∧ p ∣ k) := by omega
      rw [if_neg this]

theorem roundUp_ge (start p : Nat) (hp : 0 < p) : start ≤ (start + p - 1) / p * p := by
  have h1 := Nat.div_add_mod (start + p - 1) p
  have h2 := Nat.mod_lt (start + p - 1) hp
  have h3 : (start + p - 1) / p * p = p * ((start + p - 1) / p) := Nat.mul_comm _ _
  omega

theorem roundUp_le (start p k : Nat) (hp : 0 < p) (hk : start ≤ k) (hd : p ∣ k) :
    (start + p - 1) / p * p ≤ k := by
  obtain ⟨m, rfl⟩ := hd
  have : (start + p - 1) / p ≤ m := by
    apply Nat.le_of_lt_succ
    rw [Nat.div_lt_iff_lt_mul hp]
    have : Nat.succ m * p = p * m + p := by rw [Nat.succ_mul, Nat.mul_comm]
    omega
  calc (start + p - 1) / p * p ≤ m * p := Nat.mul_le_mul_right p this
    _ = p * m := Nat.mul_comm _ _

theorem firstIndex_eq (start p : Nat) (hp : 0 < p) (hp2 : p ≤ 65535)
    (hstart : start + 65535 ≤ UINT) :
    firstIndex start p = max (p * p) ((start + p - 1) / p * p) := by
  unfold firstIndex
  have h1 : p * p < UINT := by
    have : p * p ≤ 65535 * 65535 := Nat.mul_le_mul hp2 hp2
    simp only [UINT]; omega
  have h2 : start + p - 1 < UINT := by omega
  have h3 : (start + p - 1) / p * p ≤ start + p - 1 := Nat.div_mul_le_self _ _
  rw [Nat.mod_eq_of_lt h1, Nat.mod_eq_of_lt h2, Nat.mod_eq_of_lt (by omega)]

theorem composite_of_mul (p k : Nat) (hp : 2 ≤ p) (hd : p ∣ k) (hk : p * p ≤ k) :
    2 ≤ k ∧ ¬ Nat.Prime k := by
  have h4 : 2 * 2 ≤ p * p := Nat.mul_le_mul hp hp
  refine ⟨by omega, fun hpr => ?_⟩
  rcases (Nat.dvd_prime hpr).1 hd with h | h
  · omega
  · subst h
    have : p * 2 ≤ p * p := Nat.mul_le_mul_left p hp
    omega

theorem workerOuter_spec (F limit start stop : Nat) (hlim : limit < 4294836225)
    (hstop : stop ≤ limit + 1) (hstart : start + 65535 ≤ UINT) (hF : limit + 2 ≤ F)
    (s0 : List Bool) (hsound : ∀ k : Nat, s0[k]? = some false → ¬ Nat.Prime k) :
    ∀ (fuel p : Nat) (s : List Bool), 2 ≤ p → p ≤ 65535 → p ≤ limit + 2 →
      limit + 3 ≤ fuel + p → s.length = limit + 1 →
      (∀ k : Nat, s0[k]? = some false → s[k]? = some false) →
      (∀ k : Nat, s[k]? = some false →
        s0[k]? = some false ∨ (start ≤ k ∧ k < stop ∧ 2 ≤ k ∧ ¬ Nat.Prime k)) →
      (∀ k q : Nat, start ≤ k → k < stop → Nat.Prime q → q < p → q ∣ k → q * q ≤ k →
        s[k]? = some false) →
      ∃ s1, workerOuter F limit start stop fuel p s = .ok s1 ∧ s1.length = limit + 1 ∧
        ∀ k : Nat, s1[k]? = some false ↔
          (s0[k]? = some false ∨ (start ≤ k ∧ k < stop ∧ 2 ≤ k ∧ ¬ Nat.Prime k)) := by
  intro fuel
  induction fuel with
  | zero =>
    intro p s _ _ hsq hfuel
    omega
  | succ fuel ih =>
    intro p s hp2 hp65 hsq hfuel hlen hmono hupper hlower
    have hpp : p * p < UINT := by
      have : p * p ≤ 65535 * 65535 := Nat.mul_le_mul hp65 hp65
      simp only [UINT]; omega
    unfold workerOuter
    rw [Nat.mod_eq_of_lt hpp]
    by_cases hg : p * p ≤ limit
    · have hple : p ≤ limit := le_trans (Nat.le_mul_self p) hg
      have hp1 : (p + 1) % UINT = p + 1 := Nat.mod_eq_of_lt (by simp only [UINT]; omega)
      have hp3 : p + 1 ≤ 65535 := by
        by_contra hc
        have h1 : 65535 ≤ p := by omega
        have : 65535 * 65535 ≤ p * p := Nat.mul_le_mul h1 h1
        omega
      obtain ⟨b, hb, hbget⟩ := readFlag_of_lt s p (by omega)
      rw [if_pos hg, hb, hp1]
      simp only [bind, Except.bind]
      cases b with
      | false =>
        simp only [Bool.false_eq_true, if_false, pure, Except.pure]
        apply ih (p + 1) s (by omega) hp3 (by omega) (by omega) hlen hmono hupper
        intro k q hk1 hk2 hq hqp hqk hqq
        rcases Nat.lt_succ_iff_lt_or_eq.1 hqp with h | h
        · exact hlower k q hk1 hk2 hq h hqk hqq
        · subst h
          exfalso
          rcases hupper q hbget with h0 | ⟨_, _, _, hnp⟩
          · exact hsound q h0 hq
          · exact hnp hq
      | true =>
        simp only [if_true]
        have hfirst := firstIndex_eq start p (by omega) hp65 hstart
        have hdvd : p ∣ firstIndex start p := by
          rw [hfirst]
          rcases Nat.le_total (p * p) ((start + p - 1) / p * p) with h | h
          · rw [max_eq_right h]; exact Dvd.intro_left _ rfl
          · rw [max_eq_left h]; exact Dvd.intro _ rfl
        have hfuelI : stop + p ≤ firstIndex start p + p * F := by
          have : p * (limit + 2) ≤ p * F := Nat.mul_le_mul_left p hF
          have h1 : p * (limit + 2) = p * (limit + 1) + p := by ring
          have h2 : 1 * (limit + 1) ≤ p * (limit + 1) := Nat.mul_le_mul_right _ (by omega)
          omega
        obtain ⟨s1, hrun, hlen1, hget⟩ :=
          workerInner_spec stop p (by omega) (by simp only [UINT]; omega) F
            (firstIndex start p) s hdvd (by omega) hfuelI
        rw [hrun]
        apply ih (p + 1) s1 (by omega) hp3 (by omega) (by omega) (by rw [hlen1, hlen])
        · intro k hk
          rw [hget k]
          split
          · rw [hmono k hk]; rfl
          · exact hmono k hk
        · intro k hk
          rw [hget k] at hk
          split at hk
          · rename_i hc
            obtain ⟨hc1, hc2, hc3⟩ := hc
            rw [hfirst] at hc1
            have hpk : p * p ≤ k := le_trans (le_max_left _ _) hc1
            have hsk : start ≤ k :=
              le_trans (roundUp_ge start p (by omega)) (le_trans (le_max_right _ _) hc1)
            have := composite_of_mul p k hp2 hc3 hpk
            exact Or.inr ⟨hsk, hc2, this.1, this.2⟩
          · exact hupper k hk
        · intro k q hk1 hk2 hq hqp hqk hqq
          rcases Nat.lt_succ_iff_lt_or_eq.1 hqp with h | h
          · have := hlower k q hk1 hk2 hq h hqk hqq
            rw [hget k]
            split
            · rw [this]; rfl
            · exact this
          · subst h
            rw [hget k]
            have hc : firstIndex start q ≤ k ∧ k < stop ∧ q ∣ k := by
              refine ⟨?_, hk2, hqk⟩
              rw [hfirst]
              exact max_le hqq (roundUp_le start q k (by omega) hk1 hqk)
            rw [if_pos hc, List.getElem?_eq_getElem (by omega)]
            rfl
    · rw [if_neg hg]
      refine ⟨s, rfl, hlen, ?_⟩
      intro k
      constructor
      · exact hupper k
      · rintro (h | ⟨h1, h2, h3, h4⟩)
        · exact hmono k h
        · have hq : Nat.Prime (Nat.minFac k) := Nat.minFac_prime (by omega)
          have hqq := Nat.minFac_sq_le_self (by omega : 0 < k) h4
          rw [pow_two] at hqq
          apply hlower k (Nat.minFac k) h1 h2 hq ?_ (Nat.minFac_dvd k) hqq
          by_contra hc
          have h5 : p ≤ Nat.minFac k := by omega
          have : p * p ≤ Nat.minFac k * Nat.minFac k := Nat.mul_le_mul h5 h5
          omega

theorem initSieve_length (limit : Nat) (h : limit + 1 < UINT) :
    (initSieve limit).length = limit + 1 := by
  unfold initSieve
  rw [List.length_set, List.length_set, List.length_replicate, Nat.mod_eq_of_lt h]

theorem initSieve_false (limit : Nat) (h : limit + 1 < UINT) (k : Nat) :
    (initSieve limit)[k]? = some false ↔ k < 2 ∧ k ≤ limit := by
  unfold initSieve
  rw [Nat.mod_eq_of_lt h, List.getElem?_set, List.getElem?_set, List.getElem?_replicate,
    List.length_set, List.length_replicate]
  by_cases h0 : 0 = k
  · subst h0; simp
  · by_cases h1 : 1 = k
    · subst h1; simp; omega
    · rw [if_neg h0, if_neg h1]
      by_cases h2 : k < limit + 1
      · rw [if_pos h2]; simp; omega
      · rw [if_neg h2]; simp; omega

theorem seqInner_eq_workerInner (limit p : Nat) :
    ∀ (fuel i : Nat) (s : List Bool),
      seqInner limit p fuel i s = workerInner (limit + 1) p fuel i s := by
  intro fuel
  induction fuel with
  | zero => intro i s; rfl
  | succ fuel ih =>
    intro i s
    unfold seqInner workerInner
    by_cases h : i ≤ limit
    · rw [if_pos h, if_pos (Nat.lt_succ_of_le h), ih]
    · rw [if_neg h, if_neg (fun hc => h (Nat.le_of_lt_succ hc))]

theorem firstIndex_zero (p : Nat) : firstIndex 0 p = (p * p) % UINT := by
  unfold firstIndex
  rcases Nat.eq_zero_or_pos p with h | h
  · subst h; simp
  · have h1 : (0 + p - 1) % UINT / p = 0 := by
      apply Nat.div_eq_of_lt
      exact lt_of_le_of_lt (Nat.mod_le _ _) (by omega)
    rw [h1]; simp

theorem seqOuter_eq_workerOuter (F limit : Nat) :
    ∀ (fuel p : Nat) (s : List Bool),
      seqOuter F limit fuel p s = workerOuter F limit 0 (limit + 1) fuel p s := by
  intro fuel
  induction fuel with
  | zero => intro p s; rfl
  | succ fuel ih =>
    intro p s
    unfold seqOuter workerOuter
    simp only [firstIndex_zero, seqInner_eq_workerInner, ih]

theorem seqSieve_spec (F limit : Nat) (hlim : limit < 4294836225) (hF : limit + 2 ≤ F) :
    ∃ s, seqSieve F limit = .ok s ∧ s.length = limit + 1 ∧
      ∀ k : Nat, s[k]? = some false ↔ (k ≤ limit ∧ (k < 2 ∨ ¬ Nat.Prime k)) := by
  have hU : limit + 1 < UINT := by simp only [UINT]; omega
  have hsound : ∀ k : Nat, (initSieve limit)[k]? = some false → ¬ Nat.Prime k := by
    intro k hk hp
    have := ((initSieve_false limit hU k).1 hk).1
    have := hp.two_le
    omega
  obtain ⟨s, hrun, hlen, hget⟩ :=
    workerOuter_spec F limit 0 (limit + 1) hlim (le_refl _) (by simp only [UINT]; omega) hF
      (initSieve limit) hsound F 2 (initSieve limit) (le_refl 2) (by omega) (by omega) (by omega)
      (initSieve_length limit hU) (fun _ h => h) (fun _ h => Or.inl h)
      (by
        intro k q _ _ hq hq2
        have := hq.two_le
        omega)
  refine ⟨s, ?_, hlen, ?_⟩
  · unfold seqSieve
    rw [seqOuter_eq_workerOuter]
    exact hrun
  · intro k
    rw [hget k, initSieve_false limit hU k]
    constructor
    · rintro (⟨h1, h2⟩ | ⟨_, h2, _, h4⟩)
      · exact ⟨h2, Or.inl h1⟩
      · exact ⟨by omega, Or.inr h4⟩
    · rintro ⟨h1, h2 | h2⟩
      · exact Or.inl ⟨h2, h1⟩
      · by_cases hk : k < 2
        · exact Or.inl ⟨hk, h1⟩
        · exact Or.inr ⟨Nat.zero_le k, by omega, by omega, h2⟩

/-! ## Extraction of the prime list -/

theorem foldl_pushPrime (L : List Nat) :
    ∀ acc : List Nat × Nat, acc.2 < UINT →
      L.foldl pushPrime acc = (acc.1 ++ L, (acc.2 + L.length) % UINT) := by
  induction L with
  | nil =>
    intro acc h
    simp [Nat.mod_eq_of_lt h]
  | cons x L ih =>
    intro acc _
    have hlt : (pushPrime acc x).2 < UINT := Nat.mod_lt _ (by simp only [UINT]; omega)
    rw [List.foldl_cons, ih (pushPrime acc x) hlt]
    simp only [pushPrime, List.append_assoc, List.singleton_append, List.length_cons,
      Nat.mod_add_mod]
    congr 2
    omega

theorem extractLoop_spec (limit : Nat) (s : List Bool) (hU : limit + 1 < UINT)
    (hlen : limit < s.length) :
    ∀ (fuel p : Nat) (acc : List Nat × Nat), 0 < fuel → limit + 2 ≤ fuel + p →
      extractLoop limit s fuel p acc =
        .ok (((List.range' p (limit + 1 - p)).filter (fun k => s[k]? = some true)).foldl
          pushPrime acc) := by
  intro fuel
  induction fuel with
  | zero => intro p acc h1 h2; omega
  | succ fuel ih =>
    intro p acc h1 h2
    unfold extractLoop
    by_cases hp : p ≤ limit
    · obtain ⟨b, hb, hbget⟩ := readFlag_of_lt s p (by omega)
      have hp1 : (p + 1) % UINT = p + 1 := Nat.mod_eq_of_lt (by omega)
      have hr : limit + 1 - p = (limit + 1 - (p + 1)) + 1 := by omega
      rw [if_pos hp, hb, hp1]
      simp only [bind, Except.bind]
      rw [ih (p + 1) _ (by omega) (by omega), hr, List.range'_succ]
      cases b with
      | false => simp [List.filter_cons, hbget]
      | true => simp [List.filter_cons, hbget]
    · have hr : limit + 1 - p = 0 := by omega
      rw [if_neg hp, hr]
      rfl

theorem filter_prime_range (n : Nat) :
    (List.range n).filter (fun k => Nat.Prime k) =
      (List.range' 2 (n - 2)).filter (fun k => Nat.Prime k) := by
  rcases n with _ | _ | n
  · rfl
  · simp [List.range_succ, Nat.not_prime_zero]
  · have h : n + 1 + 1 - 2 = n := by omega
    rw [List.range_eq_range', h, List.range'_succ, List.range'_succ]
    simp [List.filter_cons, Nat.not_prime_zero, Nat.not_prime_one]

theorem extract_sieved (limit : Nat) (s : List Bool) (hlen : s.length = limit + 1)
    (hs : ∀ k : Nat, s[k]? = some false ↔ (k ≤ limit ∧ (k < 2 ∨ ¬ Nat.Prime k))) :
    (List.range' 2 (limit + 1 - 2)).filter (fun k => s[k]? = some true) =
      (List.range (limit + 1)).filter (fun k => Nat.Prime k) := by
  rw [filter_prime_range]
  apply List.filter_congr
  intro k hk
  rw [List.mem_range'_1] at hk
  have hklen : k < s.length := by omega
  have hiff := hs k
  rw [List.getElem?_eq_getElem hklen] at hiff ⊢
  cases hb : s[k] with
  | false =>
    rw [hb] at hiff
    have := hiff.1 rfl
    have hnp : ¬ Nat.Prime k := by
      rcases this.2 with h | h
      · omega
      · exact h
    simp [hnp]
  | true =>
    rw [hb] at hiff
    have hp : Nat.Prime k := by
      by_contra hnp
      have := hiff.2 ⟨by omega, Or.inr hnp⟩
      simp at this
    simp [hp]

theorem primes_length_lt (limit : Nat) (hU : limit + 1 < UINT) :
    ((List.range (limit + 1)).filter (fun k => Nat.Prime k)).length < UINT := by
  have h1 := List.length_filter_le (fun k => decide (Nat.Prime k)) (List.range (limit + 1))
  rw [List.length_range] at h1
  omega

theorem sieveOfEratosthenes_run (F : Nat) (c : PrimeCalculator) (hN : c.limit < 4294836225)
    (hF : c.limit + 2 ≤ F) :
    sieveOfEratosthenes F c = .ok { c with
      primes := (List.range (c.limit + 1)).filter (fun k => Nat.Prime k),
      primeCount := ((List.range (c.limit + 1)).filter (fun k => Nat.Prime k)).length } := by
  have hU : c.limit + 1 < UINT := by simp only [UINT]; omega
  obtain ⟨s, hrun, hlen, hget⟩ := seqSieve_spec F c.limit hN hF
  unfold sieveOfEratosthenes
  rw [hrun]
  simp only [bind, Except.bind]
  rw [extractLoop_spec c.limit s hU (by omega) F 2 _ (by omega) (by omega),
    foldl_pushPrime _ _ (by simp only [UINT]; omega), extract_sieved c.limit s hlen hget]
  simp only [pure, Except.pure, List.nil_append, Nat.zero_add]
  rw [Nat.mod_eq_of_lt (primes_length_lt c.limit hU)]

theorem primes_upto_sorted (n : Nat) :
    List.Pairwise (fun a b => a < b) ((List.range n).filter (fun k => Nat.Prime k)) :=
  List.Pairwise.filter _ (List.pairwise_lt_range n)

theorem mem_primes_upto (n k : Nat) :
    k ∈ (List.range (n + 1)).filter (fun k => Nat.Prime k) ↔ 2 ≤ k ∧ k ≤ n ∧ Nat.Prime k := by
  simp only [List.mem_filter, List.mem_range, decide_eq_true_eq]
  constructor
  · rintro ⟨h1, h2⟩; exact ⟨h2.two_le, by omega, h2⟩
  · rintro ⟨_, h2, h3⟩; exact ⟨by omega, h3⟩

/-! ## The worker ranges and the fork-join of the workers -/

theorem chunkSize_eq (limit T : Nat) (hw : limit + T ≤ UINT) :
    chunkSize limit T = (limit + T - 1) / T := by
  unfold chunkSize
  rcases Nat.eq_zero_or_pos T with h | h
  · subst h; simp
  · rw [Nat.mod_eq_of_lt (by omega)]

theorem chunk_mul_le (limit T : Nat) (hw : limit + T ≤ UINT) :
    T * chunkSize limit T ≤ limit + T - 1 := by
  rw [chunkSize_eq limit T hw, Nat.mul_comm]
  exact Nat.div_mul_le_self _ _

theorem le_chunk_mul (limit T : Nat) (hT : 0 < T) (hw : limit + T ≤ UINT) :
    limit ≤ T * chunkSize limit T := by
  rw [chunkSize_eq limit T hw, Nat.mul_comm]
  exact roundUp_ge limit T hT

theorem startRange_eq (limit T t : Nat) (hw : limit + T ≤ UINT) (ht : t < T) :
    startRange limit T t = t * chunkSize limit T := by
  unfold startRange
  have h1 := chunk_mul_le limit T hw
  have h2 : t * chunkSize limit T ≤ T * chunkSize limit T :=
    Nat.mul_le_mul_right _ (Nat.le_of_lt ht)
  exact Nat.mod_eq_of_lt (by omega)

theorem endRange_eq (limit T t : Nat) (hU : limit + 1 < UINT) (hw : limit + T ≤ UINT)
    (ht : t < T) :
    endRange limit T t = min ((t + 1) * chunkSize limit T) (limit + 1) := by
  unfold endRange
  have h1 := chunk_mul_le limit T hw
  have h2 : (t + 1) * chunkSize limit T ≤ T * chunkSize limit T :=
    Nat.mul_le_mul_right _ ht
  have h3 : (t + 1) * chunkSize limit T = t * chunkSize limit T + chunkSize limit T :=
    Nat.succ_mul _ _
  rw [startRange_eq limit T t hw ht, ← h3, Nat.mod_eq_of_lt (by omega),
    Nat.mod_eq_of_lt (by omega)]

theorem covered_iff (limit T k : Nat) (hU : limit + 1 < UINT) (hw : limit + T ≤ UINT) :
    (∃ t, t ∈ List.range T ∧ startRange limit T t ≤ k ∧ k < endRange limit T t) ↔
      (k < T * chunkSize limit T ∧ k ≤ limit) := by
  constructor
  · rintro ⟨t, ht, h1, h2⟩
    rw [List.mem_range] at ht
    rw [endRange_eq limit T t hU hw ht] at h2
    have h3 : (t + 1) * chunkSize limit T ≤ T * chunkSize limit T :=
      Nat.mul_le_mul_right _ ht
    have h4 := lt_of_lt_of_le h2 (min_le_left _ _)
    have h5 := lt_of_lt_of_le h2 (min_le_right _ _)
    exact ⟨by omega, by omega⟩
  · rintro ⟨h1, h2⟩
    have hC : 0 < chunkSize limit T := by
      rcases Nat.eq_zero_or_pos (chunkSize limit T) with h | h
      · rw [h] at h1; omega
      · exact h
    have ht : k / chunkSize limit T < T := by
      rw [Nat.div_lt_iff_lt_mul hC]; exact h1
    refine ⟨k / chunkSize limit T, List.mem_range.2 ht, ?_, ?_⟩
    · rw [startRange_eq limit T _ hw ht]
      exact Nat.div_mul_le_self _ _
    · rw [endRange_eq limit T _ hU hw ht]
      apply lt_min
      · have := Nat.lt_succ_self (k / chunkSize limit T)
        rw [Nat.div_lt_iff_lt_mul hC] at this
        exact this
      · omega

theorem runWorkers_spec (F limit T : Nat) (hlim : limit < 4294836225) (hT : T ≤ 65536)
    (hF : limit + 2 ≤ F) :
    ∀ (ts : List Nat) (s0 : List Bool), (∀ t, t ∈ ts → t < T) → s0.length = limit + 1 →
      (∀ k : Nat, s0[k]? = some false → ¬ Nat.Prime k) →
      ∃ s1, runWorkers F limit T ts s0 = .ok s1 ∧ s1.length = limit + 1 ∧
        ∀ k : Nat, s1[k]? = some false ↔
          (s0[k]? = some false ∨
            ((∃ t, t ∈ ts ∧ startRange limit T t ≤ k ∧ k < endRange limit T t) ∧
              2 ≤ k ∧ ¬ Nat.Prime k)) := by
  have hw : limit + T ≤ UINT := by simp only [UINT]; omega
  have hU : limit + 1 < UINT := by simp only [UINT]; omega
  intro ts
  induction ts with
  | nil =>
    intro s0 _ hlen _
    refine ⟨s0, rfl, hlen, ?_⟩
    intro k
    simp
  | cons t ts ih =>
    intro s0 hts hlen hsound
    have ht : t < T := hts t (List.mem_cons_self t ts)
    have hstart : startRange limit T t + 65535 ≤ UINT := by
      have h1 := chunk_mul_le limit T hw
      have h2 : t * chunkSize limit T ≤ T * chunkSize limit T :=
        Nat.mul_le_mul_right _ (Nat.le_of_lt ht)
      rw [startRange_eq limit T t hw ht]
      simp only [UINT]; omega
    have hstop : endRange limit T t ≤ limit + 1 := by
      rw [endRange_eq limit T t hU hw ht]
      exact min_le_right _ _
    obtain ⟨s1, hrun1, hlen1, hget1⟩ :=
      workerOuter_spec F limit (startRange limit T t) (endRange limit T t) hlim hstop hstart hF
        s0 hsound F 2 s0 (le_refl 2) (by omega) (by omega) (by omega) hlen (fun _ h => h)
        (fun _ h => Or.inl h)
        (by
          intro k q _ _ hq hq2
          have := hq.two_le
          omega)
    have hsound1 : ∀ k : Nat, s1[k]? = some false → ¬ Nat.Prime k := by
      intro k hk
      rcases (hget1 k).1 hk with h | ⟨_, _, _, h⟩
      · exact hsound k h
      · exact h
    obtain ⟨s2, hrun2, hlen2, hget2⟩ :=
      ih s1 (fun u hu => hts u (List.mem_cons_of_mem t hu)) hlen1 hsound1
    refine ⟨s2, ?_, hlen2, ?_⟩
    · unfold runWorkers worker
      rw [hrun1]
      exact hrun2
    · intro k
      rw [hget2 k, hget1 k]
      constructor
      · rintro ((h | ⟨h1, h2, h3, h4⟩) | ⟨⟨u, hu, h1, h2⟩, h3, h4⟩)
        · exact Or.inl h
        · exact Or.inr ⟨⟨t, List.mem_cons_self t ts, h1, h2⟩, h3, h4⟩
        · exact Or.inr ⟨⟨u, List.mem_cons_of_mem t hu, h1, h2⟩, h3, h4⟩
      · rintro (h | ⟨⟨u, hu, h1, h2⟩, h3, h4⟩)
        · exact Or.inl (Or.inl h)
        · rcases List.mem_cons.1 hu with h | h
          · subst h
            exact Or.inl (Or.inr ⟨h1, h2, h3, h4⟩)
          · exact Or.inr ⟨⟨u, h, h1, h2⟩, h3, h4⟩

theorem parSieve_spec (F limit T : Nat) (hlim : limit < 4294836225) (hT : T ≤ 65536)
    (hF : limit + 2 ≤ F) :
    ∃ s, parSieve F limit T = .ok s ∧ s.length = limit + 1 ∧
      ∀ k : Nat, s[k]? = some false ↔
        (k ≤ limit ∧ (k < 2 ∨ (k < T * chunkSize limit T ∧ ¬ Nat.Prime k))) := by
  have hU : limit + 1 < UINT := by simp only [UINT]; omega
  have hw : limit + T ≤ UINT := by simp only [UINT]; omega
  have hsound : ∀ k : Nat, (initSieve limit)[k]? = some false → ¬ Nat.Prime k := by
    intro k hk hp
    have := ((initSieve_false limit hU k).1 hk).1
    have := hp.two_le
    omega
  obtain ⟨s, hrun, hlen, hget⟩ :=
    runWorkers_spec F limit T hlim hT hF (List.range T) (initSieve limit)
      (fun t ht => List.mem_range.1 ht) (initSieve_length limit hU) hsound
  refine ⟨s, hrun, hlen, ?_⟩
  intro k
  rw [hget k, initSieve_false limit hU k, covered_iff limit T k hU hw]
  constructor
  · rintro (⟨h1, h2⟩ | ⟨⟨h1, h2⟩, _, h4⟩)
    · exact ⟨h2, Or.inl h1⟩
    · exact ⟨h2, Or.inr ⟨h1, h4⟩⟩
  · rintro ⟨h1, h2 | ⟨h2, h3⟩⟩
    · exact Or.inl ⟨h2, h1⟩
    · by_cases hk : k < 2
      · exact Or.inl ⟨hk, h1⟩
      · exact Or.inr ⟨⟨h2, h1⟩, by omega, h3⟩

theorem filter_range_from_two (n : Nat) (q : Nat → Bool) (h0 : q 0 = false)
    (h1 : q 1 = false) :
    (List.range n).filter q = (List.range' 2 (n - 2)).filter q := by
  rcases n with _ | _ | n
  · rfl
  · simp [List.range_succ, h0]
  · have h : n + 1 + 1 - 2 = n := by omega
    rw [List.range_eq_range', h, List.range'_succ, List.range'_succ]
    simp [List.filter_cons, h0, h1]

theorem extract_parSieved (limit B : Nat) (s : List Bool) (hlen : s.length = limit + 1)
    (hs : ∀ k : Nat, s[k]? = some false ↔
      (k ≤ limit ∧ (k < 2 ∨ (k < B ∧ ¬ Nat.Prime k)))) :
    (List.range' 2 (limit + 1 - 2)).filter (fun k => s[k]? = some true) =
      (List.range (limit + 1)).filter (fun k => Nat.Prime k ∨ (2 ≤ k ∧ B ≤ k)) := by
  rw [filter_range_from_two (limit + 1) _ (by simp [Nat.not_prime_zero])
    (by simp [Nat.not_prime_one])]
  apply List.filter_congr
  intro k hk
  rw [List.mem_range'_1] at hk
  have hklen : k < s.length := by omega
  have hiff := hs k
  rw [List.getElem?_eq_getElem hklen] at hiff ⊢
  cases hb : s[k] with
  | false =>
    rw [hb] at hiff
    have := hiff.1 rfl
    have hnp : ¬ (Nat.Prime k ∨ (2 ≤ k ∧ B ≤ k)) := by
      rcases this.2 with h | ⟨h1, h2⟩
      · omega
      · rintro (h | ⟨_, h⟩)
        · exact h2 h
        · omega
    simp only [hnp, decide_False]
    rfl
  | true =>
    rw [hb] at hiff
    have hp : Nat.Prime k ∨ (2 ≤ k ∧ B ≤ k) := by
      by_contra hnp
      have h1 : ¬ Nat.Prime k := fun h => hnp (Or.inl h)
      have h2 : k < B := by
        by_contra hc
        exact hnp (Or.inr ⟨hk.1, by omega⟩)
      have := hiff.2 ⟨by omega, Or.inr ⟨h2, h1⟩⟩
      simp at this
    simp only [hp, decide_True]

theorem multithreaded_run (F : Nat) (c : PrimeCalculator) (hN : c.limit < 4294836225)
    (hT : c.numThreads ≤ 65536) (hF : c.limit + 2 ≤ F) :
    multithreadedSieveOfEratosthenes F c = .ok { c with
      primes := (List.range (c.limit + 1)).filter (fun k =>
        Nat.Prime k ∨ (2 ≤ k ∧ c.numThreads * chunkSize c.limit c.numThreads ≤ k)),
      primeCount := ((List.range (c.limit + 1)).filter (fun k =>
        Nat.Prime k ∨ (2 ≤ k ∧ c.numThreads * chunkSize c.limit c.numThreads ≤ k))).length } := by
  have hU : c.limit + 1 < UINT := by simp only [UINT]; omega
  obtain ⟨s, hrun, hlen, hget⟩ := parSieve_spec F c.limit c.numThreads hN hT hF
  unfold multithreadedSieveOfEratosthenes
  rw [hrun]
  simp only [bind, Except.bind]
  rw [extractLoop_spec c.limit s hU (by omega) F 2 _ (by omega) (by omega),
    foldl_pushPrime _ _ (by simp only [UINT]; omega),
    extract_parSieved c.limit _ s hlen hget]
  simp only [pure, Except.pure, List.nil_append, Nat.zero_add]
  rw [Nat.mod_eq_of_lt]
  have h1 := List.length_filter_le (fun k => decide (Nat.Prime k ∨
    (2 ≤ k ∧ c.numThreads * chunkSize c.limit c.numThreads ≤ k))) (List.range (c.limit + 1))
  rw [List.length_range] at h1
  omega

theorem worker_small (F limit start stop : Nat) (hl : limit < 4) (s : List Bool) :
    worker (F + 1) limit start stop s = .ok s := by
  unfold worker workerOuter
  have h : ¬ (2 * 2) % UINT ≤ limit := by simp only [UINT]; omega
  rw [if_neg h]

theorem runWorkers_small (F limit T : Nat) (hl : limit < 4) :
    ∀ (ts : List Nat) (s : List Bool), runWorkers (F + 1) limit T ts s = .ok s := by
  intro ts
  induction ts with
  | nil => intro s; rfl
  | cons t ts ih =>
    intro s
    unfold runWorkers
    rw [worker_small F limit _ _ hl s]
    exact ih s

/-! ## The classic primality test -/

theorem isPrime_decide (F n : Nat) (hn : n < 4294311961) (hF : 10922 ≤ F) :
    isPrime F n = .ok (decide (Nat.Prime n)) := by
  obtain ⟨b, hb, hiff⟩ := isPrime_spec F n hn hF
  rw [hb]
  congr 1
  cases b with
  | false =>
    have : ¬ Nat.Prime n := fun h => by simpa using hiff.2 h
    simp [this]
  | true =>
    have : Nat.Prime n := hiff.1 rfl
    simp [this]

theorem not_prime_of_dvd (d k : Nat) (hd : 2 ≤ d) (hdk : d ∣ k) (hlt : d < k) :
    ¬ Nat.Prime k := by
  intro hp
  rcases (Nat.dvd_prime hp).1 hdk with h | h <;> omega

theorem classic_window (limit n : Nat) (h5 : n % 6 = 5) (hn : n ≤ limit) :
    (List.range' n (limit + 1 - n)).filter (fun k => Nat.Prime k) =
      (if Nat.Prime n then [n] else []) ++
        ((if n + 2 ≤ limit ∧ Nat.Prime (n + 2) then [n + 2] else []) ++
          (List.range' (n + 6) (limit + 1 - (n + 6))).filter (fun k => Nat.Prime k)) := by
  have h1 : ¬ Nat.Prime (n + 1) :=
    not_prime_of_dvd 2 (n + 1) (le_refl 2) (Nat.dvd_of_mod_eq_zero (by omega)) (by omega)
  have h3 : ¬ Nat.Prime (n + 3) :=
    not_prime_of_dvd 2 (n + 3) (le_refl 2) (Nat.dvd_of_mod_eq_zero (by omega)) (by omega)
  have h4 : ¬ Nat.Prime (n + 4) :=
    not_prime_of_dvd 3 (n + 4) (by omega) (Nat.dvd_of_mod_eq_zero (by omega)) (by omega)
  have h6 : ¬ Nat.Prime (n + 5) :=
    not_prime_of_dvd 2 (n + 5) (le_refl 2) (Nat.dvd_of_mod_eq_zero (by omega)) (by omega)
  obtain ⟨m, hm⟩ : ∃ m, limit + 1 - n = m + 1 := ⟨limit - n, by omega⟩
  rw [hm]
  rcases m with _ | _ | _ | _ | _ | m
  · have e1 : limit + 1 - (n + 6) = 0 := by omega
    have e2 : ¬ n + 2 ≤ limit := by omega
    rw [e1]
    by_cases hp : Nat.Prime n <;> simp [List.range', List.filter_cons, hp, e2]
  · have e1 : limit + 1 - (n + 6) = 0 := by omega
    have e2 : ¬ n + 2 ≤ limit := by omega
    rw [e1]
    by_cases hp : Nat.Prime n <;> simp [List.range', List.filter_cons, hp, e2, h1]
  · have e1 : limit + 1 - (n + 6) = 0 := by omega
    have e2 : n + 2 ≤ limit := by omega
    rw [e1]
    by_cases hp : Nat.Prime n <;> by_cases hq : Nat.Prime (n + 2) <;>
      simp [List.range', List.filter_cons, hp, hq, e2, h1]
  · have e1 : limit + 1 - (n + 6) = 0 := by omega
    have e2 : n + 2 ≤ limit := by omega
    rw [e1]
    by_cases hp : Nat.Prime n <;> by_cases hq : Nat.Prime (n + 2) <;>
      simp [List.range', List.filter_cons, hp, hq, e2, h1, h3]
  · have e1 : limit + 1 - (n + 6) = 0 := by omega
    have e2 : n + 2 ≤ limit := by omega
    rw [e1]
    by_cases hp : Nat.Prime n <;> by_cases hq : Nat.Prime (n + 2) <;>
      simp [List.range', List.filter_cons, hp, hq, e2, h1, h3, h4]
  · have e1 : limit + 1 - (n + 6) = m := by omega
    have e2 : n + 2 ≤ limit := by omega
    rw [e1]
    by_cases hp : Nat.Prime n <;> by_cases hq : Nat.Prime (n + 2) <;>
      simp [List.range', List.filter_cons, hp, hq, e2, h1, h3, h4, h6]

theorem classicLoop_spec (F limit : Nat) (hlim : limit < 4294311961) (hF : 10922 ≤ F) :
    ∀ (fuel n : Nat) (acc : List Nat × Nat), n % 6 = 5 → n ≤ limit + 6 →
      limit + 7 ≤ n + 6 * fuel →
      classicLoop F limit fuel n acc =
        .ok (((List.range' n (limit + 1 - n)).filter (fun k => Nat.Prime k)).foldl
          pushPrime acc) := by
  intro fuel
  induction fuel with
  | zero => intro n acc _ h1 h2; omega
  | succ fuel ih =>
    intro n acc h5 h1 h2
    unfold classicLoop
    by_cases hn : n ≤ limit
    · have e2 : (n + 2) % UINT = n + 2 := Nat.mod_eq_of_lt (by simp only [UINT]; omega)
      have e6 : (n + 6) % UINT = n + 6 := Nat.mod_eq_of_lt (by simp only [UINT]; omega)
      rw [if_pos hn, isPrime_decide F n (by omega) hF, e2, e6, classic_window limit n h5 hn]
      simp only [bind, Except.bind]
      by_cases h2l : n + 2 ≤ limit
      · rw [if_pos h2l, isPrime_decide F (n + 2) (by omega) hF]
        simp only [bind, Except.bind]
        rw [ih (n + 6) _ (by omega) (by omega) (by omega), List.foldl_append,
          List.foldl_append]
        by_cases hp : Nat.Prime n <;> by_cases hq : Nat.Prime (n + 2) <;> simp [hp, hq, h2l]
      · rw [if_neg h2l]
        simp only [bind, Except.bind, pure, Except.pure]
        rw [ih (n + 6) _ (by omega) (by omega) (by omega), List.foldl_append,
          List.foldl_append]
        by_cases hp : Nat.Prime n <;> simp [hp, h2l]
    · have e0 : limit + 1 - n = 0 := by omega
      rw [if_neg hn, e0]
      rfl

theorem classicPrimalityTest_run (F : Nat) (c : PrimeCalculator) (hN : c.limit < 4294311961)
    (hF1 : c.limit + 2 ≤ F) (hF2 : 10922 ≤ F) :
    classicPrimalityTest F c = .ok { c with
      primes := (List.range (c.limit + 1)).filter (fun k => Nat.Prime k),
      primeCount := ((List.range (c.limit + 1)).filter (fun k => Nat.Prime k)).length } := by
  have hU : c.limit + 1 < UINT := by simp only [UINT]; omega
  unfold classicPrimalityTest
  dsimp only
  rw [classicLoop_spec F c.limit hN hF2 F 5 _ (by norm_num) (by omega) (by omega)]
  simp only [bind, Except.bind, pure, Except.pure]
  have key : ((List.range' 5 (c.limit + 1 - 5)).filter (fun k => Nat.Prime k)).foldl pushPrime
      (if c.limit ≥ 3 then pushPrime (if c.limit ≥ 2 then pushPrime ([], 0) 2 else ([], 0)) 3
        else (if c.limit ≥ 2 then pushPrime ([], 0) 2 else ([], 0))) =
      ((List.range (c.limit + 1)).filter (fun k => Nat.Prime k)).foldl pushPrime ([], 0) := by
    by_cases h5 : 5 ≤ c.limit
    · obtain ⟨m, hm⟩ : ∃ m, c.limit + 1 = m + 5 := ⟨c.limit + 1 - 5, by omega⟩
      have hr : List.range (c.limit + 1) =
          [0, 1, 2, 3, 4] ++ List.range' 5 (c.limit + 1 - 5) := by
        rw [List.range_eq_range', hm, Nat.add_sub_cancel]
        rfl
      have h2 : Nat.Prime 2 := by norm_num
      have h3 : Nat.Prime 3 := by norm_num
      have h4 : ¬ Nat.Prime 4 := by norm_num
      rw [hr, List.filter_append, List.foldl_append, if_pos (by omega : c.limit ≥ 3),
        if_pos (by omega : c.limit ≥ 2)]
      simp [List.filter_cons, Nat.not_prime_zero, Nat.not_prime_one, h2, h3, h4]
    · have hcases : c.limit = 0 ∨ c.limit = 1 ∨ c.limit = 2 ∨ c.limit = 3 ∨ c.limit = 4 := by
        omega
      have h2 : Nat.Prime 2 := by norm_num
      have h3 : Nat.Prime 3 := by norm_num
      have h4 : ¬ Nat.Prime 4 := by norm_num
      rcases hcases with h | h | h | h | h <;> rw [h] <;>
        simp [List.range_succ, List.filter_cons, List.filter_append, Nat.not_prime_zero,
          Nat.not_prime_one, h2, h3, h4]
  rw [key, foldl_pushPrime _ _ (by simp only [UINT]; omega)]
  simp only [List.nil_append, Nat.zero_add]
  rw [Nat.mod_eq_of_lt (primes_length_lt c.limit hU)]

theorem pairwise_push (l : List Nat) (v : Nat) (hl : List.Pairwise (fun a b => a < b) l)
    (hv : ∀ x, x ∈ l → x < v) : List.Pairwise (fun a b => a < b) (l ++ [v]) := by
  rw [List.pairwise_append]
  refine ⟨hl, List.pairwise_singleton _ _, ?_⟩
  intro a ha b hb
  rw [List.mem_singleton] at hb
  subst hb
  exact hv a ha

theorem extractLoop_never_returns (limit : Nat) (s : List Bool) (hU : UINT ≤ limit + 1) :
    ∀ (fuel p : Nat) (acc r : List Nat × Nat), p < UINT →
      extractLoop limit s fuel p acc ≠ .ok r := by
  intro fuel
  induction fuel with
  | zero =>
    intro p acc r _ h
    unfold extractLoop at h
    cases h
  | succ fuel ih =>
    intro p acc r hp h
    unfold extractLoop at h
    rw [if_pos (by omega)] at h
    cases hb : readFlag s p with
    | error e =>
      rw [hb] at h
      cases h
    | ok b =>
      rw [hb] at h
      exact ih _ _ r (Nat.mod_lt _ (by simp only [UINT]; omega)) h

theorem extractLoop_sorted (limit : Nat) (s : List Bool) (hU : limit + 1 < UINT) :
    ∀ (fuel p : Nat) (acc r : List Nat × Nat), extractLoop limit s fuel p acc = .ok r →
      2 ≤ p → List.Pairwise (fun a b => a < b) acc.1 →
      (∀ x, x ∈ acc.1 → 2 ≤ x ∧ x < p ∧ x ≤ limit) →
      List.Pairwise (fun a b => a < b) r.1 ∧ ∀ x, x ∈ r.1 → 2 ≤ x ∧ x ≤ limit := by
  intro fuel
  induction fuel with
  | zero =>
    intro p acc r h
    unfold extractLoop at h
    cases h
  | succ fuel ih =>
    intro p acc r h hp hsorted hmem
    unfold extractLoop at h
    by_cases hpl : p ≤ limit
    · rw [if_pos hpl, Nat.mod_eq_of_lt (by omega)] at h
      cases hb : readFlag s p with
      | error e =>
        rw [hb] at h
        cases h
      | ok b =>
        rw [hb] at h
        cases b with
        | false =>
          refine ih (p + 1) acc r h (by omega) hsorted ?_
          intro x hx
          have := hmem x hx
          omega
        | true =>
          refine ih (p + 1) (pushPrime acc p) r h (by omega) ?_ ?_
          · exact pairwise_push acc.1 p hsorted (fun x hx => (hmem x hx).2.1)
          · intro x hx
            simp only [pushPrime, List.mem_append, List.mem_singleton] at hx
            rcases hx with hx | hx
            · have := hmem x hx
              omega
            · omega
    · rw [if_neg hpl] at h
      cases h
      exact ⟨hsorted, fun x hx => ⟨(hmem x hx).1, (hmem x hx).2.2⟩⟩

theorem extract_result_sorted (limit : Nat) (s : List Bool) (fuel : Nat)
    (r : List Nat × Nat) (h : extractLoop limit s fuel 2 ([], 0) = .ok r) :
    List.Pairwise (fun a b => a < b) r.1 ∧ ∀ x, x ∈ r.1 → 2 ≤ x ∧ x ≤ limit := by
  by_cases hU : limit + 1 < UINT
  · exact extractLoop_sorted limit s hU fuel 2 ([], 0) r h (le_refl 2) List.Pairwise.nil
      (fun x hx => by cases hx)
  · exact absurd h
      (extractLoop_never_returns limit s (by omega) fuel 2 ([], 0) r (by simp only [UINT]; omega))

theorem sieveOfEratosthenes_sorted (F : Nat) (c r : PrimeCalculator)
    (h : sieveOfEratosthenes F c = .ok r) :
    List.Pairwise (fun a b => a < b) r.primes ∧ ∀ x, x ∈ r.primes → 2 ≤ x ∧ x ≤ c.limit := by
  unfold sieveOfEratosthenes at h
  cases hs : seqSieve F c.limit with
  | error e => rw [hs] at h; cases h
  | ok s =>
    rw [hs] at h
    cases he : extractLoop c.limit s F 2 ([], 0) with
    | error e =>
      simp only [bind, Except.bind, he] at h
      cases h
    | ok acc =>
      simp only [bind, Except.bind, he, pure, Except.pure] at h
      cases h
      exact extract_result_sorted c.limit s F acc he

theorem multithreaded_sorted (F : Nat) (c r : PrimeCalculator)
    (h : multithreadedSieveOfEratosthenes F c = .ok r) :
    List.Pairwise (fun a b => a < b) r.primes ∧ ∀ x, x ∈ r.primes → 2 ≤ x ∧ x ≤ c.limit := by
  unfold multithreadedSieveOfEratosthenes at h
  cases hs : parSieve F c.limit c.numThreads with
  | error e => rw [hs] at h; cases h
  | ok s =>
    rw [hs] at h
    cases he : extractLoop c.limit s F 2 ([], 0) with
    | error e =>
      simp only [bind, Except.bind, he] at h
      cases h
    | ok acc =>
      simp only [bind, Except.bind, he, pure, Except.pure] at h
      cases h
      exact extract_result_sorted c.limit s F acc he

theorem accOk_mono (limit n m : Nat) (acc : List Nat × Nat) (h : AccOk limit n acc)
    (hnm : n ≤ m) : AccOk limit m acc :=
  ⟨h.1, fun x hx => ⟨(h.2 x hx).1, lt_of_lt_of_le (h.2 x hx).2.1 hnm, (h.2 x hx).2.2⟩⟩

theorem accOk_push (limit v m : Nat) (acc : List Nat × Nat) (h : AccOk limit v acc)
    (hv2 : 2 ≤ v) (hvl : v ≤ limit) (hvm : v < m) : AccOk limit m (pushPrime acc v) := by
  refine ⟨pairwise_push acc.1 v h.1 (fun x hx => (h.2 x hx).2.1), ?_⟩
  intro x hx
  simp only [pushPrime, List.mem_append, List.mem_singleton] at hx
  rcases hx with hx | hx
  · have := h.2 x hx
    omega
  · omega

theorem classicLoop_sorted (F limit : Nat) (hU : limit + 5 < UINT) :
    ∀ (fuel n : Nat) (acc r : List Nat × Nat), classicLoop F limit fuel n acc = .ok r →
      n % 6 = 5 → AccOk limit n acc → AccOk limit (limit + 1) r := by
  intro fuel
  induction fuel with
  | zero =>
    intro n acc r h
    unfold classicLoop at h
    cases h
  | succ fuel ih =>
    intro n acc r h h5 hacc
    unfold classicLoop at h
    by_cases hn : n ≤ limit
    · have hn11 : n + 11 ≤ UINT := by simp only [UINT] at hU ⊢; omega
      have e2 : (n + 2) % UINT = n + 2 := Nat.mod_eq_of_lt (by omega)
      have e6 : (n + 6) % UINT = n + 6 := Nat.mod_eq_of_lt (by omega)
      rw [if_pos hn, e2, e6] at h
      cases hb1 : isPrime F n with
      | error e => rw [hb1] at h; cases h
      | ok b1 =>
        rw [hb1] at h
        simp only [bind, Except.bind] at h
        have hacc1 : AccOk limit (n + 2) (if b1 = true then pushPrime acc n else acc) := by
          cases b1 with
          | false => exact accOk_mono limit n (n + 2) acc hacc (by omega)
          | true => exact accOk_push limit n (n + 2) acc hacc (by omega) hn (by omega)
        by_cases h2l : n + 2 ≤ limit
        · rw [if_pos h2l] at h
          cases hb2 : isPrime F (n + 2) with
          | error e => rw [hb2] at h; cases h
          | ok b2 =>
            rw [hb2] at h
            refine ih (n + 6) _ r h (by omega) ?_
            cases b2 with
            | false => exact accOk_mono limit (n + 2) (n + 6) _ hacc1 (by omega)
            | true => exact accOk_push limit (n + 2) (n + 6) _ hacc1 (by omega) h2l (by omega)
        · rw [if_neg h2l] at h
          simp only [pure, Except.pure] at h
          exact ih (n + 6) _ r h (by omega) (accOk_mono limit (n + 2) (n + 6) _ hacc1 (by omega))
    · rw [if_neg hn] at h
      cases h
      exact ⟨hacc.1, fun x hx => ⟨(hacc.2 x hx).1, by have := (hacc.2 x hx).2.2; omega,
        (hacc.2 x hx).2.2⟩⟩

theorem classicPrimalityTest_sorted (F : Nat) (c r : PrimeCalculator)
    (hU : c.limit + 5 < UINT) (h : classicPrimalityTest F c = .ok r) :
    List.Pairwise (fun a b => a < b) r.primes ∧ ∀ x, x ∈ r.primes → 2 ≤ x ∧ x ≤ c.limit := by
  unfold classicPrimalityTest at h
  dsimp only at h
  have hacc : AccOk c.limit 5
      (if c.limit ≥ 3 then pushPrime (if c.limit ≥ 2 then pushPrime ([], 0) 2 else ([], 0)) 3
        else (if c.limit ≥ 2 then pushPrime ([], 0) 2 else ([], 0))) := by
    have h0 : AccOk c.limit 2 ([], 0) := ⟨List.Pairwise.nil, fun x hx => by cases hx⟩
    by_cases h3 : c.limit ≥ 3
    · rw [if_pos h3, if_pos (by omega : c.limit ≥ 2)]
      exact accOk_push c.limit 3 5 _ (accOk_push c.limit 2 3 _ h0 (by omega) (by omega)
        (by omega)) (by omega) h3 (by omega)
    · rw [if_neg h3]
      by_cases h2 : c.limit ≥ 2
      · rw [if_pos h2]
        exact accOk_push c.limit 2 5 _ h0 (by omega) h2 (by omega)
      · rw [if_neg h2]
        exact accOk_mono c.limit 2 5 _ h0 (by omega)
  cases hl : classicLoop F c.limit F 5
      (if c.limit ≥ 3 then pushPrime (if c.limit ≥ 2 then pushPrime ([], 0) 2 else ([], 0)) 3
        else (if c.limit ≥ 2 then pushPrime ([], 0) 2 else ([], 0))) with
  | error e =>
    simp only [bind, Except.bind, hl] at h
    cases h
  | ok acc =>
    simp only [bind, Except.bind, hl, pure, Except.pure] at h
    cases h
    have := classicLoop_sorted F c.limit hU F 5 _ acc hl (by norm_num) hacc
    exact ⟨this.1, fun x hx => ⟨(this.2 x hx).1, (this.2 x hx).2.2⟩⟩

/-! ## Termination of trial division on the whole 32-bit range -/

theorem isPrimeLoop_terminates (n : Nat) (hn : 4 ≤ n) :
    ∀ (fuel i : Nat), i % 6 = 5 → i < UINT → UINT + 7 ≤ i + 6 * fuel →
      ∃ b, isPrimeLoop n fuel i = .ok b := by
  intro fuel
  induction fuel with
  | zero => intro i _ h1 h2; omega
  | succ fuel ih =>
    intro i h5 hi hfuel
    unfold isPrimeLoop
    by_cases hg : (i * i) % UINT ≤ n
    · rw [if_pos hg]
      by_cases ht : n % i = 0 ∨ n % ((i + 2) % UINT) = 0
      · rw [if_pos ht]; exact ⟨false, rfl⟩
      · rw [if_neg ht]
        by_cases hw : i + 6 < UINT
        · rw [Nat.mod_eq_of_lt hw]
          exact ih (i + 6) (by omega) hw (by omega)
        · have hi5 : i = UINT - 5 := by simp only [UINT] at hi hw ⊢; omega
          have h1 : (i + 6) % UINT = 1 := by rw [hi5]; rfl
          rw [h1]
          obtain ⟨g, rfl⟩ : ∃ g, fuel = g + 1 := ⟨fuel - 1, by simp only [UINT] at *; omega⟩
          unfold isPrimeLoop
          have hg1 : (1 * 1) % UINT ≤ n := by simp only [UINT]; omega
          rw [if_pos hg1, if_pos (Or.inl (Nat.mod_one n))]
          exact ⟨false, rfl⟩
    · rw [if_neg hg]; exact ⟨true, rfl⟩

theorem isPrime_terminates (F n : Nat) (hF : 715827883 ≤ F) : ∃ b, isPrime F n = .ok b := by
  unfold isPrime
  by_cases h1 : n ≤ 1
  · rw [if_pos h1]; exact ⟨false, rfl⟩
  · rw [if_neg h1]
    by_cases h3 : n ≤ 3
    · rw [if_pos h3]; exact ⟨true, rfl⟩
    · rw [if_neg h3]
      by_cases hd : n % 2 = 0 ∨ n % 3 = 0
      · rw [if_pos hd]; exact ⟨false, rfl⟩
      · rw [if_neg hd]
        exact isPrimeLoop_terminates n (by omega) F 5 (by norm_num) (by simp only [UINT]; omega)
          (by simp only [UINT]; omega)

theorem classicLoop_prefix (F limit : Nat) :
    ∀ (fuel n : Nat) (acc r : List Nat × Nat), classicLoop F limit fuel n acc = .ok r →
      ∃ Y, r.1 = acc.1 ++ Y := by
  intro fuel
  induction fuel with
  | zero =>
    intro n acc r h
    unfold classicLoop at h
    cases h
  | succ fuel ih =>
    intro n acc r h
    unfold classicLoop at h
    by_cases hn : n ≤ limit
    · rw [if_pos hn] at h
      cases hb1 : isPrime F n with
      | error e => rw [hb1] at h; cases h
      | ok b1 =>
        rw [hb1] at h
        simp only [bind, Except.bind] at h
        have h1 : ∃ Y, (if b1 = true then pushPrime acc n else acc).1 = acc.1 ++ Y := by
          cases b1 with
          | false => exact ⟨[], by simp⟩
          | true => exact ⟨[n], rfl⟩
        obtain ⟨Y1, hY1⟩ := h1
        by_cases h2l : (n + 2) % UINT ≤ limit
        · rw [if_pos h2l] at h
          cases hb2 : isPrime F ((n + 2) % UINT) with
          | error e => rw [hb2] at h; cases h
          | ok b2 =>
            rw [hb2] at h
            obtain ⟨Y, hY⟩ := ih _ _ r h
            cases b2 with
            | false =>
              refine ⟨Y1 ++ Y, ?_⟩
              rw [hY]
              simp only [Bool.false_eq_true, if_false]
              rw [hY1, List.append_assoc]
            | true =>
              refine ⟨Y1 ++ [(n + 2) % UINT] ++ Y, ?_⟩
              have e : ∀ (a : List Nat × Nat) (v : Nat), (pushPrime a v).1 = a.1 ++ [v] :=
                fun _ _ => rfl
              rw [hY]
              simp only [if_true]
              rw [e, hY1]
              simp only [List.append_assoc]
        · rw [if_neg h2l] at h
          simp only [pure, Except.pure] at h
          obtain ⟨Y, hY⟩ := ih _ _ r h
          refine ⟨Y1 ++ Y, ?_⟩
          rw [hY]
          simp only [Bool.false_eq_true, if_false]
          rw [hY1, List.append_assoc]
    · rw [if_neg hn] at h
      cases h
      exact ⟨[], by simp⟩

theorem classicLoop_terminates (F limit res : Nat) (hF : 715827883 ≤ F)
    (hnw : ∀ n, n ≤ limit → n % 6 = res → n + 6 < UINT) :
    ∀ (fuel n : Nat) (acc : List Nat × Nat), n % 6 = res → n ≤ limit + 6 →
      limit + 7 ≤ n + 6 * fuel → ∃ r, classicLoop F limit fuel n acc = .ok r := by
  intro fuel
  induction fuel with
  | zero => intro n acc _ h1 h2; omega
  | succ fuel ih =>
    intro n acc hres h1 h2
    unfold classicLoop
    by_cases hn : n ≤ limit
    · have hw := hnw n hn hres
      have e2 : (n + 2) % UINT = n + 2 := Nat.mod_eq_of_lt (by omega)
      have e6 : (n + 6) % UINT = n + 6 := Nat.mod_eq_of_lt hw
      obtain ⟨b1, hb1⟩ := isPrime_terminates F n hF
      rw [if_pos hn, e2, e6, hb1]
      simp only [bind, Except.bind]
      by_cases h2l : n + 2 ≤ limit
      · obtain ⟨b2, hb2⟩ := isPrime_terminates F (n + 2) hF
        rw [if_pos h2l, hb2]
        exact ih (n + 6) _ (by omega) (by omega) (by omega)
      · rw [if_neg h2l]
        exact ih (n + 6) _ (by omega) (by omega) (by omega)
    · rw [if_neg hn]
      exact ⟨acc, rfl⟩

theorem classicPrimalityTest_terminates (F : Nat) (c : PrimeCalculator)
    (hF : 715827883 ≤ F) (hU : c.limit + 5 < UINT) :
    ∃ r, classicPrimalityTest F c = .ok r := by
  unfold classicPrimalityTest
  dsimp only
  obtain ⟨acc, hacc⟩ := classicLoop_terminates F c.limit 5 hF
    (fun n hn h5 => by simp only [UINT] at hU ⊢; omega) F 5
    (if c.limit ≥ 3 then pushPrime (if c.limit ≥ 2 then pushPrime ([], 0) 2 else ([], 0)) 3
        else (if c.limit ≥ 2 then pushPrime ([], 0) 2 else ([], 0)))
    (by norm_num) (by omega) (by simp only [UINT] at hU; omega)
  rw [hacc]
  exact ⟨_, rfl⟩

theorem mem_push_keep (acc : List Nat × Nat) (b : Bool) (v x : Nat) (h : x ∈ acc.1) :
    x ∈ (if b = true then pushPrime acc v else acc).1 := by
  cases b with
  | false => exact h
  | true => exact List.mem_append_left _ h

theorem classicLoop_wraps (F : Nat) (hF : 715827883 ≤ F) :
    ∀ (fuel n : Nat) (acc : List Nat × Nat), n % 6 = 5 → n ≤ 4294967291 →
      8589934601 ≤ n + 6 * fuel → 3 ∈ acc.1 →
      ∃ r, classicLoop F 4294967291 fuel n acc = .ok r ∧
        ¬ List.Pairwise (fun a b => a < b) r.1 := by
  intro fuel
  induction fuel with
  | zero => intro n acc _ h1 h2; omega
  | succ fuel ih =>
    intro n acc h5 hn hfuel h3
    unfold classicLoop
    obtain ⟨b1, hb1⟩ := isPrime_terminates F n hF
    rw [if_pos hn, hb1]
    simp only [bind, Except.bind]
    by_cases hlt : n < 4294967291
    · have e2 : (n + 2) % UINT = n + 2 := Nat.mod_eq_of_lt (by simp only [UINT]; omega)
      have e6 : (n + 6) % UINT = n + 6 := Nat.mod_eq_of_lt (by simp only [UINT]; omega)
      obtain ⟨b2, hb2⟩ := isPrime_terminates F (n + 2) hF
      rw [e2, e6, if_pos (show n + 2 ≤ 4294967291 by omega), hb2]
      exact ih (n + 6) _ (by omega) (by omega) (by omega)
        (mem_push_keep _ b2 _ 3 (mem_push_keep acc b1 _ 3 h3))
    · have hn' : n = 4294967291 := by omega
      subst hn'
      have e2 : (4294967291 + 2) % UINT = 4294967293 := rfl
      have e6 : (4294967291 + 6) % UINT = 1 := rfl
      rw [e2, e6, if_neg (show ¬ 4294967293 ≤ 4294967291 by omega)]
      simp only [pure, Except.pure, Bool.false_eq_true, if_false]
      obtain ⟨g, rfl⟩ : ∃ g, fuel = g + 1 := ⟨fuel - 1, by omega⟩
      unfold classicLoop
      have i1 : isPrime F 1 = .ok false := rfl
      have i3 : isPrime F 3 = .ok true := rfl
      have e3 : (1 + 2) % UINT = 3 := rfl
      have e7 : (1 + 6) % UINT = 7 := rfl
      have h1L : 1 ≤ 4294967291 := by omega
      have h3L : 3 ≤ 4294967291 := by omega
      simp only [if_pos h1L, i1, e3, e7, if_pos h3L, i3, bind, Except.bind, Bool.false_eq_true,
        if_false, if_true]
      obtain ⟨r, hr⟩ := classicLoop_terminates F 4294967291 1 hF
        (fun m hm h1 => by simp only [UINT]; omega) g 7
        (pushPrime (if b1 = true then pushPrime acc 4294967291 else acc) 3)
        (by norm_num) (by omega) (by omega)
      refine ⟨r, hr, ?_⟩
      obtain ⟨Y, hY⟩ := classicLoop_prefix F 4294967291 g 7 _ r hr
      intro hp
      rw [hY] at hp
      have h1 := (List.pairwise_append.1 hp).1
      have h2 := (List.pairwise_append.1 h1).2.2 3 (mem_push_keep acc b1 _ 3 h3) 3
        (List.mem_singleton_self 3)
      omega

theorem classicPrimalityTest_wraps (T : Nat) (ps : List Nat) (cnt : Nat) :
    ∃ r, classicPrimalityTest 1431655766 ⟨4294967291, ps, cnt, T⟩ = .ok r ∧
      ¬ List.Pairwise (fun a b => a < b) r.primes := by
  obtain ⟨acc, hacc, hnp⟩ := classicLoop_wraps 1431655766 (by omega) 1431655766 5
    (pushPrime (pushPrime ([], 0) 2) 3) (by norm_num) (by omega) (by omega)
    (by simp [pushPrime])
  refine ⟨⟨4294967291, acc.1, acc.2, T⟩, ?_, hnp⟩
  unfold classicPrimalityTest
  dsimp only
  rw [if_pos (by omega), if_pos (by omega), hacc]
  rfl

theorem multithreaded_returns (F : Nat) (c : PrimeCalculator) (hN : c.limit < 4294836225)
    (hT : c.numThreads ≤ 65536) (hF : c.limit + 2 ≤ F) :
    ∃ r, multithreadedSieveOfEratosthenes F c = .ok r :=
  ⟨_, multithreaded_run F c hN hT hF⟩

/-! ## The flags as a statement about prime divisors -/

theorem readFlag_ok (s : List Bool) (k : Nat) (b : Bool) (h : readFlag s k = .ok b) :
    s[k]? = some b := by
  unfold readFlag at h
  cases hk : s[k]? with
  | none => rw [hk] at h; cases h
  | some c => rw [hk] at h; cases h; rfl

theorem readFlag_of_getElem (s : List Bool) (k : Nat) (b : Bool) (h : s[k]? = some b) :
    readFlag s k = .ok b := by
  unfold readFlag
  rw [h]

theorem set_false_keeps (s : List Bool) (i k : Nat) (h : s[k]? = some false) :
    (s.set i false)[k]? = some false := by
  rw [List.getElem?_set]
  by_cases hik : i = k
  · subst hik
    have hlt : i < s.length := by
      by_contra hc
      rw [List.getElem?_eq_none (by omega)] at h
      cases h
    rw [if_pos rfl, if_pos hlt]
  · rw [if_neg hik]; exact h

theorem set_false_id (u : List Bool) (i : Nat) (h : i < u.length → u[i]? = some false) :
    u.set i false = u := by
  apply List.ext_getElem?
  intro n
  rw [List.getElem?_set]
  by_cases hin : i = n
  · subst hin
    rw [if_pos rfl]
    by_cases hlt : i < u.length
    · rw [if_pos hlt, h hlt]
    · rw [if_neg hlt, List.getElem?_eq_none (by omega)]
  · rw [if_neg hin]

theorem workerInner_mono (stop p : Nat) :
    ∀ (fuel i : Nat) (s s1 : List Bool), workerInner stop p fuel i s = .ok s1 →
      s1.length = s.length ∧ ∀ k : Nat, s[k]? = some false → s1[k]? = some false := by
  intro fuel
  induction fuel with
  | zero =>
    intro i s s1 h
    unfold workerInner at h
    cases h
  | succ fuel ih =>
    intro i s s1 h
    unfold workerInner at h
    by_cases hi : i < stop
    · rw [if_pos hi] at h
      obtain ⟨h1, h2⟩ := ih _ _ s1 h
      exact ⟨by rw [h1, List.length_set], fun k hk => h2 k (set_false_keeps s i k hk)⟩
    · rw [if_neg hi] at h
      cases h
      exact ⟨rfl, fun _ hk => hk⟩

theorem workerInner_fixed (stop p : Nat) :
    ∀ (fuel i : Nat) (s s1 u : List Bool), workerInner stop p fuel i s = .ok s1 →
      u.length = s.length → (∀ k : Nat, s1[k]? = some false → u[k]? = some false) →
      workerInner stop p fuel i u = .ok u := by
  intro fuel
  induction fuel with
  | zero =>
    intro i s s1 u h
    unfold workerInner at h
    cases h
  | succ fuel ih =>
    intro i s s1 u h hlen hu
    unfold workerInner at h ⊢
    by_cases hi : i < stop
    · rw [if_pos hi] at h
      rw [if_pos hi]
      have hid : u.set i false = u := by
        apply set_false_id
        intro hlt
        apply hu
        apply (workerInner_mono stop p _ _ _ s1 h).2
        rw [List.getElem?_set, if_pos rfl, if_pos (by omega)]
      rw [hid]
      exact ih _ _ s1 u h (by rw [hlen, List.length_set]) hu
    · rw [if_neg hi]

theorem workerOuter_mono (F limit start stop : Nat) :
    ∀ (fuel p : Nat) (s s1 : List Bool), workerOuter F limit start stop fuel p s = .ok s1 →
      s1.length = s.length ∧ ∀ k : Nat, s[k]? = some false → s1[k]? = some false := by
  intro fuel
  induction fuel with
  | zero =>
    intro p s s1 h
    unfold workerOuter at h
    cases h
  | succ fuel ih =>
    intro p s s1 h
    unfold workerOuter at h
    by_cases hg : (p * p) % UINT ≤ limit
    · rw [if_pos hg] at h
      cases hb : readFlag s p with
      | error e => rw [hb] at h; cases h
      | ok b =>
        rw [hb] at h
        simp only [bind, Except.bind] at h
        cases b with
        | false =>
          simp only [Bool.false_eq_true, if_false, pure, Except.pure] at h
          exact ih _ _ s1 h
        | true =>
          simp only [if_true] at h
          cases hin : workerInner stop p F (firstIndex start p) s with
          | error e => rw [hin] at h; cases h
          | ok s2 =>
            rw [hin] at h
            obtain ⟨h1, h2⟩ := workerInner_mono stop p _ _ s s2 hin
            obtain ⟨h3, h4⟩ := ih _ _ s1 h
            exact ⟨by rw [h3, h1], fun k hk => h4 k (h2 k hk)⟩
    · rw [if_neg hg] at h
      cases h
      exact ⟨rfl, fun _ hk => hk⟩

theorem workerOuter_fixed (F limit start stop : Nat) :
    ∀ (fuel p : Nat) (s s1 u : List Bool), workerOuter F limit start stop fuel p s = .ok s1 →
      u.length = s.length → (∀ k : Nat, s1[k]? = some false → u[k]? = some false) →
      workerOuter F limit start stop fuel p u = .ok u := by
  intro fuel
  induction fuel with
  | zero =>
    intro p s s1 u h
    unfold workerOuter at h
    cases h
  | succ fuel ih =>
    intro p s s1 u h hlen hu
    have hmono := workerOuter_mono F limit start stop (fuel + 1) p s s1 h
    unfold workerOuter at h ⊢
    by_cases hg : (p * p) % UINT ≤ limit
    · rw [if_pos hg] at h
      rw [if_pos hg]
      cases hb : readFlag s p with
      | error e => rw [hb] at h; cases h
      | ok b =>
        rw [hb] at h
        simp only [bind, Except.bind] at h
        have hsp := readFlag_ok s p b hb
        have hplt : p < u.length := by
          rw [hlen]
          by_contra hc
          rw [List.getElem?_eq_none (by omega)] at hsp
          cases hsp
        obtain ⟨c, hc, hcget⟩ := readFlag_of_lt u p hplt
        rw [hc]
        simp only [bind, Except.bind]
        cases c with
        | false =>
          simp only [Bool.false_eq_true, if_false, pure, Except.pure]
          cases b with
          | false =>
            simp only [Bool.false_eq_true, if_false, pure, Except.pure] at h
            exact ih _ _ s1 u h hlen hu
          | true =>
            simp only [if_true] at h
            cases hin : workerInner stop p F (firstIndex start p) s with
            | error e => rw [hin] at h; cases h
            | ok s2 =>
              rw [hin] at h
              have h1 := (workerInner_mono stop p _ _ s s2 hin).1
              exact ih _ _ s1 u h (by rw [hlen, h1]) hu
        | true =>
          simp only [if_true]
          cases b with
          | false =>
            exfalso
            have := hu p (hmono.2 p hsp)
            rw [hcget] at this
            cases this
          | true =>
            simp only [if_true] at h
            cases hin : workerInner stop p F (firstIndex start p) s with
            | error e => rw [hin] at h; cases h
            | ok s2 =>
              rw [hin] at h
              have h1 := (workerInner_mono stop p _ _ s s2 hin).1
              have h2 := (workerOuter_mono F limit start stop _ _ s2 s1 h).2
              rw [workerInner_fixed stop p _ _ s s2 u hin hlen (fun k hk => hu k (h2 k hk))]
              exact ih _ _ s1 u h (by rw [hlen, h1]) hu
    · rw [if_neg hg]

theorem runWorkers_mono (F limit T : Nat) :
    ∀ (ts : List Nat) (s s1 : List Bool), runWorkers F limit T ts s = .ok s1 →
      s1.length = s.length ∧ ∀ k : Nat, s[k]? = some false → s1[k]? = some false := by
  intro ts
  induction ts with
  | nil =>
    intro s s1 h
    unfold runWorkers at h
    cases h
    exact ⟨rfl, fun _ hk => hk⟩
  | cons t ts ih =>
    intro s s1 h
    unfold runWorkers worker at h
    cases hw : workerOuter F limit (startRange limit T t) (endRange limit T t) F 2 s with
    | error e => rw [hw] at h; cases h
    | ok s2 =>
      rw [hw] at h
      obtain ⟨h1, h2⟩ := workerOuter_mono F limit _ _ _ _ s s2 hw
      obtain ⟨h3, h4⟩ := ih s2 s1 h
      exact ⟨by rw [h3, h1], fun k hk => h4 k (h2 k hk)⟩

theorem runWorkers_fixed (F limit T : Nat) :
    ∀ (ts : List Nat) (s s1 u : List Bool), runWorkers F limit T ts s = .ok s1 →
      u.length = s.length → (∀ k : Nat, s1[k]? = some false → u[k]? = some false) →
      runWorkers F limit T ts u = .ok u := by
  intro ts
  induction ts with
  | nil =>
    intro s s1 u _ _ _
    rfl
  | cons t ts ih =>
    intro s s1 u h hlen hu
    unfold runWorkers worker at h ⊢
    cases hw : workerOuter F limit (startRange limit T t) (endRange limit T t) F 2 s with
    | error e => rw [hw] at h; cases h
    | ok s2 =>
      rw [hw] at h
      have h1 := (workerOuter_mono F limit _ _ _ _ s s2 hw).1
      have h2 := (runWorkers_mono F limit T ts s2 s1 h).2
      rw [workerOuter_fixed F limit _ _ _ _ s s2 u hw hlen (fun k hk => hu k (h2 k hk))]
      exact ih s2 s1 u h (by rw [hlen, h1]) hu

theorem workerInnerLog_fst (stop p : Nat) :
    ∀ (fuel i : Nat) (st : List Bool × List Access),
      (workerInnerLog stop p fuel i st).map Prod.fst = workerInner stop p fuel i st.1 := by
  intro fuel
  induction fuel with
  | zero => intro i st; rfl
  | succ fuel ih =>
    intro i st
    unfold workerInnerLog workerInner
    by_cases hi : i < stop
    · rw [if_pos hi, if_pos hi, ih]
    · rw [if_neg hi, if_neg hi]; rfl

theorem workerOuterLog_fst (F limit start stop : Nat) :
    ∀ (fuel p : Nat) (st : List Bool × List Access),
      (workerOuterLog F limit start stop fuel p st).map Prod.fst =
        workerOuter F limit start stop fuel p st.1 := by
  intro fuel
  induction fuel with
  | zero => intro p st; rfl
  | succ fuel ih =>
    intro p st
    unfold workerOuterLog workerOuter
    by_cases hg : (p * p) % UINT ≤ limit
    · rw [if_pos hg, if_pos hg]
      cases hb : readFlag st.1 p with
      | error e => rfl
      | ok b =>
        simp only [bind, Except.bind]
        cases b with
        | false =>
          simp only [Bool.false_eq_true, if_false, pure, Except.pure]
          rw [ih]
        | true =>
          simp only [if_true]
          have hin := workerInnerLog_fst stop p F (firstIndex start p) (st.1, st.2 ++ [.read p])
          cases hl : workerInnerLog stop p F (firstIndex start p) (st.1, st.2 ++ [.read p]) with
          | error e =>
            rw [hl] at hin
            simp only [Except.map] at hin
            rw [← hin]
            rfl
          | ok st1 =>
            rw [hl] at hin
            simp only [Except.map] at hin
            rw [← hin]
            simp only []
            rw [ih]
    · rw [if_neg hg, if_neg hg]; rfl

theorem workerLog_fst (F limit start stop : Nat) (s : List Bool) :
    (workerLog F limit start stop s).map Prod.fst = worker F limit start stop s :=
  workerOuterLog_fst F limit start stop F 2 (s, [])

theorem firstIndex_multiple (start p : Nat) (hp2 : p ≤ 65535) :
    p ∣ firstIndex start p ∧ p * p ≤ firstIndex start p := by
  unfold firstIndex
  have h1 : p * p < UINT := by
    have : p * p ≤ 65535 * 65535 := Nat.mul_le_mul hp2 hp2
    simp only [UINT]; omega
  have h2 : (start + p - 1) % UINT / p * p ≤ (start + p - 1) % UINT := Nat.div_mul_le_self _ _
  have h3 : (start + p - 1) % UINT < UINT := Nat.mod_lt _ (by simp only [UINT]; omega)
  rw [Nat.mod_eq_of_lt h1, Nat.mod_eq_of_lt (lt_of_le_of_lt h2 h3)]
  refine ⟨?_, le_max_left _ _⟩
  rcases Nat.le_total (p * p) ((start + p - 1) % UINT / p * p) with h | h
  · rw [max_eq_right h]; exact Dvd.intro_left _ rfl
  · rw [max_eq_left h]; exact Dvd.intro _ rfl

theorem workerInnerLog_spec (stop p : Nat) (hw : stop + p ≤ UINT) :
    ∀ (fuel i : Nat) (st st1 : List Bool × List Access), p ∣ i →
      workerInnerLog stop p fuel i st = .ok st1 →
      (∀ a, a ∈ st1.2 ↔ (a ∈ st.2 ∨ ∃ k, a = .write k ∧ i ≤ k ∧ k < stop ∧ p ∣ k)) ∧
        ∀ k : Nat, st1.1[k]? = st.1[k]? ∨ (i ≤ k ∧ k < stop ∧ p ∣ k) := by
  intro fuel
  induction fuel with
  | zero =>
    intro i st st1 _ h
    unfold workerInnerLog at h
    cases h
  | succ fuel ih =>
    intro i st st1 hdvd h
    unfold workerInnerLog at h
    by_cases hi : i < stop
    · rw [if_pos hi, Nat.mod_eq_of_lt (by omega)] at h
      obtain ⟨h1, h2⟩ := ih (i + p) _ st1 (Dvd.dvd.add hdvd (dvd_refl p)) h
      have hstep : ∀ k, (i ≤ k ∧ k < stop ∧ p ∣ k) ↔ (k = i ∨ (i + p ≤ k ∧ k < stop ∧ p ∣ k)) := by
        intro k
        constructor
        · rintro ⟨k1, k2, k3⟩
          by_cases hk : k = i
          · exact Or.inl hk
          · have hd : p ∣ k - i := Nat.dvd_sub' k3 hdvd
            have := Nat.le_of_dvd (by omega) hd
            exact Or.inr ⟨by omega, k2, k3⟩
        · rintro (hk | ⟨k1, k2, k3⟩)
          · subst hk; exact ⟨le_refl _, hi, hdvd⟩
          · exact ⟨by omega, k2, k3⟩
      constructor
      · intro a
        rw [h1 a]
        simp only [List.mem_append, List.mem_singleton]
        constructor
        · rintro ((h3 | h3) | ⟨k, h3, h4⟩)
          · exact Or.inl h3
          · exact Or.inr ⟨i, h3, le_refl _, hi, hdvd⟩
          · exact Or.inr ⟨k, h3, (hstep k).2 (Or.inr h4)⟩
        · rintro (h3 | ⟨k, h3, h4⟩)
          · exact Or.inl (Or.inl h3)
          · rcases (hstep k).1 h4 with h5 | h5
            · subst h5; exact Or.inl (Or.inr h3)
            · exact Or.inr ⟨k, h3, h5⟩
      · intro k
        rcases h2 k with h3 | h3
        · by_cases hk : i = k
          · subst hk; exact Or.inr ⟨le_refl _, hi, hdvd⟩
          · left
            rw [h3]
            exact List.getElem?_set_ne hk
        · exact Or.inr ((hstep k).2 (Or.inr h3))
    · rw [if_neg hi] at h
      cases h
      constructor
      · intro a
        constructor
        · exact fun h3 => Or.inl h3
        · rintro (h3 | ⟨k, _, h4, h5, _⟩)
          · exact h3
          · omega
      · exact fun k => Or.inl rfl

theorem workerOuterLog_spec (F limit start stop L : Nat) (hlim : limit < 4294836225)
    (hstop : stop + 65535 ≤ UINT)
    (hL : ∀ q, 2 ≤ q → q ≤ 65535 → L ≤ firstIndex start q) :
    ∀ (fuel p : Nat) (st st1 : List Bool × List Access), 2 ≤ p → p ≤ 65535 →
      workerOuterLog F limit start stop fuel p st = .ok st1 →
      (∀ a, a ∈ st.2 → a ∈ st1.2) ∧
      (∀ a, a ∈ st1.2 → a ∈ st.2 ∨ (∃ q, a = .read q ∧ p ≤ q ∧ q * q ≤ limit) ∨
        ∃ q k, a = .write k ∧ p ≤ q ∧ q * q ≤ limit ∧ q ∣ k ∧ q * q ≤ k ∧ L ≤ k ∧ k < stop) ∧
      ∀ k : Nat, st1.1[k]? = st.1[k]? ∨ Access.write k ∈ st1.2 := by
  intro fuel
  induction fuel with
  | zero =>
    intro p st st1 _ _ h
    unfold workerOuterLog at h
    cases h
  | succ fuel ih =>
    intro p st st1 hp2 hp65 h
    have hpp : p * p < UINT := by
      have : p * p ≤ 65535 * 65535 := Nat.mul_le_mul hp65 hp65
      simp only [UINT]; omega
    unfold workerOuterLog at h
    rw [Nat.mod_eq_of_lt hpp] at h
    by_cases hg : p * p ≤ limit
    · have hp1 : (p + 1) % UINT = p + 1 := Nat.mod_eq_of_lt (by simp only [UINT]; omega)
      have hp3 : p + 1 ≤ 65535 := by
        by_contra hc
        have h1 : 65535 ≤ p := by omega
        have : 65535 * 65535 ≤ p * p := Nat.mul_le_mul h1 h1
        omega
      rw [if_pos hg, hp1] at h
      cases hb : readFlag st.1 p with
      | error e => rw [hb] at h; cases h
      | ok b =>
        rw [hb] at h
        simp only [bind, Except.bind] at h
        cases b with
        | false =>
          simp only [Bool.false_eq_true, if_false, pure, Except.pure] at h
          obtain ⟨m1, m2, m3⟩ := ih (p + 1) _ st1 (by omega) hp3 h
          refine ⟨fun a ha => m1 a (List.mem_append_left _ ha), ?_, ?_⟩
          · intro a ha
            rcases m2 a ha with h1 | ⟨q, h1, h2, h3⟩ | ⟨q, k, h1, h2, h3⟩
            · simp only [List.mem_append, List.mem_singleton] at h1
              rcases h1 with h1 | h1
              · exact Or.inl h1
              · exact Or.inr (Or.inl ⟨p, h1, le_refl _, hg⟩)
            · exact Or.inr (Or.inl ⟨q, h1, by omega, h3⟩)
            · exact Or.inr (Or.inr ⟨q, k, h1, by omega, h3⟩)
          · exact m3
        | true =>
          simp only [if_true] at h
          cases hin : workerInnerLog stop p F (firstIndex start p) (st.1, st.2 ++ [.read p]) with
          | error e => rw [hin] at h; cases h
          | ok st2 =>
            rw [hin] at h
            have hfm := firstIndex_multiple start p hp65
            obtain ⟨i1, i2⟩ := workerInnerLog_spec stop p (by omega) F (firstIndex start p)
              _ st2 hfm.1 hin
            obtain ⟨m1, m2, m3⟩ := ih (p + 1) st2 st1 (by omega) hp3 h
            refine ⟨fun a ha => m1 a ((i1 a).2 (Or.inl (List.mem_append_left _ ha))), ?_, ?_⟩
            · intro a ha
              rcases m2 a ha with h1 | ⟨q, h1, h2, h3⟩ | ⟨q, k, h1, h2, h3⟩
              · rcases (i1 a).1 h1 with h4 | ⟨k, h4, h5, h6, h7⟩
                · simp only [List.mem_append, List.mem_singleton] at h4
                  rcases h4 with h4 | h4
                  · exact Or.inl h4
                  · exact Or.inr (Or.inl ⟨p, h4, le_refl _, hg⟩)
                · exact Or.inr (Or.inr ⟨p, k, h4, le_refl _, hg, h7, le_trans hfm.2 h5,
                    le_trans (hL p hp2 hp65) h5, h6⟩)
              · exact Or.inr (Or.inl ⟨q, h1, by omega, h3⟩)
              · exact Or.inr (Or.inr ⟨q, k, h1, by omega, h3⟩)
            · intro k
              rcases m3 k with h1 | h1
              · rcases i2 k with h2 | h2
                · exact Or.inl (by rw [h1, h2])
                · exact Or.inr (m1 _ ((i1 _).2 (Or.inr ⟨k, rfl, h2⟩)))
              · exact Or.inr h1
    · rw [if_neg hg] at h
      cases h
      exact ⟨fun _ ha => ha, fun _ ha => Or.inl ha, fun _ => Or.inl rfl⟩

theorem workerLog_of_worker (F limit start stop : Nat) (s s1 : List Bool)
    (h : worker F limit start stop s = .ok s1) :
    ∃ log, workerLog F limit start stop s = .ok (s1, log) := by
  have hf := workerLog_fst F limit start stop s
  rw [h] at hf
  cases hl : workerLog F limit start stop s with
  | error e =>
    rw [hl] at hf
    cases hf
  | ok st =>
    rw [hl] at hf
    simp only [Except.map] at hf
    cases hf
    exact ⟨st.2, rfl⟩

theorem worker_of_workerLog (F limit start stop : Nat) (s : List Bool)
    (st : List Bool × List Access) (h : workerLog F limit start stop s = .ok st) :
    worker F limit start stop s = .ok st.1 := by
  have hf := workerLog_fst F limit start stop s
  rw [h] at hf
  exact hf.symm

theorem workerOuter_returns (F limit start stop : Nat) (hlim : limit < 4294836225)
    (hstop : stop ≤ limit + 1) (hF : limit + 2 ≤ F) :
    ∀ (fuel p : Nat) (s : List Bool), 2 ≤ p → p ≤ 65535 → p ≤ limit + 2 →
      limit + 3 ≤ fuel + p → s.length = limit + 1 →
      ∃ s1, workerOuter F limit start stop fuel p s = .ok s1 := by
  intro fuel
  induction fuel with
  | zero => intro p s _ _ h1 h2; omega
  | succ fuel ih =>
    intro p s hp2 hp65 hpl hfuel hlen
    have hpp : p * p < UINT := by
      have : p * p ≤ 65535 * 65535 := Nat.mul_le_mul hp65 hp65
      simp only [UINT]; omega
    unfold workerOuter
    rw [Nat.mod_eq_of_lt hpp]
    by_cases hg : p * p ≤ limit
    · have hple : p ≤ limit := le_trans (Nat.le_mul_self p) hg
      have hp1 : (p + 1) % UINT = p + 1 := Nat.mod_eq_of_lt (by simp only [UINT]; omega)
      have hp3 : p + 1 ≤ 65535 := by
        by_contra hc
        have h1 : 65535 ≤ p := by omega
        have : 65535 * 65535 ≤ p * p := Nat.mul_le_mul h1 h1
        omega
      obtain ⟨b, hb, _⟩ := readFlag_of_lt s p (by omega)
      rw [if_pos hg, hb, hp1]
      simp only [bind, Except.bind]
      cases b with
      | false =>
        simp only [Bool.false_eq_true, if_false, pure, Except.pure]
        exact ih (p + 1) s (by omega) hp3 (by omega) (by omega) hlen
      | true =>
        simp only [if_true]
        have hfm := firstIndex_multiple start p hp65
        have hfuelI : stop + p ≤ firstIndex start p + p * F := by
          have : p * (limit + 2) ≤ p * F := Nat.mul_le_mul_left p hF
          have h1 : p * (limit + 2) = p * (limit + 1) + p := by ring
          have h2 : 1 * (limit + 1) ≤ p * (limit + 1) := Nat.mul_le_mul_right _ (by omega)
          omega
        obtain ⟨s2, hrun, hlen2, _⟩ :=
          workerInner_spec stop p (by omega) (by simp only [UINT]; omega) F
            (firstIndex start p) s hfm.1 (by omega) hfuelI
        rw [hrun]
        exact ih (p + 1) s2 (by omega) hp3 (by omega) (by omega) (by rw [hlen2, hlen])
    · rw [if_neg hg]
      exact ⟨s, rfl⟩

theorem workerLog_returns (F limit start stop : Nat) (s : List Bool)
    (hlim : limit < 4294836225) (hstop : stop ≤ limit + 1) (hF : limit + 2 ≤ F)
    (hlen : s.length = limit + 1) :
    ∃ s1 log, workerLog F limit start stop s = .ok (s1, log) := by
  obtain ⟨s1, h1⟩ := workerOuter_returns F limit start stop hlim hstop hF F 2 s (le_refl 2)
    (by omega) (by omega) (by omega) hlen
  obtain ⟨log, h2⟩ := workerLog_of_worker F limit start stop s s1 h1
  exact ⟨s1, log, h2⟩

theorem workerLog_writes (F limit start stop L : Nat) (s s1 : List Bool) (log : List Access)
    (hlim : limit < 4294836225) (hstop : stop ≤ limit + 1)
    (hL : ∀ q, 2 ≤ q → q ≤ 65535 → L ≤ firstIndex start q)
    (h : workerLog F limit start stop s = .ok (s1, log)) :
    (∀ a, a ∈ log → (∃ q, a = .read q ∧ 2 ≤ q ∧ q * q ≤ limit) ∨
      ∃ q k, a = .write k ∧ 2 ≤ q ∧ q * q ≤ limit ∧ q ∣ k ∧ q * q ≤ k ∧ L ≤ k ∧ k < stop) ∧
    ∀ k : Nat, s1[k]? = s[k]? ∨ Access.write k ∈ log := by
  obtain ⟨_, m2, m3⟩ := workerOuterLog_spec F limit start stop L hlim
    (by simp only [UINT]; omega) hL F 2 (s, []) (s1, log) (le_refl 2) (by omega) h
  refine ⟨?_, m3⟩
  intro a ha
  rcases m2 a ha with h1 | h1 | h1
  · cases h1
  · exact Or.inl h1
  · exact Or.inr h1

theorem start_le_firstIndex (start : Nat) (hstart : start + 65535 ≤ UINT) :
    ∀ q, 2 ≤ q → q ≤ 65535 → start ≤ firstIndex start q := by
  intro q hq2 hq65
  rw [firstIndex_eq start q (by omega) hq65 hstart]
  exact le_trans (roundUp_ge start q (by omega)) (le_max_right _ _)

theorem ranges_ordered (limit T t u : Nat) (hU : limit + 1 < UINT) (hw : limit + T ≤ UINT)
    (htu : t < u) (hu : u < T) : endRange limit T t ≤ startRange limit T u := by
  rw [endRange_eq limit T t hU hw (by omega), startRange_eq limit T u hw hu]
  exact le_trans (min_le_left _ _) (Nat.mul_le_mul_right _ htu)

theorem workerInnerLog_of_workerInner (stop p fuel i : Nat) (st : List Bool × List Access)
    (s1 : List Bool) (h : workerInner stop p fuel i st.1 = .ok s1) :
    ∃ log, workerInnerLog stop p fuel i st = .ok (s1, log) := by
  have hf := workerInnerLog_fst stop p fuel i st
  rw [h] at hf
  cases hl : workerInnerLog stop p fuel i st with
  | error e =>
    rw [hl] at hf
    cases hf
  | ok st1 =>
    rw [hl] at hf
    simp only [Except.map] at hf
    cases hf
    exact ⟨st1.2, rfl⟩

/-! ## The counter and the length of the list -/

theorem pushPrime_count (acc : List Nat × Nat) (v : Nat)
    (h : acc.2 = acc.1.length % UINT) :
    (pushPrime acc v).2 = (pushPrime acc v).1.length % UINT := by
  simp only [pushPrime, List.length_append, List.length_singleton]
  rw [h, Nat.mod_add_mod]

theorem pushPrime_if_count (acc : List Nat × Nat) (v : Nat) (b : Bool)
    (h : acc.2 = acc.1.length % UINT) :
    (if b = true then pushPrime acc v else acc).2 =
      (if b = true then pushPrime acc v else acc).1.length % UINT := by
  cases b with
  | false => exact h
  | true => exact pushPrime_count acc v h

theorem pushPrime_if_length (acc : List Nat × Nat) (v : Nat) (b : Bool) :
    (if b = true then pushPrime acc v else acc).1.length ≤ acc.1.length + 1 := by
  cases b with
  | false => exact Nat.le_succ _
  | true => simp [pushPrime]

theorem extractLoop_count (limit : Nat) (s : List Bool) :
    ∀ (fuel p : Nat) (acc r : List Nat × Nat), extractLoop limit s fuel p acc = .ok r →
      acc.2 = acc.1.length % UINT →
      r.2 = r.1.length % UINT ∧ r.1.length ≤ acc.1.length + (limit + 1 - p) := by
  intro fuel
  induction fuel with
  | zero =>
    intro p acc r h
    unfold extractLoop at h
    cases h
  | succ fuel ih =>
    intro p acc r h hacc
    unfold extractLoop at h
    by_cases hpl : p ≤ limit
    · rw [if_pos hpl] at h
      cases hb : readFlag s p with
      | error e => rw [hb] at h; cases h
      | ok b =>
        rw [hb] at h
        simp only [bind, Except.bind] at h
        by_cases hw : p + 1 < UINT
        · rw [Nat.mod_eq_of_lt hw] at h
          obtain ⟨h1, h2⟩ := ih (p + 1) _ r h (pushPrime_if_count acc p b hacc)
          have := pushPrime_if_length acc p b
          exact ⟨h1, by omega⟩
        · exact absurd h (extractLoop_never_returns limit s (by omega) fuel _ _ r
            (Nat.mod_lt _ (by simp only [UINT]; omega)))
    · rw [if_neg hpl] at h
      cases h
      exact ⟨hacc, by omega⟩

theorem extract_count_eq (limit : Nat) (s : List Bool) (fuel : Nat) (r : List Nat × Nat)
    (h : extractLoop limit s fuel 2 ([], 0) = .ok r) : r.2 = r.1.length := by
  obtain ⟨h1, h2⟩ := extractLoop_count limit s fuel 2 ([], 0) r h rfl
  have hU : limit + 1 < UINT := by
    by_contra hc
    exact extractLoop_never_returns limit s (by omega) fuel 2 ([], 0) r
      (by simp only [UINT]; omega) h
  rw [h1]
  apply Nat.mod_eq_of_lt
  simp only [List.length_nil] at h2
  omega

theorem sieveOfEratosthenes_count (F : Nat) (c r : PrimeCalculator)
    (h : sieveOfEratosthenes F c = .ok r) : r.primeCount = r.primes.length := by
  unfold sieveOfEratosthenes at h
  cases hs : seqSieve F c.limit with
  | error e => rw [hs] at h; cases h
  | ok s =>
    rw [hs] at h
    cases he : extractLoop c.limit s F 2 ([], 0) with
    | error e =>
      simp only [bind, Except.bind, he] at h
      cases h
    | ok acc =>
      simp only [bind, Except.bind, he, pure, Except.pure] at h
      cases h
      exact extract_count_eq c.limit s F acc he

theorem multithreaded_count (F : Nat) (c r : PrimeCalculator)
    (h : multithreadedSieveOfEratosthenes F c = .ok r) : r.primeCount = r.primes.length := by
  unfold multithreadedSieveOfEratosthenes at h
  cases hs : parSieve F c.limit c.numThreads with
  | error e => rw [hs] at h; cases h
  | ok s =>
    rw [hs] at h
    cases he : extractLoop c.limit s F 2 ([], 0) with
    | error e =>
      simp only [bind, Except.bind, he] at h
      cases h
    | ok acc =>
      simp only [bind, Except.bind, he, pure, Except.pure] at h
      cases h
      exact extract_count_eq c.limit s F acc he

theorem classicLoop_count (F limit : Nat) :
    ∀ (fuel n : Nat) (acc r : List Nat × Nat), n < UINT →
      classicLoop F limit fuel n acc = .ok r → acc.2 = acc.1.length % UINT →
      r.2 = r.1.length % UINT ∧
        ∃ j, limit < (n + 6 * j) % UINT ∧ (∀ i, i < j → (n + 6 * i) % UINT ≤ limit) ∧
          r.1.length ≤ acc.1.length + 2 * j ∧
          ((∃ i, i < j ∧ (n + 6 * i) % UINT = 1) → r.1.length + 1 ≤ acc.1.length + 2 * j) := by
  intro fuel
  induction fuel with
  | zero =>
    intro n acc r _ h
    unfold classicLoop at h
    cases h
  | succ fuel ih =>
    intro n acc r hn h hacc
    unfold classicLoop at h
    by_cases hnl : n ≤ limit
    · rw [if_pos hnl] at h
      cases hb1 : isPrime F n with
      | error e => rw [hb1] at h; cases h
      | ok b1 =>
        rw [hb1] at h
        simp only [bind, Except.bind] at h
        have hsave : n = 1 → b1 = false := by
          intro h1
          subst h1
          have : isPrime F 1 = .ok false := rfl
          rw [this] at hb1
          cases hb1
          rfl
        have key : ∀ b2 : Bool,
            classicLoop F limit fuel ((n + 6) % UINT)
              (if b2 = true then pushPrime (if b1 = true then pushPrime acc n else acc)
                ((n + 2) % UINT) else (if b1 = true then pushPrime acc n else acc)) = .ok r →
            r.2 = r.1.length % UINT ∧
              ∃ j, limit < (n + 6 * j) % UINT ∧ (∀ i, i < j → (n + 6 * i) % UINT ≤ limit) ∧
                r.1.length ≤ acc.1.length + 2 * j ∧
                ((∃ i, i < j ∧ (n + 6 * i) % UINT = 1) →
                  r.1.length + 1 ≤ acc.1.length + 2 * j) := by
          intro b2 hrun
          have hnext : (n + 6) % UINT < UINT := Nat.mod_lt _ (by simp only [UINT]; omega)
          have hc1 := pushPrime_if_count acc n b1 hacc
          have hc2 := pushPrime_if_count _ ((n + 2) % UINT) b2 hc1
          have hl1 := pushPrime_if_length acc n b1
          have hl2 := pushPrime_if_length (if b1 = true then pushPrime acc n else acc)
            ((n + 2) % UINT) b2
          obtain ⟨c1, j, j1, j2, j3, j4⟩ := ih _ _ r hnext hrun hc2
          refine ⟨c1, j + 1, ?_, ?_, by omega, ?_⟩
          · simp only [UINT] at j1 ⊢; omega
          · intro i hi
            rcases i with _ | i
            · simp only [UINT] at hn ⊢; omega
            · have := j2 i (by omega)
              simp only [UINT] at this ⊢; omega
          · rintro ⟨i, hi, hi1⟩
            rcases i with _ | i
            · have hn1 : n = 1 := by simp only [UINT] at hn hi1; omega
              have hb := hsave hn1
              subst hb
              simp only [Bool.false_eq_true, if_false] at hl2 j3
              omega
            · have := j4 ⟨i, by omega, by simp only [UINT] at hi1 ⊢; omega⟩
              omega
        by_cases h2l : (n + 2) % UINT ≤ limit
        · rw [if_pos h2l] at h
          cases hb2 : isPrime F ((n + 2) % UINT) with
          | error e => rw [hb2] at h; cases h
          | ok b2 =>
            rw [hb2] at h
            exact key b2 h
        · rw [if_neg h2l] at h
          simp only [pure, Except.pure] at h
          exact key false h
    · rw [if_neg hnl] at h
      cases h
      refine ⟨hacc, 0, ?_, ?_, by omega, ?_⟩
      · simp only [UINT] at hn ⊢; omega
      · intro i hi; omega
      · rintro ⟨i, hi, _⟩; omega

theorem classicPrimalityTest_count (F : Nat) (c r : PrimeCalculator)
    (h : classicPrimalityTest F c = .ok r) : r.primeCount = r.primes.length := by
  unfold classicPrimalityTest at h
  dsimp only at h
  have hinit : ∀ a0 : List Nat × Nat, a0 = (if c.limit ≥ 3 then
      pushPrime (if c.limit ≥ 2 then pushPrime ([], 0) 2 else ([], 0)) 3
      else (if c.limit ≥ 2 then pushPrime ([], 0) 2 else ([], 0))) →
      a0.2 = a0.1.length % UINT ∧ a0.1.length ≤ 2 := by
    intro a0 ha
    subst ha
    by_cases h3 : c.limit ≥ 3
    · rw [if_pos h3, if_pos (by omega : c.limit ≥ 2)]
      exact ⟨rfl, by simp [pushPrime]⟩
    · rw [if_neg h3]
      by_cases h2 : c.limit ≥ 2
      · rw [if_pos h2]
        exact ⟨rfl, by simp [pushPrime]⟩
      · rw [if_neg h2]
        exact ⟨rfl, by simp⟩
  cases hl : classicLoop F c.limit F 5
      (if c.limit ≥ 3 then pushPrime (if c.limit ≥ 2 then pushPrime ([], 0) 2 else ([], 0)) 3
        else (if c.limit ≥ 2 then pushPrime ([], 0) 2 else ([], 0))) with
  | error e =>
    simp only [bind, Except.bind, hl] at h
    cases h
  | ok acc =>
    simp only [bind, Except.bind, hl, pure, Except.pure] at h
    cases h
    obtain ⟨i1, i2⟩ := hinit _ rfl
    obtain ⟨c1, j, j1, j2, j3, j4⟩ := classicLoop_count F c.limit F 5 _ acc
      (by simp only [UINT]; omega) hl i1
    show acc.2 = acc.1.length
    rw [c1]
    apply Nat.mod_eq_of_lt
    have hj : j < 2147483648 := by
      by_contra hc
      have := j2 (j - 2147483648) (by omega)
      simp only [UINT] at this j1
      omega
    by_cases hj2 : j < 2147483647
    · simp only [UINT]; omega
    · have := j4 ⟨715827882, by omega, by decide⟩
      simp only [UINT]; omega

/-! ## The bound `2^32 - 1` -/

theorem workerOuter_never_returns (F limit start stop : Nat) (hU : UINT ≤ limit + 1) :
    ∀ (fuel p : Nat) (s r : List Bool), workerOuter F limit start stop fuel p s ≠ .ok r := by
  intro fuel
  induction fuel with
  | zero =>
    intro p s r h
    unfold workerOuter at h
    cases h
  | succ fuel ih =>
    intro p s r h
    unfold workerOuter at h
    have hg : (p * p) % UINT ≤ limit := by
      have := Nat.mod_lt (p * p) (by simp only [UINT]; omega : 0 < UINT)
      omega
    rw [if_pos hg] at h
    cases hb : readFlag s p with
    | error e => rw [hb] at h; cases h
    | ok b =>
      rw [hb] at h
      simp only [bind, Except.bind] at h
      cases b with
      | false =>
        simp only [Bool.false_eq_true, if_false, pure, Except.pure] at h
        exact ih _ _ r h
      | true =>
        simp only [if_true] at h
        cases hin : workerInner stop p F (firstIndex start p) s with
        | error e => rw [hin] at h; cases h
        | ok s2 =>
          rw [hin] at h
          exact ih _ _ r h

theorem multithreaded_never_returns (F : Nat) (c : PrimeCalculator) (hU : UINT ≤ c.limit + 1)
    (hT : 1 ≤ c.numThreads) : ∀ r, multithreadedSieveOfEratosthenes F c ≠ .ok r := by
  intro r h
  unfold multithreadedSieveOfEratosthenes parSieve at h
  obtain ⟨U, hU2⟩ : ∃ U, c.numThreads = U + 1 := ⟨c.numThreads - 1, by omega⟩
  rw [hU2, List.range_succ_eq_map] at h
  unfold runWorkers worker at h
  cases hw : workerOuter F c.limit (startRange c.limit (U + 1) 0) (endRange c.limit (U + 1) 0)
      F 2 (initSieve c.limit) with
  | error e =>
    rw [hw] at h
    cases h
  | ok s => exact workerOuter_never_returns F c.limit _ _ hU F 2 _ s hw

theorem initSieve_eq_foldl (limit : Nat) :
    initSieve limit =
      initAccesses.foldl applyAccess (List.replicate ((limit + 1) % UINT) true) := rfl

theorem workerLog_in_bounds (F limit start stop : Nat) (s s1 : List Bool) (log : List Access)
    (hlim : limit < 4294836225) (hstop : stop ≤ limit + 1)
    (h : workerLog F limit start stop s = .ok (s1, log)) :
    ∀ a, a ∈ log → ∃ k, (a = .read k ∨ a = .write k) ∧ k < limit + 1 := by
  intro a ha
  rcases (workerLog_writes F limit start stop 0 s s1 log hlim hstop
    (fun _ _ _ => Nat.zero_le _) h).1 a ha with ⟨q, h1, _, h3⟩ | ⟨q, k, h1, _, _, _, _, _, h7⟩
  · exact ⟨q, Or.inl h1, by have := Nat.le_mul_self q; omega⟩
  · exact ⟨k, Or.inr h1, by omega⟩

/-! ## Thread counts beyond 65536 -/

theorem worker_any_start (F limit start stop : Nat) (s : List Bool)
    (hlim : limit < 4294836225) (hstop : stop ≤ limit + 1) (hF : limit + 2 ≤ F)
    (hlen : s.length = limit + 1) :
    ∃ s1, worker F limit start stop s = .ok s1 ∧ s1.length = limit + 1 ∧
      (∀ k : Nat, s[k]? = some false → s1[k]? = some false) ∧
      ∀ k : Nat, s1[k]? = some false → s[k]? = some false ∨ (2 ≤ k ∧ ¬ Nat.Prime k) := by
  obtain ⟨s1, log, hlog⟩ := workerLog_returns F limit start stop s hlim hstop hF hlen
  have hw := worker_of_workerLog F limit start stop s (s1, log) hlog
  obtain ⟨m1, m2⟩ := workerOuter_mono F limit start stop F 2 s s1 hw
  obtain ⟨w1, w2⟩ := workerLog_writes F limit start stop 0 s s1 log hlim hstop
    (fun _ _ _ => Nat.zero_le _) hlog
  refine ⟨s1, hw, by rw [m1, hlen], m2, ?_⟩
  intro k hk
  rcases w2 k with h | h
  · rw [h] at hk; exact Or.inl hk
  · rcases w1 _ h with ⟨q, h1, _⟩ | ⟨q, j, h1, h2, _, h4, h5, _, _⟩
    · cases h1
    · cases h1
      exact Or.inr (composite_of_mul q k h2 h4 h5)

theorem runWorkers_any_count (F limit T : Nat) (hlim : limit < 4294836225)
    (hw : limit + T ≤ UINT) (hF : limit + 2 ≤ F) :
    ∀ (ts : List Nat) (s0 : List Bool), (∀ t, t ∈ ts → t < T) → s0.length = limit + 1 →
      (∀ k : Nat, s0[k]? = some false → ¬ Nat.Prime k) →
      ∃ s1, runWorkers F limit T ts s0 = .ok s1 ∧ s1.length = limit + 1 ∧
        (∀ k : Nat, s0[k]? = some false → s1[k]? = some false) ∧
        (∀ k : Nat, s1[k]? = some false → s0[k]? = some false ∨
          (2 ≤ k ∧ ¬ Nat.Prime k ∧
            ((∃ t, t ∈ ts ∧ startRange limit T t ≤ k ∧ k < endRange limit T t) ∨
              ∃ t, t ∈ ts ∧ UINT < startRange limit T t + 65535))) ∧
        ∀ t, t ∈ ts → startRange limit T t + 65535 ≤ UINT →
          ∀ k : Nat, startRange limit T t ≤ k → k < endRange limit T t → 2 ≤ k →
            ¬ Nat.Prime k → s1[k]? = some false := by
  have hU : limit + 1 < UINT := by simp only [UINT]; omega
  intro ts
  induction ts with
  | nil =>
    intro s0 _ hlen _
    refine ⟨s0, rfl, hlen, fun _ h => h, fun _ h => Or.inl h, ?_⟩
    intro t ht
    cases ht
  | cons t ts ih =>
    intro s0 hts hlen hsound
    have ht : t < T := hts t (List.mem_cons_self t ts)
    have hstop : endRange limit T t ≤ limit + 1 := by
      rw [endRange_eq limit T t hU hw ht]
      exact min_le_right _ _
    have hstep : ∃ s1, worker F limit (startRange limit T t) (endRange limit T t) s0 = .ok s1 ∧
        s1.length = limit + 1 ∧ (∀ k : Nat, s0[k]? = some false → s1[k]? = some false) ∧
        (∀ k : Nat, s1[k]? = some false → s0[k]? = some false ∨
          (2 ≤ k ∧ ¬ Nat.Prime k ∧
            ((startRange limit T t ≤ k ∧ k < endRange limit T t) ∨
              UINT < startRange limit T t + 65535))) ∧
        (startRange limit T t + 65535 ≤ UINT →
          ∀ k : Nat, startRange limit T t ≤ k → k < endRange limit T t → 2 ≤ k →
            ¬ Nat.Prime k → s1[k]? = some false) := by
      by_cases hgood : startRange limit T t + 65535 ≤ UINT
      · obtain ⟨s1, hrun1, hlen1, hget1⟩ :=
          workerOuter_spec F limit (startRange limit T t) (endRange limit T t) hlim hstop hgood
            hF s0 hsound F 2 s0 (le_refl 2) (by omega) (by omega) (by omega) hlen
            (fun _ h => h) (fun _ h => Or.inl h)
            (by
              intro k q _ _ hq hq2
              have := hq.two_le
              omega)
        refine ⟨s1, hrun1, hlen1, fun k hk => (hget1 k).2 (Or.inl hk), ?_, ?_⟩
        · intro k hk
          rcases (hget1 k).1 hk with h | ⟨h1, h2, h3, h4⟩
          · exact Or.inl h
          · exact Or.inr ⟨h3, h4, Or.inl ⟨h1, h2⟩⟩
        · intro _ k h1 h2 h3 h4
          exact (hget1 k).2 (Or.inr ⟨h1, h2, h3, h4⟩)
      · obtain ⟨s1, hrun1, hlen1, hm, hu⟩ :=
          worker_any_start F limit (startRange limit T t) (endRange limit T t) s0 hlim hstop
            hF hlen
        refine ⟨s1, hrun1, hlen1, hm, ?_, fun h => absurd h hgood⟩
        intro k hk
        rcases hu k hk with h | ⟨h1, h2⟩
        · exact Or.inl h
        · exact Or.inr ⟨h1, h2, Or.inr (by omega)⟩
    obtain ⟨s1, hrun1, hlen1, hm1, hu1, hl1⟩ := hstep
    have hsound1 : ∀ k : Nat, s1[k]? = some false → ¬ Nat.Prime k := by
      intro k hk
      rcases hu1 k hk with h | ⟨_, h, _⟩
      · exact hsound k h
      · exact h
    obtain ⟨s2, hrun2, hlen2, hm2, hu2, hl2⟩ :=
      ih s1 (fun u hu => hts u (List.mem_cons_of_mem t hu)) hlen1 hsound1
    refine ⟨s2, ?_, hlen2, fun k hk => hm2 k (hm1 k hk), ?_, ?_⟩
    · unfold runWorkers
      rw [hrun1]
      exact hrun2
    · intro k hk
      rcases hu2 k hk with h | ⟨h1, h2, h3⟩
      · rcases hu1 k h with h4 | ⟨h4, h5, h6⟩
        · exact Or.inl h4
        · refine Or.inr ⟨h4, h5, ?_⟩
          rcases h6 with h6 | h6
          · exact Or.inl ⟨t, List.mem_cons_self t ts, h6⟩
          · exact Or.inr ⟨t, List.mem_cons_self t ts, h6⟩
      · refine Or.inr ⟨h1, h2, ?_⟩
        rcases h3 with ⟨u, hu, h3⟩ | ⟨u, hu, h3⟩
        · exact Or.inl ⟨u, List.mem_cons_of_mem t hu, h3⟩
        · exact Or.inr ⟨u, List.mem_cons_of_mem t hu, h3⟩
    · intro u hu hgood k h1 h2 h3 h4
      rcases List.mem_cons.1 hu with h | h
      · subst h
        exact hm2 k (hl1 hgood k h1 h2 h3 h4)
      · exact hl2 u h hgood k h1 h2 h3 h4

theorem chunk_mul_of_dvd (N T : Nat) (hT : 0 < T) (hw : N + T ≤ UINT) (hd : T ∣ N) :
    T * chunkSize N T = N := by
  obtain ⟨m, rfl⟩ := hd
  rw [chunkSize_eq (T * m) T hw]
  have h1 : T * m + T - 1 = T * m + (T - 1) := by omega
  rw [h1, Nat.mul_add_div hT, Nat.div_eq_of_lt (by omega), Nat.add_zero]

theorem runWorkers_any_order (F N T B : Nat) (ts : List Nat) (hN : N < 4294836225)
    (hT : 1 ≤ T) (hw : N + T ≤ UINT) (hF : N + 2 ≤ F)
    (hB : (T ∣ N ∧ B = N) ∨ (¬ T ∣ N ∧ B = N + 1))
    (hmem : ∀ t, t ∈ ts ↔ t ∈ List.range T) :
    ∃ s, runWorkers F N T ts (initSieve N) = .ok s ∧ s.length = N + 1 ∧
      ∀ k : Nat, s[k]? = some false ↔ (k ≤ N ∧ (k < 2 ∨ (k < B ∧ ¬ Nat.Prime k))) := by
  have hU : N + 1 < UINT := by simp only [UINT]; omega
  have hsound : ∀ k : Nat, (initSieve N)[k]? = some false → ¬ Nat.Prime k := by
    intro k hk hp
    have := ((initSieve_false N hU k).1 hk).1
    have := hp.two_le
    omega
  obtain ⟨s, hrun, hlen, hm, hu, hl⟩ :=
    runWorkers_any_count F N T hN hw hF ts (initSieve N)
      (fun t ht => List.mem_range.1 ((hmem t).1 ht)) (initSieve_length N hU) hsound
  have hle := le_chunk_mul N T hT hw
  have hBC : B ≤ T * chunkSize N T := by
    rcases hB with ⟨hd, hb⟩ | ⟨hd, hb⟩
    · omega
    · have hne : N ≠ T * chunkSize N T := fun he => hd ⟨chunkSize N T, he⟩
      omega
  have hklt : ∀ k : Nat, s[k]? = some false → k ≤ N := by
    intro k hk
    by_contra hc
    rw [List.getElem?_eq_none (by omega)] at hk
    cases hk
  refine ⟨s, hrun, hlen, ?_⟩
  intro k
  constructor
  · intro hk
    refine ⟨hklt k hk, ?_⟩
    rcases hu k hk with h | ⟨h1, h2, h3⟩
    · exact Or.inl ((initSieve_false N hU k).1 h).1
    · refine Or.inr ⟨?_, h2⟩
      rcases hB with ⟨hd, hb⟩ | ⟨_, hb⟩
      · have hTC := chunk_mul_of_dvd N T hT hw hd
        rcases h3 with ⟨t, ht, h3⟩ | ⟨t, ht, hbad⟩
        · have := ((covered_iff N T k hU hw).1 ⟨t, (hmem t).1 ht, h3⟩).1
          omega
        · exfalso
          have ht2 := List.mem_range.1 ((hmem t).1 ht)
          have h4 : t * chunkSize N T ≤ T * chunkSize N T :=
            Nat.mul_le_mul_right _ (Nat.le_of_lt ht2)
          rw [startRange_eq N T t hw ht2] at hbad
          simp only [UINT] at hbad
          omega
      · have := hklt k hk
        omega
  · rintro ⟨h1, h2 | ⟨h2, h3⟩⟩
    · exact hm k ((initSieve_false N hU k).2 ⟨h2, h1⟩)
    · by_cases hk2 : k < 2
      · exact hm k ((initSieve_false N hU k).2 ⟨hk2, h1⟩)
      · obtain ⟨t, ht, h4, h5⟩ := (covered_iff N T k hU hw).2 ⟨by omega, h1⟩
        have hgood : startRange N T t + 65535 ≤ UINT := by simp only [UINT]; omega
        exact hl t ((hmem t).2 ht) hgood k h4 h5 (by omega) h3

theorem parSieve_any_count (F N T B : Nat) (hN : N < 4294836225) (hT : 1 ≤ T)
    (hw : N + T ≤ UINT) (hF : N + 2 ≤ F)
    (hB : (T ∣ N ∧ B = N) ∨ (¬ T ∣ N ∧ B = N + 1)) :
    ∃ s, parSieve F N T = .ok s ∧ s.length = N + 1 ∧
      ∀ k : Nat, s[k]? = some false ↔ (k ≤ N ∧ (k < 2 ∨ (k < B ∧ ¬ Nat.Prime k))) :=
  runWorkers_any_order F N T B (List.range T) hN hT hw hF hB (fun _ => Iff.rfl)

theorem multithreaded_of_flags (F B : Nat) (c : PrimeCalculator) (s : List Bool)
    (hU : c.limit + 1 < UINT) (hF : c.limit + 2 ≤ F)
    (hpar : parSieve F c.limit c.numThreads = .ok s) (hlen : s.length = c.limit + 1)
    (hget : ∀ k : Nat, s[k]? = some false ↔
      (k ≤ c.limit ∧ (k < 2 ∨ (k < B ∧ ¬ Nat.Prime k)))) :
    multithreadedSieveOfEratosthenes F c = .ok { c with
      primes := (List.range (c.limit + 1)).filter (fun k => Nat.Prime k ∨ (2 ≤ k ∧ B ≤ k)),
      primeCount := ((List.range (c.limit + 1)).filter
        (fun k => Nat.Prime k ∨ (2 ≤ k ∧ B ≤ k))).length } := by
  unfold multithreadedSieveOfEratosthenes
  rw [hpar]
  simp only [bind, Except.bind]
  rw [extractLoop_spec c.limit s hU (by omega) F 2 _ (by omega) (by omega),
    foldl_pushPrime _ _ (by simp only [UINT]; omega),
    extract_parSieved c.limit _ s hlen hget]
  simp only [pure, Except.pure, List.nil_append, Nat.zero_add]
  rw [Nat.mod_eq_of_lt]
  have h1 := List.length_filter_le (fun k => decide (Nat.Prime k ∨ (2 ≤ k ∧ B ≤ k)))
    (List.range (c.limit + 1))
  rw [List.length_range] at h1
  omega

theorem filter_bound_above (N : Nat) :
    (List.range (N + 1)).filter (fun k => Nat.Prime k ∨ (2 ≤ k ∧ N + 1 ≤ k)) =
      (List.range (N + 1)).filter (fun k => Nat.Prime k) := by
  apply List.filter_congr
  intro k hk
  rw [List.mem_range] at hk
  have : ¬ (2 ≤ k ∧ N + 1 ≤ k) := by omega
  simp [this]

theorem filter_bound_last (N : Nat) :
    (List.range (N + 1)).filter (fun k => Nat.Prime k ∨ (2 ≤ k ∧ N ≤ k)) =
      (List.range N).filter (fun k => Nat.Prime k) ++
        (if Nat.Prime N ∨ 2 ≤ N then [N] else []) := by
  rw [List.range_succ, List.filter_append]
  congr 1
  · apply List.filter_congr
    intro k hk
    rw [List.mem_range] at hk
    have : ¬ (2 ≤ k ∧ N ≤ k) := by omega
    simp [this]
  · by_cases h : Nat.Prime N ∨ 2 ≤ N
    · rw [if_pos h]
      simp only [List.filter_cons, List.filter_nil, le_refl, and_true]
      rw [if_pos (by simpa using h)]
    · rw [if_neg h]
      simp only [List.filter_cons, List.filter_nil, le_refl, and_true]
      rw [if_neg (by simpa using h)]

theorem filter_prime_last (N : Nat) :
    (List.range (N + 1)).filter (fun k => Nat.Prime k) =
      (List.range N).filter (fun k => Nat.Prime k) ++ (if Nat.Prime N then [N] else []) := by
  rw [List.range_succ, List.filter_append]
  congr 1
  by_cases h : Nat.Prime N
  · simp [List.filter_cons, h]
  · simp [List.filter_cons, h]

/-! ## Trial division on a prime above `65531^2` -/

theorem noDivisorIn_spec (n : Nat) :
    ∀ (d lo : Nat), noDivisorIn n d lo = true →
      ∀ k, lo ≤ k → k < lo + 2 ^ d → ¬ k ∣ n := by
  intro d
  induction d with
  | zero =>
    intro lo h k h1 h2 hk
    have hk2 : k = lo := by
      rw [pow_zero] at h2
      omega
    subst hk2
    simp only [noDivisorIn, bne_iff_ne, ne_eq] at h
    exact h (Nat.mod_eq_zero_of_dvd hk)
  | succ d ih =>
    intro lo h k h1 h2
    simp only [noDivisorIn, Bool.and_eq_true] at h
    have hp : 2 ^ (d + 1) = 2 ^ d + 2 ^ d := by ring
    by_cases hk : k < lo + 2 ^ d
    · exact ih lo h.1 k h1 hk
    · exact ih (lo + 2 ^ d) h.2 k (by omega) (by omega)

set_option maxRecDepth 100000 in
theorem noDivisor_4294967291 : noDivisorIn 4294967291 16 2 = true := by decide

theorem prime_4294967291 : Nat.Prime 4294967291 := by
  rw [Nat.prime_def_le_sqrt]
  refine ⟨by omega, ?_⟩
  intro m hm2 hms
  have hmm : m * m ≤ 4294967291 := Nat.le_sqrt.mp hms
  have hm : m < 65536 := by
    by_contra hc
    have h1 : 65536 ≤ m := by omega
    have : 65536 * 65536 ≤ m * m := Nat.mul_le_mul h1 h1
    omega
  have hpow : (2 : Nat) ^ 16 = 65536 := by norm_num
  exact noDivisorIn_spec 4294967291 16 2 noDivisor_4294967291 m hm2 (by omega)

theorem sq_odd_mod_eight (i : Nat) (h : i % 2 = 1) : (i * i) % 8 = 1 := by
  have h8 : i % 8 = 1 ∨ i % 8 = 3 ∨ i % 8 = 5 ∨ i % 8 = 7 := by omega
  rw [Nat.mul_mod]
  rcases h8 with h | h | h | h <;> rw [h]

theorem wrapped_square_le (i : Nat) (h : i % 2 = 1) : (i * i) % UINT ≤ 4294967291 := by
  have h8 : (i * i) % UINT % 8 = 1 := by
    rw [Nat.mod_mod_of_dvd (i * i) (by decide : 8 ∣ UINT)]
    exact sq_odd_mod_eight i h
  have hlt : (i * i) % UINT < UINT := Nat.mod_lt _ (by simp only [UINT]; omega)
  simp only [UINT] at h8 hlt ⊢
  omega

theorem isPrimeLoop_above_bound :
    ∀ (fuel i : Nat), i % 6 = 5 → i ≤ 4294967291 →
      isPrimeLoop 4294967291 fuel i =
        if 4294967291 + 6 ≤ i + 6 * fuel then .ok false else .error .outOfFuel := by
  intro fuel
  induction fuel with
  | zero =>
    intro i _ hi
    rw [if_neg (by omega)]
    rfl
  | succ fuel ih =>
    intro i h5 hi
    unfold isPrimeLoop
    rw [if_pos (wrapped_square_le i (by omega))]
    by_cases hin : i = 4294967291
    · subst hin
      rw [if_pos (Or.inl (Nat.mod_self _)), if_pos (by omega)]
    · have e2 : (i + 2) % UINT = i + 2 := Nat.mod_eq_of_lt (by simp only [UINT]; omega)
      have e6 : (i + 6) % UINT = i + 6 := Nat.mod_eq_of_lt (by simp only [UINT]; omega)
      have ht : ¬ (4294967291 % i = 0 ∨ 4294967291 % (i + 2) = 0) := by
        rintro (h | h)
        · rcases (Nat.dvd_prime prime_4294967291).1 (Nat.dvd_of_mod_eq_zero h) with h1 | h1
          · omega
          · exact hin h1
        · rcases (Nat.dvd_prime prime_4294967291).1 (Nat.dvd_of_mod_eq_zero h) with h1 | h1
          · omega
          · omega
      rw [e2, e6, if_neg ht, ih (i + 6) (by omega) (by omega)]
      by_cases hc : 4294967291 + 6 ≤ i + 6 * (fuel + 1)
      · rw [if_pos hc, if_pos (by omega)]
      · rw [if_neg hc, if_neg (by omega)]

theorem isPrime_above_bound (F : Nat) :
    isPrime F 4294967291 = if 715827882 ≤ F then .ok false else .error .outOfFuel := by
  unfold isPrime
  rw [if_neg (by omega), if_neg (by omega), if_neg (by decide),
    isPrimeLoop_above_bound F 5 (by decide) (by omega)]
  by_cases hc : 715827882 ≤ F
  · rw [if_pos hc, if_pos (by omega)]
  · rw [if_neg hc, if_neg (by omega)]

/-! ## Threads interleaved on the packed array -/

theorem loadWord_getElem? (s : List Bool) (i j : Nat) :
    (loadWord s i)[j]? = if j < WORD then s[WORD * (i / WORD) + j]? else none := by
  unfold loadWord
  rw [List.getElem?_take]
  by_cases h : j < WORD
  · rw [if_pos h, if_pos h, List.getElem?_drop]
  · rw [if_neg h, if_neg h]

theorem loadWord_length (s : List Bool) (i : Nat) :
    (loadWord s i).length = min WORD (s.length - WORD * (i / WORD)) := by
  unfold loadWord
  rw [List.length_take, List.length_drop]

theorem storeWord_getElem? (s : List Bool) (i : Nat) (w : List Bool)
    (hw : w.length = min WORD (s.length - WORD * (i / WORD))) (hi : i < s.length) (k : Nat) :
    (storeWord s i w)[k]? = if k / WORD = i / WORD then w[k % WORD]? else s[k]? := by
  unfold storeWord
  have hb : WORD * (i / WORD) ≤ i := Nat.mul_div_le i WORD
  have hlt : (List.take (WORD * (i / WORD)) s).length = WORD * (i / WORD) := by
    rw [List.length_take]; omega
  simp only [WORD] at *
  by_cases h1 : k < 64 * (i / 64)
  · rw [List.append_assoc, List.getElem?_append_left (by omega), List.getElem?_take,
      if_pos h1, if_neg (by omega)]
  · rw [List.append_assoc, List.getElem?_append_right (by omega), hlt]
    by_cases h2 : k - 64 * (i / 64) < w.length
    · rw [List.getElem?_append_left h2, if_pos (by omega)]
      congr 1
      omega
    · rw [List.getElem?_append_right (by omega), List.getElem?_drop]
      by_cases h3 : k / 64 = i / 64
      · rw [if_pos h3, List.getElem?_eq_none (by omega), List.getElem?_eq_none (by omega)]
      · rw [if_neg h3]
        by_cases h4 : k < s.length
        · congr 1
          omega
        · rw [List.getElem?_eq_none (by omega), List.getElem?_eq_none (by omega)]

theorem storeWord_load_set (s : List Bool) (i : Nat) (hi : i < s.length) :
    storeWord s i ((loadWord s i).set (i % WORD) false) = s.set i false := by
  apply List.ext_getElem?
  intro k
  rw [storeWord_getElem? s i _ (by rw [List.length_set, loadWord_length]) hi k,
    List.getElem?_set, List.getElem?_set, loadWord_getElem?, loadWord_length]
  have hb : WORD * (i / WORD) ≤ i := Nat.mul_div_le i WORD
  simp only [WORD] at *
  by_cases h1 : k / 64 = i / 64
  · rw [if_pos h1]
    by_cases h2 : i = k
    · subst h2
      rw [if_pos rfl, if_pos rfl, if_pos (by omega), if_pos hi]
    · rw [if_neg (by omega), if_neg h2, if_pos (by omega)]
      congr 1
      omega
  · rw [if_neg h1, if_neg (by intro h; subst h; exact h1 rfl)]

theorem runSchedule_step (limit T t : Nat) (rest : List Nat) (s s1 : List Bool)
    (ths : List ThreadState) (th th1 : ThreadState) (hth : ths[t]? = some th)
    (hstep : stepThread limit (startRange limit T t) (endRange limit T t) s th = .ok (s1, th1)) :
    runSchedule limit T (t :: rest) (s, ths) = runSchedule limit T rest (s1, ths.set t th1) := by
  rw [runSchedule]
  simp only [hth, hstep]
  rfl

theorem getElem?_set_same (ths : List ThreadState) (t : Nat) (th th1 : ThreadState)
    (hth : ths[t]? = some th) : (ths.set t th1)[t]? = some th1 := by
  rw [List.getElem?_set, if_pos rfl]
  have : t < ths.length := by
    by_contra h
    rw [List.getElem?_eq_none (by omega)] at hth
    cases hth
  rw [if_pos this]

theorem inner_as_steps (limit T t p : Nat) :
    ∀ (fuel i : Nat) (s s1 : List Bool), endRange limit T t ≤ s.length →
      workerInner (endRange limit T t) p fuel i s = .ok s1 →
      ∃ n, ∀ (rest : List Nat) (ths : List ThreadState), ths[t]? = some (.inner p i) →
        runSchedule limit T (List.replicate n t ++ rest) (s, ths) =
          runSchedule limit T rest (s1, ths.set t (.outer ((p + 1) % UINT))) := by
  intro fuel
  induction fuel with
  | zero =>
    intro i s s1 _ h
    unfold workerInner at h
    cases h
  | succ fuel ih =>
    intro i s s1 hlen h
    unfold workerInner at h
    by_cases hi : i < endRange limit T t
    · rw [if_pos hi] at h
      obtain ⟨n, hn⟩ := ih ((i + p) % UINT) (s.set i false) s1
        (by rw [List.length_set]; exact hlen) h
      refine ⟨n + 2, ?_⟩
      intro rest ths hth
      have hil : i < s.length := by omega
      have e : List.replicate (n + 2) t ++ rest = t :: t :: (List.replicate n t ++ rest) := rfl
      rw [e, runSchedule_step limit T t _ s s ths (.inner p i) (.store p i (loadWord s i)) hth
          (by simp only [stepThread, if_pos hi, if_pos hil]; rfl),
        runSchedule_step limit T t _ s (s.set i false) _ (.store p i (loadWord s i))
          (.inner p ((i + p) % UINT)) (getElem?_set_same ths t _ _ hth)
          (by simp only [stepThread, storeWord_load_set s i hil]; rfl),
        List.set_set, hn rest _ (getElem?_set_same ths t _ _ hth), List.set_set]
    · rw [if_neg hi] at h
      cases h
      refine ⟨1, ?_⟩
      intro rest ths hth
      have e : List.replicate 1 t ++ rest = t :: rest := rfl
      rw [e, runSchedule_step limit T t _ s s ths (.inner p i) (.outer ((p + 1) % UINT)) hth
          (by simp only [stepThread, if_neg hi]; rfl)]

theorem outer_as_steps (F limit T t : Nat) :
    ∀ (fuel p : Nat) (s s1 : List Bool), endRange limit T t ≤ s.length →
      workerOuter F limit (startRange limit T t) (endRange limit T t) fuel p s = .ok s1 →
      ∃ n, ∀ (rest : List Nat) (ths : List ThreadState), ths[t]? = some (.outer p) →
        runSchedule limit T (List.replicate n t ++ rest) (s, ths) =
          runSchedule limit T rest (s1, ths.set t .done) := by
  intro fuel
  induction fuel with
  | zero =>
    intro p s s1 _ h
    unfold workerOuter at h
    cases h
  | succ fuel ih =>
    intro p s s1 hlen h
    unfold workerOuter at h
    by_cases hg : (p * p) % UINT ≤ limit
    · rw [if_pos hg] at h
      cases hb : readFlag s p with
      | error e => rw [hb] at h; cases h
      | ok b =>
        rw [hb] at h
        simp only [bind, Except.bind] at h
        cases b with
        | false =>
          simp only [Bool.false_eq_true, if_false, pure, Except.pure] at h
          obtain ⟨n, hn⟩ := ih ((p + 1) % UINT) s s1 hlen h
          refine ⟨n + 1, ?_⟩
          intro rest ths hth
          have e : List.replicate (n + 1) t ++ rest = t :: (List.replicate n t ++ rest) := rfl
          rw [e, runSchedule_step limit T t _ s s ths (.outer p) (.outer ((p + 1) % UINT)) hth
              (by simp only [stepThread, if_pos hg, hb]; rfl),
            hn rest _ (getElem?_set_same ths t _ _ hth), List.set_set]
        | true =>
          simp only [if_true] at h
          cases hin : workerInner (endRange limit T t) p F
              (firstIndex (startRange limit T t) p) s with
          | error e => rw [hin] at h; cases h
          | ok s2 =>
            rw [hin] at h
            simp only [] at h
            have hl2 := (workerInner_mono _ p F _ s s2 hin).1
            obtain ⟨m, hm⟩ := inner_as_steps limit T t p F _ s s2 hlen hin
            obtain ⟨n, hn⟩ := ih ((p + 1) % UINT) s2 s1 (by rw [hl2]; exact hlen) h
            refine ⟨1 + m + n, ?_⟩
            intro rest ths hth
            have e : List.replicate (1 + m + n) t ++ rest =
                t :: (List.replicate m t ++ (List.replicate n t ++ rest)) := by
              rw [List.replicate_add, List.replicate_add, List.append_assoc, List.append_assoc]
              rfl
            rw [e, runSchedule_step limit T t _ s s ths (.outer p)
                (.inner p (firstIndex (startRange limit T t) p)) hth
                (by simp only [stepThread, if_pos hg, hb]; rfl),
              hm _ _ (getElem?_set_same ths t _ _ hth), List.set_set,
              hn rest _ (getElem?_set_same ths t _ _ hth), List.set_set]
    · rw [if_neg hg] at h
      cases h
      refine ⟨1, ?_⟩
      intro rest ths hth
      have e : List.replicate 1 t ++ rest = t :: rest := rfl
      rw [e, runSchedule_step limit T t _ s s ths (.outer p) .done hth
          (by simp only [stepThread, if_neg hg]; rfl)]

theorem runWorkers_as_schedule (F limit T : Nat) :
    ∀ (ts : List Nat) (s s1 : List Bool), ts.Nodup → s.length = (limit + 1) % UINT →
      runWorkers F limit T ts s = .ok s1 →
      ∃ sched, ∀ (rest : List Nat) (ths : List ThreadState),
        (∀ t, t ∈ ts → ths[t]? = some (.outer 2)) →
        ∃ ths1, runSchedule limit T (sched ++ rest) (s, ths) =
            runSchedule limit T rest (s1, ths1) ∧
          ths1.length = ths.length ∧ (∀ t, t ∈ ts → ths1[t]? = some .done) ∧
          ∀ u, u ∉ ts → ths1[u]? = ths[u]? := by
  intro ts
  induction ts with
  | nil =>
    intro s s1 _ _ h
    unfold runWorkers at h
    cases h
    refine ⟨[], fun rest ths _ => ⟨ths, rfl, rfl, ?_, fun _ _ => rfl⟩⟩
    intro t ht
    exact absurd ht (List.not_mem_nil t)
  | cons t ts ih =>
    intro s s1 hnd hlen h
    unfold runWorkers at h
    cases hw : worker F limit (startRange limit T t) (endRange limit T t) s with
    | error e => rw [hw] at h; cases h
    | ok s2 =>
      rw [hw] at h
      simp only [bind, Except.bind] at h
      have hend : endRange limit T t ≤ s.length := by
        rw [hlen]
        unfold endRange
        exact min_le_right _ _
      have hl2 := (workerOuter_mono F limit _ _ F 2 s s2 hw).1
      obtain ⟨n, hn⟩ := outer_as_steps F limit T t F 2 s s2 hend hw
      obtain ⟨sched, hs⟩ := ih s2 s1 (List.nodup_cons.1 hnd).2 (by rw [hl2]; exact hlen) h
      have hnot : t ∉ ts := (List.nodup_cons.1 hnd).1
      refine ⟨List.replicate n t ++ sched, ?_⟩
      intro rest ths hths
      have hne : ∀ u, u ∈ ts → t ≠ u := fun u hu he => hnot (he ▸ hu)
      obtain ⟨ths1, h1, h2, h3, h4⟩ := hs rest (ths.set t .done) (by
        intro u hu
        rw [List.getElem?_set, if_neg (hne u hu)]
        exact hths u (List.mem_cons_of_mem _ hu))
      refine ⟨ths1, ?_, ?_, ?_, ?_⟩
      · rw [List.append_assoc, hn _ ths (hths t (List.mem_cons_self _ _)), h1]
      · rw [h2, List.length_set]
      · intro u hu
        rcases List.mem_cons.1 hu with he | he
        · subst he
          rw [h4 u hnot]
          exact getElem?_set_same ths u _ _ (hths u (List.mem_cons_self _ _))
        · exact h3 u he
      · intro u hu
        have hut : t ≠ u := fun he => hu (he ▸ List.mem_cons_self _ _)
        rw [h4 u (fun hm => hu (List.mem_cons_of_mem _ hm)), List.getElem?_set, if_neg hut]

theorem initSieveChecked_eq (N : Nat) (h1 : 1 ≤ N) (hU : N + 1 < UINT) :
    initSieveChecked N = .ok (initSieve N) := by
  unfold initSieveChecked initSieve checkedWrite
  rw [Nat.mod_eq_of_lt hU]
  simp only [List.length_replicate, List.length_set, bind, Except.bind]
  rw [if_pos (by omega)]
  simp only [List.length_set, List.length_replicate]
  rw [if_pos (by omega)]

theorem initSieveChecked_max : initSieveChecked 4294967295 = .error .outOfBounds := rfl

theorem all_done_of_getElem? (ths : List ThreadState) (T : Nat) (hlen : ths.length = T)
    (h : ∀ t, t ∈ List.range T → ths[t]? = some .done) :
    ths.all (fun th => decide (th = .done)) = true := by
  rw [List.all_eq_true]
  intro x hx
  obtain ⟨i, hi, rfl⟩ := List.getElem_of_mem hx
  have := h i (List.mem_range.2 (by omega))
  rw [List.getElem?_eq_getElem hi] at this
  exact decide_eq_true (Option.some.inj this)

theorem markSched_of_runWorkers (F N T : Nat) (s0 s : List Bool)
    (hlen : s0.length = (N + 1) % UINT)
    (h : runWorkers F N T (List.range T) s0 = .ok s) :
    ∃ sched, markSched N T sched s0 = .ok s := by
  obtain ⟨sched, hs⟩ := runWorkers_as_schedule F N T (List.range T) s0 s
    (List.nodup_range T) hlen h
  obtain ⟨ths1, h1, h2, h3, _⟩ := hs [] (List.replicate T (.outer 2)) (by
    intro t ht
    rw [List.getElem?_replicate, if_pos (List.mem_range.1 ht)])
  refine ⟨sched, ?_⟩
  unfold markSched
  rw [List.append_nil] at h1
  rw [h1]
  simp only [runSchedule, bind, Except.bind]
  rw [all_done_of_getElem? ths1 T (by rw [h2, List.length_replicate]) h3]
  rfl

theorem parSieve_as_schedule (F N T : Nat) (s : List Bool) (h1 : 1 ≤ N) (hU : N + 1 < UINT)
    (h : parSieve F N T = .ok s) : ∃ sched, parSieveSched N T sched = .ok s := by
  obtain ⟨sched, hs⟩ := markSched_of_runWorkers F N T (initSieve N) s
    (by rw [initSieve_length N hU, Nat.mod_eq_of_lt hU]) h
  refine ⟨sched, ?_⟩
  unfold parSieveSched
  rw [initSieveChecked_eq N h1 hU]
  exact hs

theorem multithreaded_as_schedule (F : Nat) (c r : PrimeCalculator) (h1 : 1 ≤ c.limit)
    (hU : c.limit + 1 < UINT) (h : multithreadedSieveOfEratosthenes F c = .ok r) :
    ∃ sched, multithreadedSieveOfEratosthenesSched F sched c = .ok r := by
  unfold multithreadedSieveOfEratosthenes at h
  cases hp : parSieve F c.limit c.numThreads with
  | error e => rw [hp] at h; cases h
  | ok s =>
    obtain ⟨sched, hs⟩ := parSieve_as_schedule F c.limit c.numThreads s h1 hU hp
    refine ⟨sched, ?_⟩
    unfold multithreadedSieveOfEratosthenesSched
    rw [hs]
    rw [hp] at h
    exact h

theorem initSieve_flagsOk (N : Nat) (hU : N + 1 < UINT) : FlagsOk 0 (initSieve N) := by
  intro j b hj
  rw [Nat.zero_add]
  have hjl : j < (initSieve N).length := by
    by_contra hc
    rw [List.getElem?_eq_none (by omega)] at hj
    cases hj
  rw [initSieve_length N hU] at hjl
  have hf := initSieve_false N hU j
  cases b with
  | false =>
    refine ⟨fun _ => rfl, fun hp => ?_⟩
    have := (hf.1 hj).1
    have := hp.two_le
    omega
  | true =>
    refine ⟨fun h2 => ?_, fun _ => rfl⟩
    rw [hf.2 ⟨h2, by omega⟩] at hj
    cases hj

theorem runSchedule_small (limit T : Nat) (hl : limit < 4) :
    ∀ (sched : List Nat) (st st1 : List Bool × List ThreadState),
      (∀ th, th ∈ st.2 → th = .outer 2 ∨ th = .done) →
      runSchedule limit T sched st = .ok st1 → st1.1 = st.1 := by
  have hg : ¬ (2 * 2) % UINT ≤ limit := by simp only [UINT]; omega
  intro sched
  induction sched with
  | nil =>
    intro st st1 _ h
    unfold runSchedule at h
    cases h
    rfl
  | cons t ts ih =>
    intro st st1 hth h
    unfold runSchedule at h
    cases ht : st.2[t]? with
    | none =>
      rw [ht] at h
      exact ih st st1 hth h
    | some th =>
      rw [ht] at h
      simp only [] at h
      have hstep : stepThread limit (startRange limit T t) (endRange limit T t) st.1 th =
          .ok (st.1, .done) := by
        rcases hth th (List.getElem?_mem ht) with he | he
        · rw [he]
          simp only [stepThread, if_neg hg]
          rfl
        · rw [he]
          rfl
      rw [hstep] at h
      simp only [bind, Except.bind] at h
      have := ih (st.1, st.2.set t .done) st1 (by
        intro x hx
        rcases List.mem_or_eq_of_mem_set hx with hx1 | hx1
        · exact hth x hx1
        · exact Or.inr hx1) h
      exact this

theorem markSched_small (limit T : Nat) (hl : limit < 4) (sched : List Nat) (s0 s : List Bool)
    (h : markSched limit T sched s0 = .ok s) : s = s0 := by
  unfold markSched at h
  cases hr : runSchedule limit T sched (s0, List.replicate T (.outer 2)) with
  | error e => rw [hr] at h; cases h
  | ok st =>
    rw [hr] at h
    simp only [bind, Except.bind] at h
    by_cases hd : st.2.all (fun th => decide (th = .done)) = true
    · rw [if_pos hd] at h
      cases h
      exact runSchedule_small limit T hl sched _ st
        (fun th hth => Or.inl (List.eq_of_mem_replicate hth)) hr
    · rw [if_neg hd] at h
      cases h

theorem markSched_small_returns (limit T : Nat) (hl : limit < 4) (s0 : List Bool)
    (hlen : s0.length = (limit + 1) % UINT) : ∃ sched, markSched limit T sched s0 = .ok s0 :=
  markSched_of_runWorkers 1 limit T s0 s0 hlen (runWorkers_small 0 limit T hl _ s0)

theorem wrapped_square_le_any (p : Nat) : (p * p) % UINT ≤ 4294967292 := by
  by_cases h : p % 2 = 1
  · have := wrapped_square_le p h
    omega
  · have h4 : (p * p) % UINT % 4 = 0 := by
      rw [Nat.mod_mod_of_dvd (p * p) (by decide : 4 ∣ UINT)]
      have h2 : p % 4 = 0 ∨ p % 4 = 2 := by omega
      rw [Nat.mul_mod]
      rcases h2 with h2 | h2 <;> rw [h2]
    have hlt : (p * p) % UINT < UINT := Nat.mod_lt _ (by simp only [UINT]; omega)
    simp only [UINT] at h4 hlt ⊢
    omega

theorem stepThread_not_done (limit start stop : Nat) (hg : ∀ p, (p * p) % UINT ≤ limit)
    (s s1 : List Bool) (th th1 : ThreadState) (hth : th ≠ .done)
    (h : stepThread limit start stop s th = .ok (s1, th1)) : th1 ≠ .done := by
  cases th with
  | outer p =>
    simp only [stepThread, if_pos (hg p)] at h
    cases hb : readFlag s p with
    | error e => rw [hb] at h; cases h
    | ok b =>
      rw [hb] at h
      simp only [bind, Except.bind, pure, Except.pure, Except.ok.injEq, Prod.mk.injEq] at h
      obtain ⟨_, rfl⟩ := h
      cases b <;> simp
  | inner p i =>
    simp only [stepThread] at h
    by_cases hi : i < stop
    · rw [if_pos hi] at h
      by_cases hl : i < s.length
      · rw [if_pos hl] at h
        simp only [pure, Except.pure, Except.ok.injEq, Prod.mk.injEq] at h
        obtain ⟨_, rfl⟩ := h
        simp
      · rw [if_neg hl] at h
        cases h
    · rw [if_neg hi] at h
      simp only [pure, Except.pure, Except.ok.injEq, Prod.mk.injEq] at h
      obtain ⟨_, rfl⟩ := h
      simp
  | store p i w =>
    simp only [stepThread, pure, Except.pure, Except.ok.injEq, Prod.mk.injEq] at h
    obtain ⟨_, rfl⟩ := h
    simp
  | done => exact absurd rfl hth

theorem runSchedule_not_done (limit T : Nat) (hg : ∀ p, (p * p) % UINT ≤ limit) :
    ∀ (sched : List Nat) (st st1 : List Bool × List ThreadState),
      (∀ th, th ∈ st.2 → th ≠ .done) → runSchedule limit T sched st = .ok st1 →
      (∀ th, th ∈ st1.2 → th ≠ .done) ∧ st1.2.length = st.2.length := by
  intro sched
  induction sched with
  | nil =>
    intro st st1 hth h
    unfold runSchedule at h
    cases h
    exact ⟨hth, rfl⟩
  | cons t ts ih =>
    intro st st1 hth h
    unfold runSchedule at h
    cases ht : st.2[t]? with
    | none =>
      rw [ht] at h
      exact ih st st1 hth h
    | some th =>
      rw [ht] at h
      simp only [] at h
      cases hstep : stepThread limit (startRange limit T t) (endRange limit T t) st.1 th with
      | error e => rw [hstep] at h; cases h
      | ok r =>
        rw [hstep] at h
        simp only [bind, Except.bind] at h
        obtain ⟨r1, r2⟩ := r
        have h3 := stepThread_not_done limit _ _ hg st.1 r1 th r2
          (hth th (List.getElem?_mem ht)) hstep
        have := ih (r1, st.2.set t r2) st1 (by
          intro x hx
          rcases List.mem_or_eq_of_mem_set hx with hx1 | hx1
          · exact hth x hx1
          · rw [hx1]; exact h3) h
        refine ⟨this.1, ?_⟩
        rw [this.2, List.length_set]

theorem markSched_never_returns (limit T : Nat) (hT : 1 ≤ T)
    (hg : ∀ p, (p * p) % UINT ≤ limit) (sched : List Nat) (s0 s : List Bool) :
    markSched limit T sched s0 ≠ .ok s := by
  intro h
  unfold markSched at h
  cases hr : runSchedule limit T sched (s0, List.replicate T (.outer 2)) with
  | error e => rw [hr] at h; cases h
  | ok st =>
    rw [hr] at h
    simp only [bind, Except.bind] at h
    by_cases hd : st.2.all (fun th => decide (th = .done)) = true
    · obtain ⟨h1, h2⟩ := runSchedule_not_done limit T hg sched _ st
        (by
          intro th hth
          rw [List.eq_of_mem_replicate hth]
          simp) hr
      rw [List.length_replicate] at h2
      rw [List.all_eq_true] at hd
      have h0 : 0 < st.2.length := by omega
      have hm : st.2[0] ∈ st.2 := List.getElem_mem h0
      exact h1 _ hm (of_decide_eq_true (hd _ hm))
    · rw [if_neg hd] at h
      cases h

theorem initSieve_two (N : Nat) (h2 : 2 ≤ N) (hU : N + 1 < UINT) :
    readFlag (initSieve N) 2 = .ok true := by
  obtain ⟨b, hb, hg⟩ := readFlag_of_lt (initSieve N) 2 (by rw [initSieve_length N hU]; omega)
  have := ((initSieve_flagsOk N hU) 2 b hg).2 (by rw [Nat.zero_add]; exact Nat.prime_two)
  rw [hb, this]

theorem multithreadedSched_small (F limit T : Nat) (sched ps : List Nat) (cnt : Nat)
    (r : PrimeCalculator) (h1 : 1 ≤ limit) (hl : limit < 4)
    (h : multithreadedSieveOfEratosthenesSched F sched ⟨limit, ps, cnt, T⟩ = .ok r) :
    (extractLoop limit (initSieve limit) F 2 ([], 0)).map
      (fun acc => (⟨limit, acc.1, acc.2, T⟩ : PrimeCalculator)) = .ok r := by
  have hU : limit + 1 < UINT := by simp only [UINT]; omega
  unfold multithreadedSieveOfEratosthenesSched parSieveSched at h
  simp only [initSieveChecked_eq limit h1 hU, bind, Except.bind] at h
  cases hm : markSched limit T sched (initSieve limit) with
  | error e => rw [hm] at h; cases h
  | ok s =>
    rw [hm] at h
    have := markSched_small limit T hl sched _ s hm
    subst this
    simp only [] at h
    rw [← h]
    rfl

theorem multithreadedSched_small_returns (F limit T : Nat) (ps : List Nat) (cnt : Nat)
    (h1 : 1 ≤ limit) (hl : limit < 4) :
    ∃ sched, multithreadedSieveOfEratosthenesSched F sched ⟨limit, ps, cnt, T⟩ =
      (extractLoop limit (initSieve limit) F 2 ([], 0)).map
        (fun acc => (⟨limit, acc.1, acc.2, T⟩ : PrimeCalculator)) := by
  have hU : limit + 1 < UINT := by simp only [UINT]; omega
  obtain ⟨sched, hs⟩ := markSched_small_returns limit T hl (initSieve limit)
    (by rw [initSieve_length limit hU, Nat.mod_eq_of_lt hU])
  refine ⟨sched, ?_⟩
  unfold multithreadedSieveOfEratosthenesSched parSieveSched
  simp only [initSieveChecked_eq limit h1 hU, bind, Except.bind, hs]
  rfl

theorem multithreadedSched_never_returns (F : Nat) (sched : List Nat) (c r : PrimeCalculator)
    (hT : 1 ≤ c.numThreads) (hl : 4294967292 ≤ c.limit) :
    multithreadedSieveOfEratosthenesSched F sched c ≠ .ok r := by
  intro h
  unfold multithreadedSieveOfEratosthenesSched parSieveSched at h
  cases hi : initSieveChecked c.limit with
  | error e => rw [hi] at h; cases h
  | ok s0 =>
    rw [hi] at h
    simp only [bind, Except.bind] at h
    cases hm : markSched c.limit c.numThreads sched s0 with
    | error e => rw [hm] at h; cases h
    | ok s =>
      exact markSched_never_returns c.limit c.numThreads hT
        (fun p => le_trans (wrapped_square_le_any p) hl) sched s0 s hm

theorem multithreadedSched_init_fault (F : Nat) (sched : List Nat) (c : PrimeCalculator)
    (e : Fault) (h : initSieveChecked c.limit = .error e) :
    multithreadedSieveOfEratosthenesSched F sched c = .error e := by
  unfold multithreadedSieveOfEratosthenesSched parSieveSched
  rw [h]
  rfl

/-! ## Whole passes run one after the other -/

/-- A list returned by `sieveOfEratosthenes` or by `multithreadedSieveOfEratosthenes`
is strictly increasing with all elements in `[2, N]`, for every bound; a list
returned by `classicPrimalityTest` is so when `N < 2^32 - 5`.  The sieves return for
`N < 65535^2`, `T ≤ 65536` and a budget of at least `N + 2`, the classic test for
`N < 2^32 - 5` and a budget of at least 715827883. -/
theorem returned_lists_increasing (F : Nat) (c : PrimeCalculator) (hT : 1 ≤ c.numThreads) :
    (∀ r, sieveOfEratosthenes F c = .ok r →
      List.Pairwise (fun a b => a < b) r.primes ∧ ∀ x, x ∈ r.primes → 2 ≤ x ∧ x ≤ c.limit) ∧
    (∀ r, multithreadedSieveOfEratosthenes F c = .ok r →
      List.Pairwise (fun a b => a < b) r.primes ∧ ∀ x, x ∈ r.primes → 2 ≤ x ∧ x ≤ c.limit) ∧
    (c.limit + 5 < UINT → ∀ r, classicPrimalityTest F c = .ok r →
      List.Pairwise (fun a b => a < b) r.primes ∧ ∀ x, x ∈ r.primes → 2 ≤ x ∧ x ≤ c.limit) ∧
    (c.limit < 4294836225 → c.numThreads ≤ 65536 → c.limit + 2 ≤ F →
      (∃ r, sieveOfEratosthenes F c = .ok r) ∧
        ∃ r, multithreadedSieveOfEratosthenes F c = .ok r) ∧
    (c.limit + 5 < UINT → 715827883 ≤ F → ∃ r, classicPrimalityTest F c = .ok r) := by
  have _ := hT
  exact ⟨fun r h => sieveOfEratosthenes_sorted F c r h,
    fun r h => multithreaded_sorted F c r h,
    fun hU r h => classicPrimalityTest_sorted F c r hU h,
    fun hN hT2 hF => ⟨⟨_, sieveOfEratosthenes_run F c hN hF⟩, multithreaded_returns F c hN hT2 hF⟩,
    fun hU hF => classicPrimalityTest_terminates F c hF hU⟩

/-- When the passes of the workers are run one after the other, a second round
of passes on the array left by the first round returns that array unchanged. -/
theorem whole_passes_idempotent (F N T : Nat) (hT : 1 ≤ T) :
    (∀ s1, parSieve F N T = .ok s1 → runWorkers F N T (List.range T) s1 = .ok s1) ∧
      (N < 4294836225 → T ≤ 65536 → N + 2 ≤ F → ∃ s1, parSieve F N T = .ok s1) := by
  have _ := hT
  constructor
  · intro s1 h
    exact runWorkers_fixed F N T (List.range T) (initSieve N) s1 s1 h
      (runWorkers_mono F N T (List.range T) (initSieve N) s1 h).1 (fun _ hk => hk)
  · intro hN hT2 hF
    obtain ⟨s1, h, _⟩ := parSieve_spec F N T hN hT2 hF
    exact ⟨s1, h⟩

/-- The list returned when the passes of the workers are run one after the
other, for `1 ≤ N < 65535^2` and `N + T ≤ 2^32`: the list of the sequential sieve,
with `N` appended when `T` divides `N` and `N` is composite. -/
theorem whole_passes_output_characterised (F N T : Nat) (ps : List Nat) (cnt : Nat)
    (hN1 : 1 ≤ N) (hN : N < 4294836225) (hT : 1 ≤ T) (hw : N + T ≤ UINT) (hF : N + 2 ≤ F) :
    ∃ L, sieveOfEratosthenes F ⟨N, ps, cnt, T⟩ = .ok ⟨N, L, L.length, T⟩ ∧
      ((¬ T ∣ N ∨ ¬ (2 ≤ N ∧ ¬ Nat.Prime N)) →
        multithreadedSieveOfEratosthenes F ⟨N, ps, cnt, T⟩ = .ok ⟨N, L, L.length, T⟩) ∧
      ((T ∣ N ∧ 2 ≤ N ∧ ¬ Nat.Prime N) →
        (∀ t, t < T → ¬ (startRange N T t ≤ N ∧ N < endRange N T t)) ∧
        (∃ s, parSieve F N T = .ok s ∧ s[N]? = some true) ∧
        multithreadedSieveOfEratosthenes F ⟨N, ps, cnt, T⟩ =
          .ok ⟨N, L ++ [N], L.length + 1, T⟩) := by
  have _ := hN1
  have hU : N + 1 < UINT := by simp only [UINT]; omega
  refine ⟨(List.range (N + 1)).filter (fun k => Nat.Prime k),
    sieveOfEratosthenes_run F ⟨N, ps, cnt, T⟩ hN hF, ?_, ?_⟩
  · intro hcase
    by_cases hd : T ∣ N
    · have hnc : ¬ (2 ≤ N ∧ ¬ Nat.Prime N) := by
        rcases hcase with h | h
        · exact absurd hd h
        · exact h
      obtain ⟨s, hpar, hlen, hget⟩ :=
        parSieve_any_count F N T N hN hT hw hF (Or.inl ⟨hd, rfl⟩)
      rw [multithreaded_of_flags F N ⟨N, ps, cnt, T⟩ s hU hF hpar hlen hget]
      have he : (List.range (N + 1)).filter (fun k => Nat.Prime k ∨ (2 ≤ k ∧ N ≤ k)) =
          (List.range (N + 1)).filter (fun k => Nat.Prime k) := by
        rw [filter_bound_last, filter_prime_last]
        congr 1
        by_cases hp : Nat.Prime N
        · rw [if_pos (Or.inl hp), if_pos hp]
        · have h2 : ¬ 2 ≤ N := fun h2 => hnc ⟨h2, hp⟩
          have h3 : ¬ (Nat.Prime N ∨ 2 ≤ N) := by
            rintro (h | h)
            · exact hp h
            · exact h2 h
          rw [if_neg h3, if_neg hp]
      simp only [he]
    · obtain ⟨s, hpar, hlen, hget⟩ :=
        parSieve_any_count F N T (N + 1) hN hT hw hF (Or.inr ⟨hd, rfl⟩)
      rw [multithreaded_of_flags F (N + 1) ⟨N, ps, cnt, T⟩ s hU hF hpar hlen hget]
      simp only [filter_bound_above]
  · rintro ⟨hd, h2, hnp⟩
    obtain ⟨s, hpar, hlen, hget⟩ :=
      parSieve_any_count F N T N hN hT hw hF (Or.inl ⟨hd, rfl⟩)
    have hTC := chunk_mul_of_dvd N T hT hw hd
    refine ⟨?_, ⟨s, hpar, ?_⟩, ?_⟩
    · intro t ht hin
      have := ((covered_iff N T N hU hw).1 ⟨t, List.mem_range.2 ht, hin⟩).1
      omega
    · have hlt : N < s.length := by omega
      have hiff := hget N
      rw [List.getElem?_eq_getElem hlt] at hiff ⊢
      cases hb : s[N] with
      | true => rfl
      | false =>
        rw [hb] at hiff
        have := (hiff.1 rfl).2
        omega
    · rw [multithreaded_of_flags F N ⟨N, ps, cnt, T⟩ s hU hF hpar hlen hget]
      have he : (List.range (N + 1)).filter (fun k => Nat.Prime k ∨ (2 ≤ k ∧ N ≤ k)) =
          (List.range (N + 1)).filter (fun k => Nat.Prime k) ++ [N] := by
        rw [filter_bound_last, filter_prime_last, if_pos (Or.inr h2), if_neg hnp,
          List.append_nil]
      simp only [he, List.length_append, List.length_singleton]

/-- C1 (the code departs from it): with bound 4 the two-thread run leaves the
composite 4 in the list, while the sequential sieve and the three-thread run do
not.  The chunk size 2 gives the ranges `[0,2)` and `[2,4)`, so the flag of
index 4 is never cleared. -/
theorem C1_parallel_differs_from_sequential :
    multithreadedSieveOfEratosthenes 6 ⟨4, [], 0, 2⟩ = .ok ⟨4, [2, 3, 4], 3, 2⟩ ∧
      sieveOfEratosthenes 6 ⟨4, [], 0, 2⟩ = .ok ⟨4, [2, 3], 2, 2⟩ ∧
      multithreadedSieveOfEratosthenes 6 ⟨4, [], 0, 3⟩ = .ok ⟨4, [2, 3], 2, 3⟩ ∧
      parSieve 6 4 2 = .ok [false, false, true, true, true] ∧
      seqSieve 6 4 = .ok [false, false, true, true, false] := by
  decide

set_option maxRecDepth 1000000 in
/-- C2 (the code departs from it): with one thread the run for bound 30 returns
eleven numbers, the last being the composite 30, and the run for bound 100
returns a count of 26; with eight threads the run for bound 1000 returns a count
of 169. -/
theorem C2_known_values_off_by_one :
    multithreadedSieveOfEratosthenes 32 ⟨30, [], 0, 1⟩ =
        .ok ⟨30, [2, 3, 5, 7, 11, 13, 17, 19, 23, 29, 30], 11, 1⟩ ∧
      (multithreadedSieveOfEratosthenes 102 ⟨100, [], 0, 1⟩).map (fun c => c.primeCount) =
        .ok 26 ∧
      (multithreadedSieveOfEratosthenes 1002 ⟨1000, [], 0, 8⟩).map (fun c => c.primeCount) =
        .ok 169 := by
  refine ⟨by decide, by decide, ?_⟩
  rw [multithreaded_run 1002 ⟨1000, [], 0, 8⟩ (by decide) (by decide) (by decide)]
  have hc : 8 * chunkSize 1000 8 = 1000 := by decide
  have hf : (List.range (1000 + 1)).filter (fun k => Nat.Prime k ∨ (2 ≤ k ∧ 1000 ≤ k)) =
      (List.range (1000 + 1)).filter (fun k => isPrime 10922 k = .ok true ∨ 1000 ≤ k) := by
    apply List.filter_congr
    intro k hk
    rw [List.mem_range] at hk
    rw [isPrime_decide 10922 k (by omega) (le_refl _)]
    by_cases hp : Nat.Prime k
    · simp [hp]
    · by_cases hk2 : 1000 ≤ k
      · simp [hp, hk2]; omega
      · simp [hp, hk2]
  have hl : ((List.range (1000 + 1)).filter
      (fun k => isPrime 10922 k = .ok true ∨ 1000 ≤ k)).length = 169 := by decide
  simp only [hc, hf, hl]
  rfl

/-- C3 (the code departs from it): for bound 4 and two threads the chunk size is
2, not `ceil(5 / 2) = 3`; the two ranges are `[0,2)` and `[2,4)` and index 4 lies
in neither. -/
theorem C3_chunk_misses_last_index :
    chunkSize 4 2 = 2 ∧ (4 + 1 + 2 - 1) / 2 = 3 ∧
      (startRange 4 2 0, endRange 4 2 0) = (0, 2) ∧
      (startRange 4 2 1, endRange 4 2 1) = (2, 4) ∧
      ∀ t, t < 2 → ¬ (startRange 4 2 t ≤ 4 ∧ 4 < endRange 4 2 t) := by
  decide

/-- C4: for every bound `N` with `2 ≤ N < 65535^2`, a run of `sieveOfEratosthenes`
with a loop budget of at least `N + 2` returns, and the list it leaves in `primes`
is the ascending list of the numbers `0..N` filtered by primality: it is strictly
increasing and its members are exactly the primes `k` with `2 ≤ k ≤ N`. -/
theorem C4_sieveOfEratosthenes_primes (F : Nat) (c : PrimeCalculator) (h2 : 2 ≤ c.limit)
    (hN : c.limit < 4294836225) (hF : c.limit + 2 ≤ F) :
    ∃ r, sieveOfEratosthenes F c = .ok r ∧
      r.primes = (List.range (c.limit + 1)).filter (fun k => Nat.Prime k) ∧
      List.Pairwise (fun a b => a < b) r.primes ∧
      ∀ k, k ∈ r.primes ↔ 2 ≤ k ∧ k ≤ c.limit ∧ Nat.Prime k := by
  have _ := h2
  exact ⟨_, sieveOfEratosthenes_run F c hN hF, rfl, primes_upto_sorted _,
    fun k => mem_primes_upto c.limit k⟩

/-- C4 at the bound 30 with a budget of 32. -/
theorem C4_sieveOfEratosthenes_primes_witness :
    ∃ r, sieveOfEratosthenes 32 ⟨30, [], 0, 1⟩ = .ok r ∧
      r.primes = (List.range (30 + 1)).filter (fun k => Nat.Prime k) ∧
      List.Pairwise (fun a b => a < b) r.primes ∧
      ∀ k, k ∈ r.primes ↔ 2 ≤ k ∧ k ≤ 30 ∧ Nat.Prime k :=
  C4_sieveOfEratosthenes_primes 32 ⟨30, [], 0, 1⟩ (by decide) (by decide) (by decide)

/-- C5: for every `n < 65531^2`, `isPrime n` run with a loop budget of at least
10922 returns, and it returns `true` exactly when `n` is a prime number; it
returns `false` for 0 and 1 and `true` for 2 and 3. -/
theorem C5_isPrime_iff_prime (fuel n : Nat) (hn : n < 4294311961) (hf : 10922 ≤ fuel) :
    (∃ b, isPrime fuel n = .ok b ∧ (b = true ↔ Nat.Prime n)) ∧
      isPrime fuel 0 = .ok false ∧ isPrime fuel 1 = .ok false ∧
      isPrime fuel 2 = .ok true ∧ isPrime fuel 3 = .ok true :=
  ⟨isPrime_spec fuel n hn hf, rfl, rfl, rfl, rfl⟩

/-- C5 at `n = 4294049777 = 65521 * 65537`, just below the bound. -/
theorem C5_isPrime_iff_prime_witness :
    (∃ b, isPrime 10922 4294049777 = .ok b ∧ (b = true ↔ Nat.Prime 4294049777)) ∧
      isPrime 10922 0 = .ok false ∧ isPrime 10922 1 = .ok false ∧
      isPrime 10922 2 = .ok true ∧ isPrime 10922 3 = .ok true :=
  C5_isPrime_iff_prime 10922 4294049777 (by decide) (by decide)

/-- C7 (the code departs from it): for the bound 0 both sieves write `sieve[1]`
into an array of one flag before anything else, so on a bounds-checked array
neither of them returns a list, whatever the budget, the thread count and the
schedule are.  The other results of the claim hold: the classic test returns the
empty list for the bounds 0 and 1, `[2]` for 2 and `[2, 3]` for 3; the sequential
sieve returns `[]`, `[2]`, `[2, 3]` for the bounds 1, 2, 3; and so does the
parallel sieve under every schedule that lets all threads return, of which there
is one. -/
theorem C7_bound_zero_writes_outside_the_array :
    (∀ F T ps cnt, sieveOfEratosthenesChecked F ⟨0, ps, cnt, T⟩ = .error .outOfBounds) ∧
    (∀ F T sched ps cnt,
      multithreadedSieveOfEratosthenesSched F sched ⟨0, ps, cnt, T⟩ = .error .outOfBounds) ∧
    (∀ G T ps cnt,
      classicPrimalityTest (G + 5) ⟨0, ps, cnt, T⟩ = .ok ⟨0, [], 0, T⟩ ∧
      classicPrimalityTest (G + 5) ⟨1, ps, cnt, T⟩ = .ok ⟨1, [], 0, T⟩ ∧
      classicPrimalityTest (G + 5) ⟨2, ps, cnt, T⟩ = .ok ⟨2, [2], 1, T⟩ ∧
      classicPrimalityTest (G + 5) ⟨3, ps, cnt, T⟩ = .ok ⟨3, [2, 3], 2, T⟩) ∧
    (∀ G T ps cnt,
      sieveOfEratosthenesChecked (G + 5) ⟨1, ps, cnt, T⟩ = .ok ⟨1, [], 0, T⟩ ∧
      sieveOfEratosthenesChecked (G + 5) ⟨2, ps, cnt, T⟩ = .ok ⟨2, [2], 1, T⟩ ∧
      sieveOfEratosthenesChecked (G + 5) ⟨3, ps, cnt, T⟩ = .ok ⟨3, [2, 3], 2, T⟩) ∧
    (∀ G T sched ps cnt r,
      (multithreadedSieveOfEratosthenesSched (G + 5) sched ⟨1, ps, cnt, T⟩ = .ok r →
        r = ⟨1, [], 0, T⟩) ∧
      (multithreadedSieveOfEratosthenesSched (G + 5) sched ⟨2, ps, cnt, T⟩ = .ok r →
        r = ⟨2, [2], 1, T⟩) ∧
      (multithreadedSieveOfEratosthenesSched (G + 5) sched ⟨3, ps, cnt, T⟩ = .ok r →
        r = ⟨3, [2, 3], 2, T⟩)) ∧
    (∀ G T ps cnt,
      (∃ sched, multithreadedSieveOfEratosthenesSched (G + 5) sched ⟨1, ps, cnt, T⟩ =
        .ok ⟨1, [], 0, T⟩) ∧
      (∃ sched, multithreadedSieveOfEratosthenesSched (G + 5) sched ⟨2, ps, cnt, T⟩ =
        .ok ⟨2, [2], 1, T⟩) ∧
      (∃ sched, multithreadedSieveOfEratosthenesSched (G + 5) sched ⟨3, ps, cnt, T⟩ =
        .ok ⟨3, [2, 3], 2, T⟩)) := by
  refine ⟨fun _ _ _ _ => rfl, fun _ _ _ _ _ => rfl, fun _ _ _ _ => ⟨rfl, rfl, rfl, rfl⟩,
    fun _ _ _ _ => ⟨rfl, rfl, rfl⟩, ?_, ?_⟩
  · intro G T sched ps cnt r
    refine ⟨fun h => ?_, fun h => ?_, fun h => ?_⟩
    · have := multithreadedSched_small (G + 5) 1 T sched ps cnt r (by decide) (by decide) h
      exact (Except.ok.inj this).symm
    · have := multithreadedSched_small (G + 5) 2 T sched ps cnt r (by decide) (by decide) h
      exact (Except.ok.inj this).symm
    · have := multithreadedSched_small (G + 5) 3 T sched ps cnt r (by decide) (by decide) h
      exact (Except.ok.inj this).symm
  · intro G T ps cnt
    refine ⟨?_, ?_, ?_⟩
    · obtain ⟨sched, h⟩ :=
        multithreadedSched_small_returns (G + 5) 1 T ps cnt (by decide) (by decide)
      exact ⟨sched, h⟩
    · obtain ⟨sched, h⟩ :=
        multithreadedSched_small_returns (G + 5) 2 T ps cnt (by decide) (by decide)
      exact ⟨sched, h⟩
    · obtain ⟨sched, h⟩ :=
        multithreadedSched_small_returns (G + 5) 3 T ps cnt (by decide) (by decide)
      exact ⟨sched, h⟩

/-- C8 (the code departs from it): with the bound `2^32 - 5` the classic test
returns a list that is not strictly increasing.  After `n = 2^32 - 5` the step
`n += 6` wraps to 1, so the loop makes a second pass and appends 3 again. -/
theorem C8_classic_list_repeats_after_wrap :
    ∃ r, classicPrimalityTest 1431655766 ⟨4294967291, [], 0, 1⟩ = .ok r ∧
      ¬ List.Pairwise (fun a b => a < b) r.primes :=
  classicPrimalityTest_wraps 1 [] 0

/-- C10 (the code departs from it): no bound is rejected.  For the bound
`2^32 - 1` the size `N + 1` wraps to 0, an array of no flags is allocated, and the
next statement, the write `sieve[1] = false`, is outside it: the run ends there
for every thread count and schedule.  For the bound `2^32 - 2` with 8 threads the
numerator `N + T - 1` wraps to 5, the array of `2^32 - 1` flags is allocated and
initialised, the chunk size is the wrapped value 0 and every worker range is
`[0, 0)`; worker 0 runs (its first step reads `sieve[2]` and enters the inner
loop at index 4), and under no schedule does the join return. -/
theorem C10_wrapped_bound_is_not_rejected :
    (4294967295 + 1) % UINT = 0 ∧
    checkedWrite (List.replicate ((4294967295 + 1) % UINT) true) 1 = .error .outOfBounds ∧
    (∀ F T sched ps cnt,
      multithreadedSieveOfEratosthenesSched F sched ⟨4294967295, ps, cnt, T⟩ =
        .error .outOfBounds) ∧
    (4294967294 + 8 - 1) % UINT = 5 ∧ chunkSize 4294967294 8 = 0 ∧
    (∀ t, startRange 4294967294 8 t = 0 ∧ endRange 4294967294 8 t = 0) ∧
    (∃ s, initSieveChecked 4294967294 = .ok s ∧ s.length = 4294967295 ∧
      stepThread 4294967294 (startRange 4294967294 8 0) (endRange 4294967294 8 0) s
        (.outer 2) = .ok (s, .inner 2 4)) ∧
    (∀ F sched r,
      multithreadedSieveOfEratosthenesSched F sched ⟨4294967294, [], 0, 8⟩ ≠ .ok r) := by
  have hc : chunkSize 4294967294 8 = 0 := by decide
  have hr : ∀ t, startRange 4294967294 8 t = 0 ∧ endRange 4294967294 8 t = 0 := by
    intro t
    have hs : startRange 4294967294 8 t = 0 := by
      unfold startRange
      rw [hc]
      rfl
    refine ⟨hs, ?_⟩
    unfold endRange
    rw [hs, hc]
    rfl
  refine ⟨by decide, rfl, fun F T sched ps cnt => multithreadedSched_init_fault F sched
    ⟨4294967295, ps, cnt, T⟩ _ initSieveChecked_max, by decide, hc, hr, ?_, ?_⟩
  · refine ⟨initSieve 4294967294, initSieveChecked_eq _ (by decide) (by decide),
      initSieve_length _ (by decide), ?_⟩
    rw [(hr 0).1, (hr 0).2]
    simp only [stepThread]
    rw [if_pos (by decide), initSieve_two 4294967294 (by decide) (by decide)]
    rfl
  · intro F sched r
    exact multithreadedSched_never_returns F sched ⟨4294967294, [], 0, 8⟩ r (by decide)
      (by decide)

/-- C11 (the code departs from it): for the bound `2^32 - 1` no budget lets the
parallel run return.  The guard `p * p <= limit` of a worker's outer loop holds
for every 32-bit value, so that loop is never left, whatever the array and the
range are; the same is true of the guard `p <= limit` of the extraction loop. -/
theorem C11_no_return_at_largest_bound :
    (¬ ∃ F r, multithreadedSieveOfEratosthenes F ⟨4294967295, [], 0, 8⟩ = .ok r) ∧
      (¬ ∃ F start stop fuel p s r,
        workerOuter F 4294967295 start stop fuel p s = .ok r) ∧
      (¬ ∃ s fuel p acc r, p < UINT ∧ extractLoop 4294967295 s fuel p acc = .ok r) := by
  refine ⟨?_, ?_, ?_⟩
  · rintro ⟨F, r, h⟩
    exact multithreaded_never_returns F ⟨4294967295, [], 0, 8⟩ (by decide) (by decide) r h
  · rintro ⟨F, start, stop, fuel, p, s, r, h⟩
    exact workerOuter_never_returns F 4294967295 start stop (by decide) fuel p s r h
  · rintro ⟨s, fuel, p, acc, r, hp, h⟩
    exact extractLoop_never_returns 4294967295 s (by decide) fuel p acc r hp h

set_option maxRecDepth 1000000 in
/-- C12 (the code departs from it): with the bound 30 and two threads, there is
a schedule of the first marking phase in which thread 1 loads the word of the
flags between the load and the store of thread 0's write `sieve[4] = false`, and
stores it afterwards: the flag of 4 is true again when the join returns.  A
second marking phase on that array, with the threads run one after the other,
clears it, so the second phase does not return the array of the first. -/
theorem C12_second_marking_phase_changes_array :
    parSieveSched 30 2 ([0, 0, 1, 1, 0, 1] ++ List.replicate 22 0 ++ List.replicate 40 1) =
        .ok [false, false, true, true, true, true, false, true, false, false, false, true,
          false, true, false, false, false, true, false, true, false, false, false, true,
          false, false, false, false, false, true, true] ∧
      markSched 30 2 (List.replicate 24 0 ++ List.replicate 34 1)
          [false, false, true, true, true, true, false, true, false, false, false, true,
            false, true, false, false, false, true, false, true, false, false, false, true,
            false, false, false, false, false, true, true] =
        .ok [false, false, true, true, false, true, false, true, false, false, false, true,
          false, true, false, false, false, true, false, true, false, false, false, true,
          false, false, false, false, false, true, true] := by
  decide

set_option maxRecDepth 1000000 in
/-- C13 (the code departs from it): with the bound 30 and two threads the final
array depends on the schedule.  When thread 0 runs to its end before thread 1
starts, the flag of 16 is false (this is also the array of `parSieve`).  When
thread 0 loads the word of the flags for `sieve[4] = false`, thread 1 then loads
and stores it for `sieve[16] = false`, and thread 0 stores its word afterwards,
the write of thread 1 is lost and the flag of 16 is true when the join returns. -/
theorem C13_final_array_depends_on_schedule :
    parSieveSched 30 2 (List.replicate 24 0 ++ List.replicate 34 1) =
        .ok [false, false, true, true, false, true, false, true, false, false, false, true,
          false, true, false, false, false, true, false, true, false, false, false, true,
          false, false, false, false, false, true, true] ∧
      parSieve 32 30 2 =
        .ok [false, false, true, true, false, true, false, true, false, false, false, true,
          false, true, false, false, false, true, false, true, false, false, false, true,
          false, false, false, false, false, true, true] ∧
      parSieveSched 30 2 ([0, 0, 1, 1, 1, 0] ++ List.replicate 21 0 ++ List.replicate 31 1) =
        .ok [false, false, true, true, false, true, false, true, false, false, false, true,
          false, true, false, false, true, true, false, true, false, false, false, true,
          false, false, false, false, false, true, true] := by
  decide

/-- C14: for every bound `N < 65535^2`, every array of `N + 1` flags and every
worker range `[start, stop)` with `stop ≤ N + 1`, the pass of the worker (budget
at least `N + 2`) returns; no flag that was false is true afterwards; every
index `i` that it writes is `i = m * p` for some `p ≥ 2` with `p * p ≤ i`, and is
not prime; and the flag of every prime index is left as it was. -/
theorem C14_worker_writes_only_composites (F N start stop : Nat) (s : List Bool)
    (hN : N < 4294836225) (hstop : stop ≤ N + 1) (hF : N + 2 ≤ F) (hlen : s.length = N + 1) :
    ∃ s1 log, workerLog F N start stop s = .ok (s1, log) ∧
      worker F N start stop s = .ok s1 ∧
      (∀ k : Nat, s[k]? = some false → s1[k]? = some false) ∧
      (∀ i, Access.write i ∈ log →
        (∃ p m, 2 ≤ p ∧ i = m * p ∧ p * p ≤ i) ∧ 2 ≤ i ∧ ¬ Nat.Prime i) ∧
      ∀ k : Nat, Nat.Prime k → s1[k]? = s[k]? := by
  obtain ⟨s1, log, hlog⟩ := workerLog_returns F N start stop s hN hstop hF hlen
  have hw := worker_of_workerLog F N start stop s (s1, log) hlog
  obtain ⟨w1, w2⟩ := workerLog_writes F N start stop 0 s s1 log hN hstop
    (fun _ _ _ => Nat.zero_le _) hlog
  have hwr : ∀ i, Access.write i ∈ log →
      (∃ p m, 2 ≤ p ∧ i = m * p ∧ p * p ≤ i) ∧ 2 ≤ i ∧ ¬ Nat.Prime i := by
    intro i hi
    rcases w1 _ hi with ⟨q, h1, _⟩ | ⟨q, k, h1, h2, _, h4, h5, _, _⟩
    · cases h1
    · cases h1
      obtain ⟨m, hm⟩ := h4
      have hc := composite_of_mul q i h2 ⟨m, hm⟩ h5
      exact ⟨⟨q, m, h2, by rw [hm, Nat.mul_comm], h5⟩, hc.1, hc.2⟩
  refine ⟨s1, log, hlog, hw, (workerOuter_mono F N start stop F 2 s s1 hw).2, hwr, ?_⟩
  intro k hk
  rcases w2 k with h | h
  · exact h
  · exact absurd hk (hwr k h).2.2

/-- C14 at the bound 30 for the worker range `[15, 30)` on the initial array. -/
theorem C14_worker_writes_only_composites_witness :
    ∃ s1 log, workerLog 32 30 15 30 (initSieve 30) = .ok (s1, log) ∧
      worker 32 30 15 30 (initSieve 30) = .ok s1 ∧
      (∀ k : Nat, (initSieve 30)[k]? = some false → s1[k]? = some false) ∧
      (∀ i, Access.write i ∈ log →
        (∃ p m, 2 ≤ p ∧ i = m * p ∧ p * p ≤ i) ∧ 2 ≤ i ∧ ¬ Nat.Prime i) ∧
      ∀ k : Nat, Nat.Prime k → s1[k]? = (initSieve 30)[k]? :=
  C14_worker_writes_only_composites 32 30 15 30 (initSieve 30) (by decide) (by decide)
    (by decide) (by decide)

/-- C15: for every bound `N < 65535^2`, every thread count `T` with
`N + T ≤ 2^32`, every worker `t < T` whose `startRange` is at most
`2^32 - 65535` (so that `startRange + p - 1` does not wrap), and every array of
`N + 1` flags, the pass of worker `t` (budget at least `N + 2`) returns; every
index it writes lies in its own range `[startRange, endRange)`; every flag
outside that range is left as it was; and no index written by worker `t` is
written by another such worker `u`, whatever array that worker runs on. -/
theorem C15_worker_writes_inside_own_range (F N T t : Nat) (s : List Bool)
    (hN : N < 4294836225) (hw : N + T ≤ UINT) (ht : t < T)
    (hst : startRange N T t + 65535 ≤ UINT) (hF : N + 2 ≤ F) (hlen : s.length = N + 1) :
    ∃ s1 log, workerLog F N (startRange N T t) (endRange N T t) s = .ok (s1, log) ∧
      (∀ i, Access.write i ∈ log → startRange N T t ≤ i ∧ i < endRange N T t) ∧
      (∀ k : Nat, ¬ (startRange N T t ≤ k ∧ k < endRange N T t) → s1[k]? = s[k]?) ∧
      ∀ u su st, u < T → u ≠ t → startRange N T u + 65535 ≤ UINT →
        workerLog F N (startRange N T u) (endRange N T u) su = .ok st →
        ∀ i, ¬ (Access.write i ∈ log ∧ Access.write i ∈ st.2) := by
  have hU : N + 1 < UINT := by simp only [UINT]; omega
  have hstopOf : ∀ v, v < T → endRange N T v ≤ N + 1 := by
    intro v hv
    rw [endRange_eq N T v hU hw hv]
    exact min_le_right _ _
  have hin : ∀ v sv stv, v < T → startRange N T v + 65535 ≤ UINT →
      workerLog F N (startRange N T v) (endRange N T v) sv = .ok stv →
      ∀ i, Access.write i ∈ stv.2 → startRange N T v ≤ i ∧ i < endRange N T v := by
    intro v sv stv hv hgood hrun i hi
    have := (workerLog_writes F N _ _ (startRange N T v) sv stv.1 stv.2 hN (hstopOf v hv)
      (start_le_firstIndex _ hgood) hrun).1 _ hi
    rcases this with ⟨q, h1, _⟩ | ⟨q, k, h1, _, _, _, _, h6, h7⟩
    · cases h1
    · cases h1
      exact ⟨h6, h7⟩
  obtain ⟨s1, log, hlog⟩ :=
    workerLog_returns F N (startRange N T t) (endRange N T t) s hN (hstopOf t ht) hF hlen
  refine ⟨s1, log, hlog, hin t s (s1, log) ht hst hlog, ?_, ?_⟩
  · intro k hk
    have := (workerLog_writes F N _ _ 0 s s1 log hN (hstopOf t ht)
      (fun _ _ _ => Nat.zero_le _) hlog).2 k
    rcases this with h | h
    · exact h
    · exact absurd (hin t s (s1, log) ht hst hlog k h) hk
  · intro u su st hu hne hgood hrun i hi
    have h1 := hin t s (s1, log) ht hst hlog i hi.1
    have h2 := hin u su st hu hgood hrun i hi.2
    rcases Nat.lt_or_gt_of_ne hne with h | h
    · have := ranges_ordered N T u t hU hw h ht
      omega
    · have := ranges_ordered N T t u hU hw h hu
      omega

/-- C15 at the bound 1000 for worker 3 of 7 on the initial array. -/
theorem C15_worker_writes_inside_own_range_witness :
    ∃ s1 log, workerLog 1002 1000 (startRange 1000 7 3) (endRange 1000 7 3)
        (initSieve 1000) = .ok (s1, log) ∧
      (∀ i, Access.write i ∈ log → startRange 1000 7 3 ≤ i ∧ i < endRange 1000 7 3) ∧
      (∀ k : Nat, ¬ (startRange 1000 7 3 ≤ k ∧ k < endRange 1000 7 3) →
        s1[k]? = (initSieve 1000)[k]?) ∧
      ∀ u su st, u < 7 → u ≠ 3 → startRange 1000 7 u + 65535 ≤ UINT →
        workerLog 1002 1000 (startRange 1000 7 u) (endRange 1000 7 u) su = .ok st →
        ∀ i, ¬ (Access.write i ∈ log ∧ Access.write i ∈ st.2) :=
  C15_worker_writes_inside_own_range 1002 1000 7 3 (initSieve 1000) (by decide) (by decide)
    (by decide) (by decide) (by decide) (initSieve_length 1000 (by decide))

/-- C16: for every bound, every budget and whatever `primes` and `primeCount`
held before the call, when one of the three methods returns, `primeCount` equals
the length of `primes`; the three methods return for `N < 65531^2`, `T ≤ 65536`
and a budget of at least `max (N + 2) 10922`. -/
theorem C16_count_equals_length (F : Nat) (c : PrimeCalculator) :
    (∀ r, classicPrimalityTest F c = .ok r → r.primeCount = r.primes.length) ∧
      (∀ r, sieveOfEratosthenes F c = .ok r → r.primeCount = r.primes.length) ∧
      (∀ r, multithreadedSieveOfEratosthenes F c = .ok r →
        r.primeCount = r.primes.length) ∧
      (c.limit < 4294311961 → c.numThreads ≤ 65536 → c.limit + 2 ≤ F → 10922 ≤ F →
        (∃ r, classicPrimalityTest F c = .ok r) ∧ (∃ r, sieveOfEratosthenes F c = .ok r) ∧
          ∃ r, multithreadedSieveOfEratosthenes F c = .ok r) :=
  ⟨fun r h => classicPrimalityTest_count F c r h,
    fun r h => sieveOfEratosthenes_count F c r h,
    fun r h => multithreaded_count F c r h,
    fun hN hT hF1 hF2 => ⟨⟨_, classicPrimalityTest_run F c hN hF1 hF2⟩,
      ⟨_, sieveOfEratosthenes_run F c (by omega) hF1⟩,
      multithreaded_returns F c (by omega) hT hF1⟩⟩

/-- C16 at the bound 1000 with 7 threads, starting from stale results: each of
the three methods returns a state whose counter is the length of its list. -/
theorem C16_count_equals_length_witness :
    (∃ r, classicPrimalityTest 10922 ⟨1000, [4, 4], 7, 7⟩ = .ok r ∧
        r.primeCount = r.primes.length) ∧
      (∃ r, sieveOfEratosthenes 10922 ⟨1000, [4, 4], 7, 7⟩ = .ok r ∧
        r.primeCount = r.primes.length) ∧
      (∃ r, multithreadedSieveOfEratosthenes 10922 ⟨1000, [4, 4], 7, 7⟩ = .ok r ∧
        r.primeCount = r.primes.length) := by
  obtain ⟨h1, h2, h3, h4⟩ := C16_count_equals_length 10922 ⟨1000, [4, 4], 7, 7⟩
  obtain ⟨⟨r1, e1⟩, ⟨r2, e2⟩, ⟨r3, e3⟩⟩ := h4 (by decide) (by decide) (by decide) (by decide)
  exact ⟨⟨r1, e1, h1 r1 e1⟩, ⟨r2, e2, h2 r2 e2⟩, ⟨r3, e3, h3 r3 e3⟩⟩

/-- C17: for every start index `s` and base `p` with `2 ≤ p ≤ 65535` and
`s ≤ 2^32 - 65535` (no wraparound), the first index of the inner loop is
`max (p * p) ((s + p - 1) / p * p)`; it is a multiple of `p`, at least `s` and at
least `p * p`, and no multiple of `p` with these two bounds is smaller.  The
inner loop run from it up to `stop` on an array of at least `stop` flags (budget
above `stop`) returns; the indices it writes are exactly the multiples of `p` in
`[max s (p * p), stop)`; in the array it returns the flags of exactly these
indices are false, and every other flag is as it was. -/
theorem C17_first_index_is_least_multiple (s p stop fuel : Nat) (sieve : List Bool)
    (hp : 2 ≤ p) (hp2 : p ≤ 65535) (hs : s + 65535 ≤ UINT) (hstop : stop + 65535 ≤ UINT)
    (hfuel : stop < fuel) (hlen : stop ≤ sieve.length) :
    firstIndex s p = max (p * p) ((s + p - 1) / p * p) ∧
      (p ∣ firstIndex s p ∧ s ≤ firstIndex s p ∧ p * p ≤ firstIndex s p) ∧
      (∀ k, p ∣ k → s ≤ k → p * p ≤ k → firstIndex s p ≤ k) ∧
      ∃ s1 log, workerInner stop p fuel (firstIndex s p) sieve = .ok s1 ∧
        workerInnerLog stop p fuel (firstIndex s p) (sieve, []) = .ok (s1, log) ∧
        s1.length = sieve.length ∧
        (∀ k, Access.write k ∈ log ↔ (p ∣ k ∧ max s (p * p) ≤ k ∧ k < stop)) ∧
        (∀ k : Nat, (p ∣ k ∧ max s (p * p) ≤ k ∧ k < stop) → s1[k]? = some false) ∧
        ∀ k : Nat, ¬ (p ∣ k ∧ max s (p * p) ≤ k ∧ k < stop) → s1[k]? = sieve[k]? := by
  have hfe := firstIndex_eq s p (by omega) hp2 hs
  have hfm := firstIndex_multiple s p hp2
  have hge := start_le_firstIndex s hs p hp hp2
  have hleast : ∀ k, p ∣ k → s ≤ k → p * p ≤ k → firstIndex s p ≤ k := by
    intro k hd hk hpk
    rw [hfe]
    exact max_le hpk (roundUp_le s p k (by omega) hk hd)
  have hfuelI : stop + p ≤ firstIndex s p + p * fuel := by
    have h1 : p * (stop + 1) ≤ p * fuel := Nat.mul_le_mul_left p hfuel
    have h2 : p * (stop + 1) = p * stop + p := by ring
    have h3 : 1 * stop ≤ p * stop := Nat.mul_le_mul_right _ (by omega)
    omega
  obtain ⟨s1, hrun, hl1, hget⟩ := workerInner_spec stop p (by omega) (by omega) fuel
    (firstIndex s p) sieve hfm.1 (by omega) hfuelI
  obtain ⟨log, hlog⟩ := workerInnerLog_of_workerInner stop p fuel (firstIndex s p)
    (sieve, []) s1 hrun
  have hset : ∀ k, (firstIndex s p ≤ k ∧ k < stop ∧ p ∣ k) ↔
      (p ∣ k ∧ max s (p * p) ≤ k ∧ k < stop) := by
    intro k
    constructor
    · rintro ⟨h1, h2, h3⟩
      exact ⟨h3, max_le (le_trans hge h1) (le_trans hfm.2 h1), h2⟩
    · rintro ⟨h1, h2, h3⟩
      exact ⟨hleast k h1 (le_trans (le_max_left _ _) h2) (le_trans (le_max_right _ _) h2),
        h3, h1⟩
  refine ⟨hfe, ⟨hfm.1, hge, hfm.2⟩, hleast, s1, log, hrun, hlog, hl1, ?_, ?_, ?_⟩
  · intro k
    have := (workerInnerLog_spec stop p (by omega) fuel (firstIndex s p) (sieve, []) (s1, log)
      hfm.1 hlog).1 (Access.write k)
    rw [this, ← hset k]
    constructor
    · rintro (h | ⟨j, h1, h2, h3, h4⟩)
      · cases h
      · cases h1
        exact ⟨h2, h3, h4⟩
    · rintro ⟨h1, h2, h3⟩
      exact Or.inr ⟨k, rfl, h1, h2, h3⟩
  · intro k hk
    rw [hget k, if_pos ((hset k).2 hk), List.getElem?_eq_getElem (by omega : k < sieve.length)]
    rfl
  · intro k hk
    rw [hget k, if_neg (fun h => hk ((hset k).1 h))]

/-- C17 for the start index 15, the base 2 and the end 30 on the initial array of
the bound 30. -/
theorem C17_first_index_is_least_multiple_witness :
    firstIndex 15 2 = max (2 * 2) ((15 + 2 - 1) / 2 * 2) ∧
      (2 ∣ firstIndex 15 2 ∧ 15 ≤ firstIndex 15 2 ∧ 2 * 2 ≤ firstIndex 15 2) ∧
      (∀ k, 2 ∣ k → 15 ≤ k → 2 * 2 ≤ k → firstIndex 15 2 ≤ k) ∧
      ∃ s1 log, workerInner 30 2 31 (firstIndex 15 2) (initSieve 30) = .ok s1 ∧
        workerInnerLog 30 2 31 (firstIndex 15 2) (initSieve 30, []) = .ok (s1, log) ∧
        s1.length = (initSieve 30).length ∧
        (∀ k, Access.write k ∈ log ↔ (2 ∣ k ∧ max 15 (2 * 2) ≤ k ∧ k < 30)) ∧
        (∀ k : Nat, (2 ∣ k ∧ max 15 (2 * 2) ≤ k ∧ k < 30) → s1[k]? = some false) ∧
        ∀ k : Nat, ¬ (2 ∣ k ∧ max 15 (2 * 2) ≤ k ∧ k < 30) → s1[k]? = (initSieve 30)[k]? :=
  C17_first_index_is_least_multiple 15 2 30 31 (initSieve 30) (by decide) (by decide)
    (by decide) (by decide) (by decide) (by decide)

set_option maxRecDepth 1000000 in
/-- C18 (the code departs from it): with the bound 31 and two threads, which do
not divide 31, the sequential sieve returns the eleven primes up to 31, but under
the schedule in which thread 1 stores the word of the flags that it loaded before
thread 0 cleared the flag of 4, the parallel sieve returns twelve numbers, the
composite 4 among them. -/
theorem C18_lost_update_adds_a_composite :
    ¬ 2 ∣ 31 ∧
      sieveOfEratosthenes 33 ⟨31, [], 0, 2⟩ =
        .ok ⟨31, [2, 3, 5, 7, 11, 13, 17, 19, 23, 29, 31], 11, 2⟩ ∧
      multithreadedSieveOfEratosthenesSched 33
          ([0, 0, 1, 1, 0, 1] ++ List.replicate 24 0 ++ List.replicate 44 1) ⟨31, [], 0, 2⟩ =
        .ok ⟨31, [2, 3, 4, 5, 7, 11, 13, 17, 19, 23, 29, 31], 12, 2⟩ := by
  decide

/-- C19 (the code departs from it): for the bound 0 the array has one flag, and
the initialisation `sieve[0] = sieve[1] = false`, which both sieves perform,
writes index 1. -/
theorem C19_initialisation_writes_past_one_flag :
    (List.replicate ((0 + 1) % UINT) true).length = 1 ∧
      Access.write 1 ∈ initAccesses ∧
      initSieve 0 = initAccesses.foldl applyAccess (List.replicate ((0 + 1) % UINT) true) ∧
      ¬ (∀ i, Access.write i ∈ initAccesses →
        i < (List.replicate ((0 + 1) % UINT) true).length) := by
  refine ⟨by decide, by decide, rfl, ?_⟩
  intro h
  have := h 1 (by decide)
  revert this
  decide

/-- C20 (the code departs from it): 4294967291 is prime, yet `isPrime` returns
`false` for it with every budget of at least 715827882 and returns nothing with
a smaller one.  The wrapped product `i * i` never exceeds `n`, so the loop runs
until `i` reaches `n` itself and finds `n % i == 0`. -/
theorem C20_isPrime_rejects_prime_4294967291 :
    Nat.Prime 4294967291 ∧ isPrime 715827882 4294967291 = .ok false ∧
      (∀ F, 715827882 ≤ F → isPrime F 4294967291 = .ok false) ∧
      ¬ ∃ F, isPrime F 4294967291 = .ok true := by
  have h : ∀ F, 715827882 ≤ F → isPrime F 4294967291 = .ok false := by
    intro F hF
    rw [isPrime_above_bound F, if_pos hF]
  refine ⟨prime_4294967291, h 715827882 (le_refl _), h, ?_⟩
  rintro ⟨F, hF⟩
  rw [isPrime_above_bound F] at hF
  by_cases hc : 715827882 ≤ F
  · rw [if_pos hc] at hF
    cases hF
  · rw [if_neg hc] at hF
    cases hF

end PrimeCalculator
